import Mathlib

/-!
# Verification of the SLIP-0039 Shamir secret-sharing implementation (slip39-ts)

A shallow embedding of the TypeScript sources (`src/slip39.ts`, `src/utils.ts`,
`src/slip39_helper.ts`) into Lean 4, together with proofs and refutations of the
frozen behavioural claims about the library.

Conventions of the embedding:
* JavaScript `number[]` byte arrays become `List Nat` (with `< 256` bounds carried
  as hypotheses where the surrounding code guarantees them).
* Fallible code (`throw`) becomes `Except String`.
* JavaScript strings that the code only ever treats as character-code arrays
  (passphrases, customization strings) are represented directly by their lists of
  character codes, so `encodeHexString` from `utils.ts` becomes the identity.
* A mnemonic string is represented by its list of word indices: the SLIP-0039
  word list is an external 1024-entry data asset (not part of the sources), words
  of the list correspond bijectively to indices `0..1023` and a word outside the
  list is represented by an arbitrary number `≥ 1024`.  The space-join/split and
  lowercasing layer of `mnemonicFromIndices` / `mnemonicToIndices` is the
  identity on such word sequences.
* The external cryptographic primitives (PBKDF2-HMAC-SHA-256, HMAC-SHA-256) and
  the system RNG are taken as explicit function parameters; the I/O contracts the
  spec assumes for them (output length, byte range) appear as hypotheses.
* The file `src/constants.ts` is not part of the given sources; its constants are
  modelled from the spec (§4.1, §6) and are marked `Modelled from the spec:` below.
-/

set_option maxRecDepth 10000

/-! ## utils.ts -/

/-- `bitsToBytes` from `utils.ts`: `Math.floor((n + 7) / 8)`. -/
def bitsToBytes (n : Nat) : Nat := (n + 7) / 8

/-- `bitsToWords` from `utils.ts`: `Math.floor((n + RADIX_BITS - 1) / RADIX_BITS)`
with `RADIX_BITS = 10`. -/
def bitsToWords (n : Nat) : Nat := (n + 10 - 1) / 10

/-- `listsAreEqual` from `utils.ts`: two number arrays are equal iff they have the
same length and agree pointwise; this is exactly list equality. -/
def listsAreEqual (a b : List Nat) : Bool := a == b

/-- `decodeBigInt` from `utils.ts`: the big-endian unsigned integer value of a
byte array (the source sums `bytes[len-1-i] << 8*i`; the left fold computes the
same value). -/
def decodeBigInt (bytes : List Nat) : Nat :=
  bytes.foldl (fun acc b => acc * 256 + b) 0

/-- The while loop of `encodeBigInt` with explicit fuel (the loop runs at most
`v` times since `v / 256 < v` for positive `v`; structural recursion on the
fuel keeps the definition kernel-reducible). -/
def encodeBigIntAux : Nat → Nat → List Nat
  | 0, _ => []
  | fuel + 1, v => if v = 0 then [] else encodeBigIntAux fuel (v / 256) ++ [v % 256]

/-- The while loop of `encodeBigInt`: big-endian byte digits of `v`. -/
def encodeBigIntCore (v : Nat) : List Nat := encodeBigIntAux v v

/-- `encodeBigInt` from `utils.ts`: big-endian bytes of `v`, left-padded with
zeros to `paddedLength`; throws when the value needs more than `paddedLength`
bytes. -/
def encodeBigInt (v : Nat) (paddedLength : Nat) : Except String (List Nat) :=
  let result := encodeBigIntCore v
  let padded := List.replicate (paddedLength - result.length) 0 ++ result
  if paddedLength ≠ 0 ∧ padded.length > paddedLength then
    .error "Error in encoding BigInt value"
  else
    .ok padded

/-! ## Constants (`src/constants.ts` is absent from the sources).

Modelled from the spec (§6, bit-exact constants): `RADIX_BITS=10`,
`ID_BITS_LENGTH=15`, `ITERATION_EXP_BITS_LENGTH=4`,
`EXTENDABLE_BACKUP_FLAG_BITS_LENGTH=1`, `CHECKSUM_WORDS_LENGTH=3`,
`METADATA_WORDS_LENGTH=7`, `MIN_ENTROPY_BITS=128`, `MAX_SHARE_COUNT=16`,
`MAX_ITERATION_EXP=16`, `ITERATION_COUNT=10000`, `ROUND_COUNT=4`,
`DIGEST_LENGTH=4`, `DIGEST_INDEX=254`, `SECRET_INDEX=255`,
`MNEMONICS_WORDS_LENGTH=20`.

The spec lists `ITERATION_EXP_WORDS_LENGTH=3`, but that value contradicts the
spec's own `METADATA_WORDS_LENGTH=7` (id/exp words + 2 nibble words + 3 checksum
words must total 7), its `MNEMONICS_WORDS_LENGTH=20` minimum (a 16-byte share
takes 13 words, so metadata takes 7), and the required SLIP-0039 wire format
(identifier 15 bits ‖ flag 1 bit ‖ exponent 4 bits = 20 bits = exactly two
10-bit words).  All three force `ITERATION_EXP_WORDS_LENGTH = 2`, which is the
value used here. -/

def RADIX_BITS : Nat := 10
def ID_BITS_LENGTH : Nat := 15
def ITERATION_EXP_BITS_LENGTH : Nat := 4
def EXTENDABLE_BACKUP_FLAG_BITS_LENGTH : Nat := 1
def ITERATION_EXP_WORDS_LENGTH : Nat := 2
def CHECKSUM_WORDS_LENGTH : Nat := 3
def METADATA_WORDS_LENGTH : Nat := 7
def MIN_ENTROPY_BITS : Nat := 128
def MAX_SHARE_COUNT : Nat := 16
def MAX_ITERATION_EXP : Nat := 16
def ITERATION_COUNT : Nat := 10000
def ROUND_COUNT : Nat := 4
def DIGEST_LENGTH : Nat := 4
def DIGEST_INDEX : Nat := 254
def SECRET_INDEX : Nat := 255
def MNEMONICS_WORDS_LENGTH : Nat := 20

/-- Modelled from the spec (§4.3): the character codes of the ASCII string
"shamir". -/
def CUSTOMIZATION_STRING_NON_EXTENDABLE : List Nat :=
  [115, 104, 97, 109, 105, 114]

/-- Modelled from the spec (§4.3): the character codes of the ASCII string
"shamir_extendable". -/
def CUSTOMIZATION_STRING_EXTENDABLE : List Nat :=
  [115, 104, 97, 109, 105, 114, 95, 101, 120, 116, 101, 110, 100, 97, 98, 108,
   101]

/-! ## GF(256) tables.

Modelled from the spec (§4.1): logarithm and exponent tables over GF(2⁸) with
primitive polynomial x⁸+x⁴+x³+x+1 (`0x11b`) and generator 3; `EXP[i] = 3^i`,
`LOG` its inverse with `LOG[1] = 0`.  The entry `LOG[0]` is a filler `0`, as in
the standard precomputed table: the spec's own basis formula (§4.2) sums
`LOG[x_i ⊕ x_k]` over all `k` including `k = i`, which only denotes the intended
product when the `LOG[0]` term contributes `0`. -/

/-- Multiplication by `x` (i.e. by 2) in GF(2⁸) modulo x⁸+x⁴+x³+x+1. -/
def xtime (b : Nat) : Nat := if b < 128 then 2 * b else (2 * b) ^^^ 0x11b

/-- Multiplication by the generator 3 in GF(2⁸). -/
def mul3 (b : Nat) : Nat := xtime b ^^^ b

/-- `n` successive powers of the generator starting at `e`. -/
def expAux : Nat → Nat → List Nat
  | 0, _ => []
  | n + 1, e => e :: expAux n (mul3 e)

/-- Modelled from the spec: `EXP_TABLE[i] = 3^i` in GF(256), 255 entries. -/
def EXP_TABLE : List Nat := expAux 255 1

/-- Modelled from the spec: `LOG_TABLE[EXP_TABLE[i]] = i`, with filler `0` at
index 0. -/
def LOG_TABLE : List Nat :=
  (List.range 256).map (fun x => if x = 0 then 0 else EXP_TABLE.indexOf x)

/-- Table lookup `EXP_TABLE[i]` (total; all uses are in range). -/
def EXPT (i : Nat) : Nat := EXP_TABLE.getD i 0

/-- Table lookup `LOG_TABLE[b]` (total; all uses are in range). -/
def LOGT (b : Nat) : Nat := LOG_TABLE.getD b 0

/-! ### Facts about the tables, established by computation. -/

theorem expt_lt : ∀ i : Nat, i < 255 → EXPT i < 256 := fun i h =>
  (by decide : ∀ j : Fin 255, EXPT j.val < 256) ⟨i, h⟩

theorem expt_ne_zero : ∀ i : Nat, i < 255 → EXPT i ≠ 0 := fun i h =>
  (by decide : ∀ j : Fin 255, EXPT j.val ≠ 0) ⟨i, h⟩

theorem logt_expt : ∀ i : Nat, i < 255 → LOGT (EXPT i) = i := fun i h =>
  (by decide : ∀ j : Fin 255, LOGT (EXPT j.val) = j.val) ⟨i, h⟩

theorem expt_logt : ∀ x : Nat, x < 256 → x ≠ 0 → EXPT (LOGT x) = x := fun x h =>
  (by decide : ∀ j : Fin 256, j.val ≠ 0 → EXPT (LOGT j.val) = j.val) ⟨x, h⟩

theorem logt_lt : ∀ x : Nat, x < 256 → LOGT x < 255 := fun x h =>
  (by decide : ∀ j : Fin 256, LOGT j.val < 255) ⟨x, h⟩

theorem expt_zero : EXPT 0 = 1 := by decide

theorem logt_zero : LOGT 0 = 0 := by decide

theorem logt_one : LOGT 1 = 0 := by decide

theorem expt_succ : ∀ i : Nat, i < 255 → EXPT ((i + 1) % 255) = mul3 (EXPT i) :=
  fun i h =>
  (by decide : ∀ j : Fin 255, EXPT ((j.val + 1) % 255) = mul3 (EXPT j.val)) ⟨i, h⟩

theorem mul3_lt : ∀ b : Nat, b < 256 → mul3 b < 256 := fun b h =>
  (by decide : ∀ j : Fin 256, mul3 j.val < 256) ⟨b, h⟩

theorem mul3_zero : mul3 0 = 0 := by decide

/-! ### Xor-linearity of multiplication by the generator. -/

theorem xor_left_comm (a b c : Nat) : a ^^^ (b ^^^ c) = b ^^^ (a ^^^ c) := by
  rw [← Nat.xor_assoc, Nat.xor_comm a b, Nat.xor_assoc]

theorem xor_shiftLeft (x y n : Nat) : (x ^^^ y) <<< n = x <<< n ^^^ y <<< n := by
  apply Nat.eq_of_testBit_eq
  intro i
  simp only [Nat.testBit_shiftLeft, Nat.testBit_xor]
  cases h : decide (n ≤ i) <;> simp

theorem xor_mul_two (x y : Nat) : (x ^^^ y) * 2 = x * 2 ^^^ y * 2 := by
  have h := xor_shiftLeft x y 1
  simpa [Nat.shiftLeft_eq] using h

theorem testBit_seven {b : Nat} (h : b < 256) : b.testBit 7 = decide (128 ≤ b) := by
  rw [Nat.testBit_to_div_mod]
  have h7 : (2 : Nat) ^ 7 = 128 := by norm_num
  rw [h7, decide_eq_decide]
  omega

theorem xtime_eq {b : Nat} (h : b < 256) :
    xtime b = b * 2 ^^^ (if b.testBit 7 then 283 else 0) := by
  rw [xtime, testBit_seven h]
  rcases Nat.lt_or_ge b 128 with h' | h'
  · simp [Nat.not_le.mpr h', h', Nat.mul_comm]
  · simp [Nat.not_lt.mpr h', h', Nat.mul_comm]

theorem xtime_linear {x y : Nat} (hx : x < 256) (hy : y < 256) :
    xtime (x ^^^ y) = xtime x ^^^ xtime y := by
  have hxy : x ^^^ y < 256 := Nat.xor_lt_two_pow (n := 8) hx hy
  rw [xtime_eq hxy, xtime_eq hx, xtime_eq hy, Nat.testBit_xor, xor_mul_two]
  cases h7x : x.testBit 7 <;> cases h7y : y.testBit 7 <;>
    simp [Nat.xor_assoc, xor_left_comm, Nat.xor_comm]

theorem mul3_linear {x y : Nat} (hx : x < 256) (hy : y < 256) :
    mul3 (x ^^^ y) = mul3 x ^^^ mul3 y := by
  rw [mul3, mul3, mul3, xtime_linear hx hy]
  rw [Nat.xor_assoc, Nat.xor_assoc]
  exact congrArg (xtime x ^^^ ·) (xor_left_comm _ _ _)

/-! ### The field GF(256).

`GF` packages a byte with its bound; addition is xor and multiplication is the
table-based product used by `interpolate` in `slip39_helper.ts`.  The `Field`
instance lets us use Mathlib's Lagrange-interpolation theory for the Shamir
round-trip proofs. -/

structure GF where
  val : Nat
  isLt : val < 256

theorem GF.ext {a b : GF} (h : a.val = b.val) : a = b := by
  cases a; cases b; simpa using h

instance : DecidableEq GF := fun a b =>
  decidable_of_iff (a.val = b.val) ⟨GF.ext, fun h => h ▸ rfl⟩

instance : Zero GF := ⟨⟨0, by omega⟩⟩

instance : One GF := ⟨⟨1, by omega⟩⟩

theorem GF.zero_val : (0 : GF).val = 0 := rfl

theorem GF.one_val : (1 : GF).val = 1 := rfl

theorem GF.val_eq_zero {a : GF} : a.val = 0 ↔ a = 0 :=
  ⟨fun h => GF.ext h, fun h => h ▸ rfl⟩

instance : Add GF :=
  ⟨fun a b => ⟨a.val ^^^ b.val, Nat.xor_lt_two_pow (n := 8) a.isLt b.isLt⟩⟩

theorem GF.add_val (a b : GF) : (a + b).val = a.val ^^^ b.val := rfl

/-- The multiplication `x·y = EXP[(LOG[x]+LOG[y]) mod 255]` of §4.1 (zero
absorbing). -/
def GF.mul (a b : GF) : GF :=
  if a.val = 0 ∨ b.val = 0 then ⟨0, by omega⟩
  else ⟨EXPT ((LOGT a.val + LOGT b.val) % 255),
        expt_lt _ (Nat.mod_lt _ (by omega))⟩

instance : Mul GF := ⟨GF.mul⟩

/-- The inverse `x⁻¹ = EXP[(255 − LOG[x]) mod 255]` (zero mapped to zero). -/
def GF.inv (a : GF) : GF :=
  if a.val = 0 then ⟨0, by omega⟩
  else ⟨EXPT ((255 - LOGT a.val) % 255), expt_lt _ (Nat.mod_lt _ (by omega))⟩

instance : Inv GF := ⟨GF.inv⟩

instance : Neg GF := ⟨fun a => a⟩

theorem GF.neg_eq (a : GF) : -a = a := rfl

theorem GF.mul_def (a b : GF) :
    a * b = if a.val = 0 ∨ b.val = 0 then (0 : GF)
      else ⟨EXPT ((LOGT a.val + LOGT b.val) % 255),
            expt_lt _ (Nat.mod_lt _ (by omega))⟩ := rfl

theorem GF.mul_val_of_ne {a b : GF} (ha : a.val ≠ 0) (hb : b.val ≠ 0) :
    (a * b).val = EXPT ((LOGT a.val + LOGT b.val) % 255) := by
  rw [GF.mul_def]
  simp [ha, hb]

/-- Multiplication of the byte `x` by the fixed field element `EXP[c]`, in the
log-domain form the code uses. -/
def mulExp (c : Nat) (x : Nat) : Nat :=
  if x = 0 then 0 else EXPT ((LOGT x + c) % 255)

theorem mulExp_lt {c x : Nat} (hx : x < 256) : mulExp c x < 256 := by
  rw [mulExp]
  split
  · omega
  · exact expt_lt _ (Nat.mod_lt _ (by omega))

theorem mulExp_zero_exponent {x : Nat} (hx : x < 256) : mulExp 0 x = x := by
  rw [mulExp]
  split
  · omega
  · rw [Nat.add_zero, Nat.mod_eq_of_lt (logt_lt _ hx)]
    exact expt_logt _ hx (by assumption)

theorem mulExp_succ (c x : Nat) (hx : x < 256) :
    mulExp (c + 1) x = mul3 (mulExp c x) := by
  rw [mulExp, mulExp]
  split
  · rw [mul3_zero]
  · have hm : (LOGT x + c) % 255 < 255 := Nat.mod_lt _ (by omega)
    have := expt_succ _ hm
    have harg : (LOGT x + (c + 1)) % 255 = ((LOGT x + c) % 255 + 1) % 255 := by
      omega
    rw [harg, this]

theorem mulExp_linear (c : Nat) {x y : Nat} (hx : x < 256) (hy : y < 256) :
    mulExp c (x ^^^ y) = mulExp c x ^^^ mulExp c y := by
  induction c with
  | zero =>
    have hxy : x ^^^ y < 256 := Nat.xor_lt_two_pow (n := 8) hx hy
    rw [mulExp_zero_exponent hx, mulExp_zero_exponent hy, mulExp_zero_exponent hxy]
  | succ c ih =>
    have hxy : x ^^^ y < 256 := Nat.xor_lt_two_pow (n := 8) hx hy
    rw [mulExp_succ c _ hxy, mulExp_succ c _ hx, mulExp_succ c _ hy, ih,
      mul3_linear (mulExp_lt hx) (mulExp_lt hy)]

theorem GF.mul_val_eq_mulExp {a : GF} (ha : a.val ≠ 0) (b : GF) :
    (a * b).val = mulExp (LOGT a.val) b.val := by
  rw [GF.mul_def, mulExp]
  rcases Classical.em (b.val = 0) with hb | hb
  · rw [if_pos (Or.inr hb), if_pos hb, GF.zero_val]
  · rw [if_neg (by tauto), if_neg hb, Nat.add_comm]

theorem GF.mul_comm' (a b : GF) : a * b = b * a := by
  apply GF.ext
  rw [GF.mul_def, GF.mul_def]
  rcases Classical.em (a.val = 0) with ha | ha
  · simp [ha]
  · rcases Classical.em (b.val = 0) with hb | hb
    · simp [hb]
    · simp [ha, hb, Nat.add_comm]

theorem GF.mul_assoc' (a b c : GF) : a * b * c = a * (b * c) := by
  apply GF.ext
  rcases Classical.em (a.val = 0) with ha | ha
  · rw [GF.mul_def (a * b) c, GF.mul_def a b, GF.mul_def a (b * c)]
    simp [ha, GF.zero_val]
  · rcases Classical.em (b.val = 0) with hb | hb
    · rw [GF.mul_def (a * b) c, GF.mul_def a b, GF.mul_def a (b * c),
        GF.mul_def b c]
      simp [hb, GF.zero_val]
    · rcases Classical.em (c.val = 0) with hc | hc
      · rw [GF.mul_def (a * b) c, GF.mul_def a (b * c), GF.mul_def b c]
        simp [hc, GF.zero_val]
      · have hab : (a * b).val = EXPT ((LOGT a.val + LOGT b.val) % 255) :=
          GF.mul_val_of_ne ha hb
        have hbc : (b * c).val = EXPT ((LOGT b.val + LOGT c.val) % 255) :=
          GF.mul_val_of_ne hb hc
        have habne : (a * b).val ≠ 0 := by
          rw [hab]; exact expt_ne_zero _ (Nat.mod_lt _ (by omega))
        have hbcne : (b * c).val ≠ 0 := by
          rw [hbc]; exact expt_ne_zero _ (Nat.mod_lt _ (by omega))
        rw [GF.mul_val_of_ne habne hc, GF.mul_val_of_ne ha hbcne, hab, hbc,
          logt_expt _ (Nat.mod_lt _ (by omega)),
          logt_expt _ (Nat.mod_lt _ (by omega))]
        have : ((LOGT a.val + LOGT b.val) % 255 + LOGT c.val) % 255 =
            (LOGT a.val + (LOGT b.val + LOGT c.val) % 255) % 255 := by omega
        rw [this]

theorem GF.one_mul' (a : GF) : 1 * a = a := by
  apply GF.ext
  rcases Classical.em (a.val = 0) with ha | ha
  · rw [GF.mul_def, if_pos (Or.inr ha), GF.zero_val, ha]
  · rw [GF.mul_val_of_ne (by rw [GF.one_val]; omega) ha, GF.one_val, logt_one,
      Nat.zero_add, Nat.mod_eq_of_lt (logt_lt _ a.isLt)]
    exact expt_logt _ a.isLt ha

theorem GF.zero_mul' (a : GF) : 0 * a = 0 := by
  apply GF.ext
  rw [GF.mul_def, if_pos (Or.inl GF.zero_val)]

theorem GF.mul_zero' (a : GF) : a * 0 = 0 := by
  rw [GF.mul_comm']
  exact GF.zero_mul' a

theorem GF.left_distrib' (a b c : GF) : a * (b + c) = a * b + a * c := by
  apply GF.ext
  rcases Classical.em (a.val = 0) with ha | ha
  · rw [GF.add_val, GF.mul_def, GF.mul_def, GF.mul_def]
    simp [ha, GF.zero_val]
  · rw [GF.add_val, GF.mul_val_eq_mulExp ha, GF.mul_val_eq_mulExp ha,
      GF.mul_val_eq_mulExp ha, GF.add_val]
    exact mulExp_linear _ b.isLt c.isLt

theorem GF.mul_inv_cancel' (a : GF) (h : a ≠ 0) : a * a⁻¹ = 1 := by
  have ha : a.val ≠ 0 := fun hv => h (GF.ext hv)
  have hinv : (a⁻¹).val = EXPT ((255 - LOGT a.val) % 255) := by
    show (GF.inv a).val = _
    rw [GF.inv, if_neg ha]
  have hinvne : (a⁻¹).val ≠ 0 := by
    rw [hinv]; exact expt_ne_zero _ (Nat.mod_lt _ (by omega))
  apply GF.ext
  rw [GF.mul_val_of_ne ha hinvne, hinv, logt_expt _ (Nat.mod_lt _ (by omega))]
  have hlog : LOGT a.val < 255 := logt_lt _ a.isLt
  have : (LOGT a.val + (255 - LOGT a.val) % 255) % 255 = 0 := by omega
  rw [this, expt_zero, GF.one_val]

instance : Nontrivial GF :=
  ⟨⟨0, 1, fun h => by simpa using congrArg GF.val h⟩⟩

set_option maxHeartbeats 2000000 in
instance : CommRing GF where
  add := (· + ·)
  add_assoc a b c := GF.ext (by
    rw [GF.add_val, GF.add_val, GF.add_val, GF.add_val, Nat.xor_assoc])
  zero := 0
  zero_add a := GF.ext (by rw [GF.add_val, GF.zero_val, Nat.zero_xor])
  add_zero a := GF.ext (by rw [GF.add_val, GF.zero_val, Nat.xor_zero])
  add_comm a b := GF.ext (by rw [GF.add_val, GF.add_val, Nat.xor_comm])
  mul := (· * ·)
  mul_assoc := GF.mul_assoc'
  one := 1
  one_mul := GF.one_mul'
  mul_one a := by rw [GF.mul_comm']; exact GF.one_mul' a
  left_distrib := GF.left_distrib'
  right_distrib a b c := by
    rw [GF.mul_comm', GF.left_distrib', GF.mul_comm' c a, GF.mul_comm' c b]
  mul_comm := GF.mul_comm'
  zero_mul := GF.zero_mul'
  mul_zero := GF.mul_zero'
  neg := Neg.neg
  neg_add_cancel a := GF.ext (by
    rw [GF.neg_eq, GF.add_val, Nat.xor_self, GF.zero_val])
  nsmul := nsmulRec
  zsmul := zsmulRec

instance : Field GF where
  mul_inv_cancel := GF.mul_inv_cancel'
  inv_zero := GF.ext (by show (GF.inv 0).val = _; rw [GF.inv]; simp [GF.zero_val])
  nnqsmul := _
  nnqsmul_def := fun _ _ => rfl
  qsmul := _
  qsmul_def := fun _ _ => rfl

/-! ## JavaScript collection embeddings.

A JavaScript `Map` with number keys is an insertion-ordered association list
with distinct keys: `set` overwrites in place (keeping the original position)
or appends; iteration (`forEach`, `entries`, `values`) follows the list order;
`size` is the list length.  A `Set` of numbers is likewise an insertion-ordered
duplicate-free list. -/

def jsMapSet {α : Type} (m : List (Nat × α)) (k : Nat) (v : α) : List (Nat × α) :=
  if m.any (fun p => p.1 = k) then m.map (fun p => if p.1 = k then (k, v) else p)
  else m ++ [(k, v)]

def jsMapGet {α : Type} (m : List (Nat × α)) (k : Nat) : Option α :=
  (m.find? (fun p => p.1 = k)).map Prod.snd

def jsSetAdd (s : List Nat) (x : Nat) : List Nat :=
  if s.contains x then s else s ++ [x]

/-! ## slip39_helper.ts : Shamir core -/

/-- `xor` from `slip39_helper.ts`: pointwise xor, throwing on a length
mismatch. -/
def xorLists (a b : List Nat) : Except String (List Nat) :=
  if a.length ≠ b.length then
    .error "Invalid padding in mnemonic or insufficient length of mnemonics"
  else .ok (List.zipWith (fun x y => x ^^^ y) a b)

/-- `getSalt` from `slip39_helper.ts`. -/
def getSalt (identifier : List Nat) (extendableBackupFlag : Nat) : List Nat :=
  if extendableBackupFlag ≠ 0 then []
  else CUSTOMIZATION_STRING_NON_EXTENDABLE ++ identifier

/-- `interpolate` from `slip39_helper.ts`.  The `shares` map is an association
list (see above).  Notes on the translation:
* `sharesValueLengths` is the set of distinct value lengths;
* the `xCoord.has(x)` branch calls `Map.forEach` with a callback whose `return`
  is discarded and which throws on the first key different from `x`, so it
  errors exactly when `x` is a key and any other key exists, and otherwise
  falls through to the main computation;
* JavaScript `%` on a possibly negative dividend is the truncating remainder
  (`Int.tmod`), corrected afterwards by the `basis < 0 ? 255 + basis : basis`
  step. -/
def interpolate (shares : List (Nat × List Nat)) (x : Nat) :
    Except String (List Nat) :=
  let sharesValueLengths := (shares.map (fun p => p.2.length)).dedup
  if sharesValueLengths.length ≠ 1 then
    .error "Invalid set of shares. All share values must have the same length."
  else if (shares.map Prod.fst).contains x ∧ shares.any (fun p => p.1 ≠ x) then
    .error "Invalid set of shares. All share values must have the same length."
  else
    let logProd := shares.foldl (fun acc p => acc + LOGT (p.1 ^^^ x)) 0
    .ok <| shares.foldl (fun results p =>
      let sum := shares.foldl (fun a q => a + LOGT (p.1 ^^^ q.1)) 0
      let basis : Int :=
        ((logProd : Int) - (LOGT (p.1 ^^^ x) : Int) - (sum : Int)).tmod 255
      let logBasisEval := (if basis < 0 then 255 + basis else basis).toNat
      List.zipWith (fun acc item =>
        acc ^^^ (if item ≠ 0 then EXPT ((LOGT item + logBasisEval) % 255) else 0))
        results p.2)
      (List.replicate (sharesValueLengths.headD 0) 0)

/-- `createDigest` from `slip39_helper.ts`: the first four bytes of
HMAC-SHA-256 with key `randomData` over `sharedSecret`.  The HMAC primitive is
external (`subtle.sign`) and is passed as the parameter `hmac`. -/
def createDigest (hmac : List Nat → List Nat → List Nat)
    (randomData sharedSecret : List Nat) : List Nat :=
  (hmac randomData sharedSecret).take DIGEST_LENGTH

/-- `randomBytes` from `utils.ts`: the system RNG is modelled as a byte stream
`rng` read at a position; a call returns the next `n` bytes and the advanced
position. -/
def randomBytes (rng : Nat → Nat) (pos n : Nat) : List Nat × Nat :=
  ((List.range n).map (fun i => rng (pos + i)), pos + n)

/-- `count` successive `randomBytes` calls of `n` bytes each. -/
def randomBytesMany (rng : Nat → Nat) : Nat → Nat → Nat → List (List Nat) × Nat
  | pos, 0, _ => ([], pos)
  | pos, count + 1, n =>
    let r := randomBytes rng pos n
    let rest := randomBytesMany rng r.2 count n
    (r.1 :: rest.1, rest.2)

/-- `splitSecret` from `slip39_helper.ts`, with the RNG position threaded
through explicitly (the source calls the ambient RNG). -/
def splitSecret (hmac : List Nat → List Nat → List Nat) (rng : Nat → Nat)
    (pos : Nat) (threshold shareCount : Nat) (sharedSecret : List Nat) :
    Except String (List (List Nat) × Nat) :=
  if threshold = 0 then
    .error "The requested threshold must be a positive integer."
  else if threshold > shareCount then
    .error "The requested threshold must not exceed the number of shares."
  else if shareCount > MAX_SHARE_COUNT then
    .error "The requested number of shares must not exceed 16."
  else if threshold = 1 then
    .ok (List.replicate shareCount sharedSecret, pos)
  else
    let randomShareCount := threshold - 2
    let rp := randomBytes rng pos (sharedSecret.length - DIGEST_LENGTH)
    let randomPart := rp.1
    let digest := createDigest hmac randomPart sharedSecret
    let fl := randomBytesMany rng rp.2 randomShareCount sharedSecret.length
    let fillers := fl.1
    let baseShares := (List.range randomShareCount).zip fillers
      ++ [(DIGEST_INDEX, digest ++ randomPart), (SECRET_INDEX, sharedSecret)]
    match (List.range' randomShareCount (shareCount - randomShareCount)).mapM
        (fun i => interpolate baseShares i) with
    | .error e => .error e
    | .ok derived => .ok (fillers ++ derived, fl.2)

/-- `recoverSecret` from `slip39_helper.ts`.  (On an empty share map and
threshold 1 the JavaScript source would return `undefined`; the model returns
an error, and no use in this file reaches that case.) -/
def recoverSecret (hmac : List Nat → List Nat → List Nat) (threshold : Nat)
    (shares : List (Nat × List Nat)) : Except String (List Nat) :=
  if threshold = 1 then
    match shares.head? with
    | some p => .ok p.2
    | none => .error "The set of shares is empty."
  else
    match interpolate shares SECRET_INDEX with
    | .error e => .error e
    | .ok sharedSecret =>
      match interpolate shares DIGEST_INDEX with
      | .error e => .error e
      | .ok digestShare =>
        if listsAreEqual (digestShare.take DIGEST_LENGTH)
            (createDigest hmac (digestShare.drop DIGEST_LENGTH) sharedSecret) then
          .ok sharedSecret
        else .error "Invalid digest of the shared secret."

/-! ## slip39_helper.ts : RS1024 checksum -/

/-- The generator array of `rs1024Polymod`. -/
def RS1024_GEN : List Nat :=
  [0xe0e040, 0x1c1c080, 0x3838100, 0x7070200, 0xe0e0009, 0x1c0c2412,
   0x38086c24, 0x3090fc48, 0x21b1f890, 0x3f3f120]

/-- One step of the `rs1024Polymod` fold. -/
def rs1024Step (chk byte : Nat) : Nat :=
  let b := chk >>> 20
  let chk1 := ((chk &&& 0xfffff) <<< 10) ^^^ byte
  (List.range 10).foldl
    (fun c i => c ^^^ (if (b >>> i) &&& 1 ≠ 0 then RS1024_GEN.getD i 0 else 0))
    chk1

/-- `rs1024Polymod` from `slip39_helper.ts`. -/
def rs1024Polymod (data : List Nat) : Nat :=
  data.foldl rs1024Step 1

/-- `get_customization_string` from `slip39_helper.ts`. -/
def get_customization_string (extendableBackupFlag : Nat) : List Nat :=
  if extendableBackupFlag ≠ 0 then CUSTOMIZATION_STRING_EXTENDABLE
  else CUSTOMIZATION_STRING_NON_EXTENDABLE

/-- `rs1024CreateChecksum` from `slip39_helper.ts`. -/
def rs1024CreateChecksum (data : List Nat) (extendableBackupFlag : Nat) :
    List Nat :=
  let values := get_customization_string extendableBackupFlag ++ data
    ++ List.replicate CHECKSUM_WORDS_LENGTH 0
  let polymod := rs1024Polymod values ^^^ 1
  ((List.range CHECKSUM_WORDS_LENGTH).map
    (fun i => (polymod >>> (10 * i)) &&& 1023)).reverse

/-- `rs1024VerifyChecksum` from `slip39_helper.ts`. -/
def rs1024VerifyChecksum (data : List Nat) (extendableBackupFlag : Nat) : Bool :=
  rs1024Polymod (get_customization_string extendableBackupFlag ++ data) == 1

/-! ## slip39_helper.ts : mnemonic codec -/

/-- `intFromIndices` from `slip39_helper.ts`: the big-endian base-1024 value. -/
def intFromIndices (indices : List Nat) : Nat :=
  indices.foldl (fun value index => value * 2 ^ RADIX_BITS + index) 0

/-- `intToIndices` from `slip39_helper.ts`: `length` digits of `bits` bits each,
big-endian. -/
def intToIndices (value length bits : Nat) : List Nat :=
  ((List.range length).map
    (fun i => (value >>> (i * bits)) &&& ((1 <<< bits) - 1))).reverse

/-- `mnemonicFromIndices`: looks every index up in the external 1024-entry word
list and joins the words with spaces; in the word-level representation of
mnemonics (see the file header) this is the identity on index sequences. -/
def mnemonicFromIndices (indices : List Nat) : List Nat := indices

/-- `mnemonicToIndices`: lowercases, splits on spaces and maps every word
through the word map, throwing on a word outside the list; in the word-level
representation a word is in the list exactly when its number is `< 1024`. -/
def mnemonicToIndices (mnemonic : List Nat) : Except String (List Nat) :=
  if mnemonic.all (fun w => w < 1024) then .ok mnemonic
  else .error "Invalid mnemonic word."

/-- The decoded-share record (`IDecodedMnemonic` from `interfaces.ts`). -/
structure DecodedMnemonic where
  identifier : Nat
  extendableBackupFlag : Nat
  iterationExponent : Nat
  groupIndex : Nat
  groupThreshold : Nat
  groupCount : Nat
  memberIndex : Nat
  memberThreshold : Nat
  share : List Nat
deriving DecidableEq

/-- `groupPrefix` from `slip39_helper.ts` (the name is adjusted for Lean). -/
def groupPrefixWords (identifier extendableBackupFlag iterationExponent
    groupIndex groupThreshold groupCount : Nat) : List Nat :=
  let idExpInt :=
    (identifier <<< (ITERATION_EXP_BITS_LENGTH + EXTENDABLE_BACKUP_FLAG_BITS_LENGTH))
    + (extendableBackupFlag <<< ITERATION_EXP_BITS_LENGTH) + iterationExponent
  let indc := intToIndices idExpInt ITERATION_EXP_WORDS_LENGTH RADIX_BITS
  let indc2 := (groupIndex <<< 6) + ((groupThreshold - 1) <<< 2)
    + ((groupCount - 1) >>> 2)
  indc ++ [indc2]

/-- `encodeMnemonic` from `slip39_helper.ts`. -/
def encodeMnemonic (identifier : List Nat) (extendableBackupFlag
    iterationExponent groupIndex groupThreshold groupCount memberIndex
    memberThreshold : Nat) (value : List Nat) : List Nat :=
  let valueWordCount := bitsToWords (value.length * 8)
  let valueInt := decodeBigInt value
  let newIdentifier := decodeBigInt identifier
  let gp := groupPrefixWords newIdentifier extendableBackupFlag
    iterationExponent groupIndex groupThreshold groupCount
  let tp := intToIndices valueInt valueWordCount RADIX_BITS
  let calcWord := (((groupCount - 1) &&& 3) <<< 8) + (memberIndex <<< 4)
    + (memberThreshold - 1)
  let shareData := gp ++ [calcWord] ++ tp
  let checksum := rs1024CreateChecksum shareData extendableBackupFlag
  mnemonicFromIndices (shareData ++ checksum)

/-- `decodeMnemonic` from `slip39_helper.ts` (the early-return `throw`
statements appear as nested conditionals). -/
def decodeMnemonic (mnemonic : List Nat) : Except String DecodedMnemonic :=
  match mnemonicToIndices mnemonic with
  | .error e => .error e
  | .ok data =>
    if data.length < MNEMONICS_WORDS_LENGTH then
      .error "Invalid mnemonic length. The length of each mnemonic must be at least 20 words."
    else
      let paddingLen := (RADIX_BITS * (data.length - METADATA_WORDS_LENGTH)) % 16
      if paddingLen > 8 then
        .error "Invalid mnemonic length."
      else
        let idExpExtInt := intFromIndices (data.take ITERATION_EXP_WORDS_LENGTH)
        let identifier := idExpExtInt >>>
          (ITERATION_EXP_BITS_LENGTH + EXTENDABLE_BACKUP_FLAG_BITS_LENGTH)
        let extendableBackupFlag := (idExpExtInt >>> ITERATION_EXP_BITS_LENGTH) &&&
          ((1 <<< EXTENDABLE_BACKUP_FLAG_BITS_LENGTH) - 1)
        let iterationExponent := idExpExtInt &&& ((1 <<< ITERATION_EXP_BITS_LENGTH) - 1)
        if ¬ rs1024VerifyChecksum data extendableBackupFlag then
          .error "Invalid mnemonic checksum"
        else
          let tmp := intFromIndices ((data.drop ITERATION_EXP_WORDS_LENGTH).take 2)
          let indices := intToIndices tmp 5 4
          let groupIndex := indices.getD 0 0
          let groupThreshold := indices.getD 1 0
          let groupCount := indices.getD 2 0
          let memberIndex := indices.getD 3 0
          let memberThreshold := indices.getD 4 0
          let valueData := (data.drop (ITERATION_EXP_WORDS_LENGTH + 2)).take
            (data.length - CHECKSUM_WORDS_LENGTH - (ITERATION_EXP_WORDS_LENGTH + 2))
          if groupCount < groupThreshold then
            .error "Invalid mnemonic. Group threshold cannot be greater than group count."
          else
            let valueInt := intFromIndices valueData
            let valueByteCount := bitsToBytes (RADIX_BITS * valueData.length - paddingLen)
            match encodeBigInt valueInt valueByteCount with
            | .error _ => .error "Invalid mnemonic padding"
            | .ok share =>
              .ok { identifier := identifier,
                    extendableBackupFlag := extendableBackupFlag,
                    iterationExponent := iterationExponent,
                    groupIndex := groupIndex,
                    groupThreshold := groupThreshold + 1,
                    groupCount := groupCount + 1,
                    memberIndex := memberIndex,
                    memberThreshold := memberThreshold + 1,
                    share := share }

/-- `validateMnemonic` from `slip39_helper.ts`: collapses any decode error into
`false`. -/
def validateMnemonic (mnemonic : List Nat) : Bool :=
  match decodeMnemonic mnemonic with
  | .ok _ => true
  | .error _ => false

/-! ## slip39_helper.ts : Feistel cipher -/

/-- `roundFunction` from `slip39_helper.ts`: one PBKDF2-HMAC-SHA-256 call with
password `[round] ‖ passphrase`, salt `salt ‖ secret`,
`(ITERATION_COUNT << exp) / ROUND_COUNT` iterations and `secret.length` output
bytes.  The PBKDF2 primitive is external (`subtle.deriveBits`) and is passed as
the parameter `pbkdf2 password salt iterations dkLenBytes`. -/
def roundFunction (pbkdf2 : List Nat → List Nat → Nat → Nat → List Nat)
    (round : Nat) (passphrase : List Nat) (exp : Nat) (salt secret : List Nat) :
    List Nat :=
  pbkdf2 (round :: passphrase) (salt ++ secret)
    ((ITERATION_COUNT <<< exp) / ROUND_COUNT) secret.length

/-- One round of the Feistel loop in `crypt`: `(IL, IR) ↦ (IR, IL ⊕ F(IR))`. -/
def cryptStep (pbkdf2 : List Nat → List Nat → Nat → Nat → List Nat)
    (passphrase : List Nat) (iterationExponent : Nat) (salt : List Nat)
    (st : List Nat × List Nat) (round : Nat) :
    Except String (List Nat × List Nat) :=
  match xorLists st.1
      (roundFunction pbkdf2 round passphrase iterationExponent salt st.2) with
  | .error e => .error e
  | .ok t => .ok (st.2, t)

/-- `crypt` from `slip39_helper.ts`: the four-round Feistel network
(`encrypt = false` reverses the round order). -/
def crypt (pbkdf2 : List Nat → List Nat → Nat → Nat → List Nat)
    (masterSecret passphrase : List Nat) (iterationExponent : Nat)
    (identifier : List Nat) (extendableBackupFlag : Nat) (encrypt : Bool) :
    Except String (List Nat) :=
  if iterationExponent > MAX_ITERATION_EXP then
    .error "Invalid iteration exponent. Expected between 0 and 16"
  else
    let il := masterSecret.take (masterSecret.length / 2)
    let ir := masterSecret.drop (masterSecret.length / 2)
    let salt := getSalt identifier extendableBackupFlag
    let range := List.range ROUND_COUNT
    let range := if encrypt then range else range.reverse
    (range.foldlM (cryptStep pbkdf2 passphrase iterationExponent salt)
      (il, ir)).map (fun st => st.2 ++ st.1)

/-! ## slip39_helper.ts : decodeMnemonics / combineMnemonics -/

/-- The running state of the `decodeMnemonics` loop: the accumulated value sets
and the nested `groups` map `groupIndex ↦ memberThreshold ↦ memberIndex ↦
share`. -/
structure DecodeState where
  identifiers : List Nat
  extendableBackupFlags : List Nat
  iterationExponents : List Nat
  groupThresholds : List Nat
  groupCounts : List Nat
  groups : List (Nat × List (Nat × List (Nat × List Nat)))

/-- The aggregate result of `decodeMnemonics` (`IDecodedMnemonics` from
`interfaces.ts`). -/
structure DecodedMnemonics where
  identifier : Nat
  extendableBackupFlag : Nat
  iterationExponent : Nat
  groupThreshold : Nat
  groupCount : Nat
  groups : List (Nat × List (Nat × List (Nat × List Nat)))

/-- The body of the `mnemonics.forEach` loop in `decodeMnemonics`. -/
def decodeMnemonicsStep (st : DecodeState) (mnemonic : List Nat) :
    Except String DecodeState :=
  match decodeMnemonic mnemonic with
  | .error e => .error e
  | .ok d =>
    let group := (jsMapGet st.groups d.groupIndex).getD []
    let member := (jsMapGet group d.memberThreshold).getD []
    let member := jsMapSet member d.memberIndex d.share
    let group := jsMapSet group d.memberThreshold member
    if group.length ≠ 1 then
      .error "Invalid set of mnemonics. All mnemonics in a group must have the same member threshold."
    else
      .ok { identifiers := jsSetAdd st.identifiers d.identifier,
            extendableBackupFlags := jsSetAdd st.extendableBackupFlags d.extendableBackupFlag,
            iterationExponents := jsSetAdd st.iterationExponents d.iterationExponent,
            groupThresholds := jsSetAdd st.groupThresholds d.groupThreshold,
            groupCounts := jsSetAdd st.groupCounts d.groupCount,
            groups := jsMapSet st.groups d.groupIndex group }

/-- `decodeMnemonics` from `slip39_helper.ts`. -/
def decodeMnemonics (mnemonics : List (List Nat)) :
    Except String DecodedMnemonics :=
  match mnemonics.foldlM decodeMnemonicsStep ⟨[], [], [], [], [], []⟩ with
  | .error e => .error e
  | .ok st =>
    if st.identifiers.length ≠ 1 ∨ st.extendableBackupFlags.length ≠ 1 ∨
        st.iterationExponents.length ≠ 1 then
      .error "Invalid set of mnemonics. All mnemonics must begin with the same words."
    else if st.groupThresholds.length ≠ 1 then
      .error "Invalid set of mnemonics. All mnemonics must have the same group threshold."
    else if st.groupCounts.length ≠ 1 then
      .error "Invalid set of mnemonics. All mnemonics must have the same group count."
    else
      .ok { identifier := st.identifiers.headD 0,
            extendableBackupFlag := st.extendableBackupFlags.headD 0,
            iterationExponent := st.iterationExponents.headD 0,
            groupThreshold := st.groupThresholds.headD 0,
            groupCount := st.groupCounts.headD 0,
            groups := st.groups }

/-- The body of the `for (const [groupIndex, members] of groups.entries())`
loop in `combineMnemonics`: checks the member count of one group against its
member threshold and recovers the group share. -/
def combineGroupStep (hmac : List Nat → List Nat → List Nat)
    (acc : List (Nat × List Nat))
    (gp : Nat × List (Nat × List (Nat × List Nat))) :
    Except String (List (Nat × List Nat)) :=
  let members := gp.2
  let threshold := (members.headD (0, [])).1
  let shares := (members.headD (0, [])).2
  if shares.length ≠ threshold then
    .error "Wrong number of mnemonics within a group."
  else
    match recoverSecret hmac threshold shares with
    | .error e => .error e
    | .ok recovered => .ok (jsMapSet acc gp.1 recovered)

/-- `combineMnemonics` from `slip39_helper.ts`. -/
def combineMnemonics (pbkdf2 : List Nat → List Nat → Nat → Nat → List Nat)
    (hmac : List Nat → List Nat → List Nat) (mnemonics : List (List Nat))
    (passphrase : List Nat) : Except String (List Nat) :=
  if mnemonics.length = 0 then
    .error "The list of mnemonics is empty."
  else
    match decodeMnemonics mnemonics with
    | .error e => .error e
    | .ok decoded =>
      if decoded.groups.length < decoded.groupThreshold then
        .error "Insufficient number of mnemonic groups. The required number of groups was not reached."
      else if decoded.groups.length ≠ decoded.groupThreshold then
        .error "Wrong number of mnemonic groups."
      else
        match decoded.groups.foldlM (combineGroupStep hmac) [] with
        | .error e => .error e
        | .ok allShares =>
          match recoverSecret hmac decoded.groupThreshold allShares with
          | .error e => .error e
          | .ok ems =>
            crypt pbkdf2 ems passphrase decoded.iterationExponent
              (intToIndices decoded.identifier ITERATION_EXP_WORDS_LENGTH 8)
              decoded.extendableBackupFlag false

/-! ## slip39.ts -/

/-- `Slip39Node` from `slip39.ts` (descriptions are cosmetic and dropped). -/
inductive Slip39Node where
  | node (index : Nat) (mnemonic : List Nat) (children : List Slip39Node)

/-- The `mnemonics` getter of `Slip39Node`: the leaf mnemonics, left to
right. -/
def Slip39Node.mnemonics : Slip39Node → List (List Nat)
  | .node _ mnemonic [] => [mnemonic]
  | .node _ _ (c :: cs) =>
    (c :: cs).attach.foldl (fun acc d => acc ++ d.1.mnemonics) []
decreasing_by
  have hm := List.sizeOf_lt_of_mem d.2
  simp only [Slip39Node.node.sizeOf_spec]
  omega

/-- The static configuration carried by a `Slip39` instance (`slip39.ts`,
constructor). -/
structure Slip39Config where
  iterationExponent : Nat
  extendableBackupFlag : Nat
  identifier : List Nat
  groupCount : Nat
  groupThreshold : Nat

mutual

/-- `buildRecursive` from `slip39.ts`, with the RNG position threaded through.
`curIndex` is `currentNode.index`; `index` is the `index` argument (`0` stands
for the `undefined` of the root call, matching the `index || 0` read at a
leaf). -/
def buildRecursive (hmac : List Nat → List Nat → List Nat) (rng : Nat → Nat)
    (cfg : Slip39Config) :
    Nat → Nat → List (Nat × Nat) → List Nat → Nat → Nat →
    Except String (Slip39Node × Nat)
  | pos, curIndex, [], secret, threshold, index =>
    .ok (.node curIndex
      (encodeMnemonic cfg.identifier cfg.extendableBackupFlag
        cfg.iterationExponent index cfg.groupThreshold cfg.groupCount
        curIndex threshold secret) [], pos)
  | pos, curIndex, n :: ns, secret, threshold, _ =>
    match splitSecret hmac rng pos threshold (n :: ns).length secret with
    | .error e => .error e
    | .ok (secretShares, pos') =>
      match buildChildren hmac rng cfg pos' curIndex (n :: ns) secretShares 0 with
      | .error e => .error e
      | .ok (children, pos'') => .ok (.node curIndex [] children, pos'')
termination_by _ _ nodes _ _ _ => 1 + (nodes.map (fun p => 2 + 2 * p.2)).sum
decreasing_by
  omega

/-- The `for (const item of nodes)` loop of `buildRecursive`: builds the child
branches in order. -/
def buildChildren (hmac : List Nat → List Nat → List Nat) (rng : Nat → Nat)
    (cfg : Slip39Config) :
    Nat → Nat → List (Nat × Nat) → List (List Nat) → Nat →
    Except String (List Slip39Node × Nat)
  | pos, _, [], _, _ => .ok ([], pos)
  | pos, curIndex, item :: rest, secretShares, idx =>
    match buildRecursive hmac rng cfg pos idx (List.replicate item.2 (item.1, 0))
        (secretShares.getD idx []) item.1 curIndex with
    | .error e => .error e
    | .ok (branch, pos') =>
      match buildChildren hmac rng cfg pos' curIndex rest secretShares (idx + 1) with
      | .error e => .error e
      | .ok (branches, pos'') => .ok (branch :: branches, pos'')
termination_by _ _ nodes _ _ => (nodes.map (fun p => 2 + 2 * p.2)).sum
decreasing_by
  · simp only [List.map_replicate, List.sum_replicate, smul_eq_mul,
      List.map_cons, List.sum_cons]
    omega
  · simp only [List.map_cons, List.sum_cons]
    omega

end

/-- `Slip39.fromArray` from `slip39.ts` (followed by the `Slip39` constructor
checks it performs): validates the policy, Feistel-encrypts the master secret
and builds the share tree.  Returns the configuration and the root node. -/
def fromArray (pbkdf2 : List Nat → List Nat → Nat → Nat → List Nat)
    (hmac : List Nat → List Nat → List Nat) (rng : Nat → Nat)
    (masterSecret passphrase identifier : List Nat)
    (extendableBackupFlag iterationExponent groupThreshold : Nat)
    (groups : List (Nat × Nat)) : Except String (Slip39Config × Slip39Node) :=
  if masterSecret.length * 8 < MIN_ENTROPY_BITS then
    .error "The length of the master secret must be at least 16 bytes."
  else if masterSecret.length % 2 ≠ 0 then
    .error "The length of the master secret in bytes must be an even number."
  else if ¬ passphrase.all (fun c => 32 ≤ c ∧ c ≤ 126) then
    .error "The passphrase must contain only printable ASCII characters (code points 32-126)."
  else if groupThreshold > groups.length then
    .error "The requested group threshold must not exceed the number of groups."
  else if groups.any (fun g => g.1 = 1 ∧ g.2 > 1) then
    .error "Creating multiple member shares with member threshold 1 is not allowed. Use 1-of-1 member sharing instead."
  else if identifier.length = 0 then
    .error "Missing required parameter identifier"
  else if groups.length = 0 then
    .error "Missing required parameter groupCount"
  else if groupThreshold = 0 then
    .error "Missing required parameter groupThreshold"
  else
    let cfg : Slip39Config :=
      { iterationExponent := iterationExponent,
        extendableBackupFlag := extendableBackupFlag,
        identifier := identifier,
        groupCount := groups.length,
        groupThreshold := groupThreshold }
    match crypt pbkdf2 masterSecret passphrase iterationExponent identifier
        extendableBackupFlag true with
    | .error e => .error e
    | .ok ems =>
      match buildRecursive hmac rng cfg 0 0 groups ems groupThreshold 0 with
      | .error e => .error e
      | .ok (root, _) => .ok (cfg, root)

/-! ## Concrete inputs used by counterexamples and witnesses. -/

/-- A mnemonic encoded with `groupIndex = 5`, `groupCount = 1` (and
`memberIndex = 7`): indices are not bound-checked against counts on decode. -/
def outOfRangeIndexMnemonic : List Nat :=
  encodeMnemonic [0, 0] 0 0 5 1 1 7 1 (List.replicate 16 0)

/-- The encoder input with iteration exponent 16: the 4-bit exponent field
overflows into the extendable-flag bit. -/
def exponent16Mnemonic : List Nat :=
  encodeMnemonic [0, 0] 0 16 0 1 1 0 1 (List.replicate 16 0)

/-! ## Claims (first batch). -/

/-- **C9.** `combineMnemonics` with an empty list of mnemonics always throws
"The list of mnemonics is empty." (for every primitive instantiation and every
passphrase), before any decoding or decryption can happen. -/
theorem combineMnemonics_empty_list_errors
    (pbkdf2 : List Nat → List Nat → Nat → Nat → List Nat)
    (hmac : List Nat → List Nat → List Nat) (passphrase : List Nat) :
    combineMnemonics pbkdf2 hmac [] passphrase =
      .error "The list of mnemonics is empty." := rfl

/-- **C2 (code evaluation at the failing input).** Contrary to the spec's "if
`x` is already a key, return its value", `interpolate` *throws* whenever `x` is
a key of the map and any other point is present: the `return v` inside the
`Map.forEach` callback is dead code and the callback throws on the first other
key.  At the two-point map `{0 ↦ [1], 1 ↦ [2]}` with `x = 0` the code errors
instead of returning `[1]`. -/
theorem interpolate_at_existing_key_throws :
    interpolate [(0, [1]), (1, [2])] 0 =
      .error "Invalid set of shares. All share values must have the same length." ∧
    interpolate [(0, [1]), (1, [2])] 1 =
      .error "Invalid set of shares. All share values must have the same length." := by
  constructor <;> rfl

/-- **C10.** Decoding performs no bound check of the index fields against the
counts: a mnemonic whose group index (5) is not below its group count (1) and
whose member index is 7 in a 1-member group decodes successfully, and
`validateMnemonic` accepts it. -/
theorem decodeMnemonic_no_index_bound_check :
    ∃ d : DecodedMnemonic,
      decodeMnemonic outOfRangeIndexMnemonic = .ok d ∧
      d.groupIndex ≥ d.groupCount ∧ d.memberIndex = 7 ∧
      validateMnemonic outOfRangeIndexMnemonic = true := by
  exact ⟨⟨0, 0, 0, 5, 1, 1, 7, 1, List.replicate 16 0⟩, rfl, by decide, rfl, rfl⟩

/-- **C5 (counterexample).** The codec round trip fails at iteration exponent
16: the claimed range [0, 16] overflows the 4-bit exponent field, the flag bit
absorbs the overflow, and checksum verification (which uses the *decoded* flag)
rejects the mnemonic, so `decodeMnemonic ∘ encodeMnemonic` errors rather than
returning the encoded fields. -/
theorem encodeMnemonic_exponent16_fails_to_decode :
    decodeMnemonic exponent16Mnemonic = .error "Invalid mnemonic checksum" := by
  rfl

/-! ## RS1024: linearity of the polymod step and checksum correctness (C4). -/

/-- The generator contribution of one polymod step, as a function of the top
ten bits `t = chk >>> 20`. -/
def genXor (t : Nat) : Nat :=
  (List.range 10).foldl
    (fun c i => c ^^^ (if (t >>> i) &&& 1 ≠ 0 then RS1024_GEN.getD i 0 else 0)) 0

theorem foldl_xor_shift (g : Nat → Nat) (l : List Nat) (init : Nat) :
    l.foldl (fun c i => c ^^^ g i) init =
      init ^^^ l.foldl (fun c i => c ^^^ g i) 0 := by
  induction l generalizing init with
  | nil => simp
  | cons i l ih =>
    simp only [List.foldl_cons]
    rw [ih (init ^^^ g i), ih (0 ^^^ g i), Nat.zero_xor, Nat.xor_assoc]

theorem rs1024Step_eq (c byte : Nat) :
    rs1024Step c byte =
      (((c &&& 0xfffff) <<< 10) ^^^ byte) ^^^ genXor (c >>> 20) := by
  rw [rs1024Step, genXor]
  exact foldl_xor_shift _ _ _

theorem foldl_xor_lt {n : Nat} (g : Nat → Nat) (l : List Nat)
    (h : ∀ i ∈ l, g i < 2 ^ n) (init : Nat) (hi : init < 2 ^ n) :
    l.foldl (fun c i => c ^^^ g i) init < 2 ^ n := by
  induction l generalizing init with
  | nil => simpa
  | cons i l ih =>
    simp only [List.foldl_cons]
    exact ih (fun j hj => h j (List.mem_cons_of_mem _ hj)) _
      (Nat.xor_lt_two_pow hi (h i (List.mem_cons_self _ _)))

theorem genXor_lt (t : Nat) : genXor t < 2 ^ 30 := by
  rw [genXor]
  refine foldl_xor_lt _ _ (fun i hi => ?_) 0 (by norm_num)
  split
  · rcases List.mem_range.mp hi with h
    exact (by decide : ∀ j : Fin 10, RS1024_GEN.getD j.val 0 < 2 ^ 30) ⟨i, h⟩
  · norm_num

theorem rs1024Step_zero_lt (c : Nat) : rs1024Step c 0 < 2 ^ 30 := by
  rw [rs1024Step_eq]
  refine Nat.xor_lt_two_pow (Nat.xor_lt_two_pow ?_ (by norm_num)) (genXor_lt _)
  have h1 : c &&& 0xfffff < 2 ^ 20 :=
    Nat.lt_of_le_of_lt Nat.and_le_right (by norm_num)
  calc (c &&& 0xfffff) <<< 10 = (c &&& 0xfffff) * 2 ^ 10 := Nat.shiftLeft_eq _ _
    _ < 2 ^ 20 * 2 ^ 10 := by
      have := Nat.mul_lt_mul_of_lt_of_le h1 (Nat.le_refl (2 ^ 10)) (by norm_num)
      simpa using this
    _ = 2 ^ 30 := by norm_num

theorem rs1024Step_xor_byte (c byte : Nat) :
    rs1024Step c byte = rs1024Step c 0 ^^^ byte := by
  rw [rs1024Step_eq, rs1024Step_eq, Nat.xor_zero]
  simp [Nat.xor_assoc, Nat.xor_comm, xor_left_comm]

theorem xor_shiftRight (x y n : Nat) :
    (x ^^^ y) >>> n = x >>> n ^^^ y >>> n := by
  apply Nat.eq_of_testBit_eq
  intro i
  simp [Nat.testBit_shiftRight, Nat.testBit_xor]

theorem shiftRight_eq_zero_of_lt {x n : Nat} (h : x < 2 ^ n) : x >>> n = 0 := by
  rw [Nat.shiftRight_eq_div_pow]
  exact Nat.div_eq_of_lt h

theorem rs1024Step_xor_low20 (c : Nat) {w : Nat} (hw : w < 2 ^ 20) :
    rs1024Step (c ^^^ w) 0 = rs1024Step c 0 ^^^ (w <<< 10) := by
  rw [rs1024Step_eq, rs1024Step_eq]
  have ht : (c ^^^ w) >>> 20 = c >>> 20 := by
    rw [xor_shiftRight, shiftRight_eq_zero_of_lt hw, Nat.xor_zero]
  have hm : (0xfffff : Nat) = 2 ^ 20 - 1 := by norm_num
  have hand : (c ^^^ w) &&& 0xfffff = (c &&& 0xfffff) ^^^ w := by
    rw [Nat.and_xor_distrib_right]
    congr 1
    rw [hm, Nat.and_pow_two_sub_one_eq_mod, Nat.mod_eq_of_lt hw]
  rw [ht, hand, xor_shiftLeft]
  simp [Nat.xor_assoc, Nat.xor_comm, xor_left_comm]

theorem and_1023_lt (x : Nat) : x &&& 1023 < 2 ^ 10 :=
  Nat.lt_of_le_of_lt Nat.and_le_right (by norm_num)

theorem reassemble30 {p : Nat} (hp : p < 2 ^ 30) :
    ((p >>> 20) &&& 1023) <<< 20 ^^^
      (((p >>> 10) &&& 1023) <<< 10 ^^^ (p &&& 1023)) = p := by
  have h10 : (1023 : Nat) = 2 ^ 10 - 1 := by norm_num
  apply Nat.eq_of_testBit_eq
  intro i
  simp only [Nat.testBit_xor, Nat.testBit_shiftLeft, h10,
    Nat.and_pow_two_sub_one_eq_mod, Nat.testBit_mod_two_pow,
    Nat.testBit_shiftRight]
  rcases Nat.lt_or_ge i 10 with h1 | h1
  · have d20 : decide (20 ≤ i) = false := by simp; omega
    have d10 : decide (10 ≤ i) = false := by simp; omega
    have di : decide (i < 10) = true := by simp; omega
    simp [d20, d10, di]
  rcases Nat.lt_or_ge i 20 with h2 | h2
  · have d20 : decide (20 ≤ i) = false := by simp; omega
    have d10 : decide (10 ≤ i) = true := by simp; omega
    have di : decide (i < 10) = false := by simp; omega
    have dj : decide (i - 10 < 10) = true := by simp; omega
    have : 10 + (i - 10) = i := by omega
    simp [d20, d10, di, dj, this]
  rcases Nat.lt_or_ge i 30 with h3 | h3
  · have d20 : decide (20 ≤ i) = true := by simp; omega
    have d10 : decide (10 ≤ i) = true := by simp; omega
    have di : decide (i < 10) = false := by simp; omega
    have dj : decide (i - 10 < 10) = false := by simp; omega
    have dk : decide (i - 20 < 10) = true := by simp; omega
    have : 20 + (i - 20) = i := by omega
    simp [d20, d10, di, dj, dk, this]
  · have d20 : decide (20 ≤ i) = true := by simp; omega
    have d10 : decide (10 ≤ i) = true := by simp; omega
    have di : decide (i < 10) = false := by simp; omega
    have dj : decide (i - 10 < 10) = false := by simp; omega
    have dk : decide (i - 20 < 10) = false := by simp; omega
    have hpb : p.testBit i = false := Nat.testBit_lt_two_pow
      (Nat.lt_of_lt_of_le hp (Nat.pow_le_pow_right (by omega) h3))
    simp [d20, d10, di, dj, dk, hpb]

theorem rs1024Polymod_append (a b : List Nat) :
    rs1024Polymod (a ++ b) = b.foldl rs1024Step (rs1024Polymod a) := by
  rw [rs1024Polymod, rs1024Polymod, List.foldl_append]

theorem rs1024_append_created_checksum (data : List Nat) (flag : Nat) :
    rs1024Polymod (get_customization_string flag ++
      (data ++ rs1024CreateChecksum data flag)) = 1 := by
  rw [← List.append_assoc]
  set chk0 := rs1024Polymod (get_customization_string flag ++ data) with hchk0
  set A := rs1024Step (rs1024Step (rs1024Step chk0 0) 0) 0 with hA
  have hApoly : rs1024Polymod (get_customization_string flag ++ data ++
      List.replicate CHECKSUM_WORDS_LENGTH 0) = A := by
    rw [rs1024Polymod_append, ← hchk0]
    rfl
  set p := A ^^^ 1 with hp
  have hck : rs1024CreateChecksum data flag =
      [(p >>> 20) &&& 1023, (p >>> 10) &&& 1023, p &&& 1023] := by
    rw [rs1024CreateChecksum, hApoly]
    rfl
  have hAlt : A < 2 ^ 30 := rs1024Step_zero_lt _
  have hplt : p < 2 ^ 30 := Nat.xor_lt_two_pow hAlt (by norm_num)
  rw [rs1024Polymod_append, hck, ← hchk0]
  have hw2 : (p >>> 20) &&& 1023 < 2 ^ 10 := and_1023_lt _
  have hw1 : (p >>> 10) &&& 1023 < 2 ^ 10 := and_1023_lt _
  have hs2 : ((p >>> 20) &&& 1023) <<< 10 < 2 ^ 20 := by
    rw [Nat.shiftLeft_eq]
    have := Nat.mul_lt_mul_of_lt_of_le hw2 (Nat.le_refl (2 ^ 10)) (by norm_num)
    simpa using this
  have hlt20 : ((p >>> 20) &&& 1023) <<< 10 ^^^ ((p >>> 10) &&& 1023) < 2 ^ 20 :=
    Nat.xor_lt_two_pow hs2 (Nat.lt_trans hw1 (by norm_num))
  have e1 : List.foldl rs1024Step chk0
      [(p >>> 20) &&& 1023, (p >>> 10) &&& 1023, p &&& 1023] =
      rs1024Step (rs1024Step (rs1024Step chk0 ((p >>> 20) &&& 1023))
        ((p >>> 10) &&& 1023)) (p &&& 1023) := rfl
  rw [e1, rs1024Step_xor_byte chk0 ((p >>> 20) &&& 1023),
    rs1024Step_xor_byte (rs1024Step chk0 0 ^^^ (p >>> 20) &&& 1023)
      ((p >>> 10) &&& 1023),
    rs1024Step_xor_low20 (rs1024Step chk0 0) (Nat.lt_trans hw2 (by norm_num)),
    Nat.xor_assoc (rs1024Step (rs1024Step chk0 0) 0)
      (((p >>> 20) &&& 1023) <<< 10) ((p >>> 10) &&& 1023),
    rs1024Step_xor_byte _ (p &&& 1023),
    rs1024Step_xor_low20 (rs1024Step (rs1024Step chk0 0) 0) hlt20,
    xor_shiftLeft (((p >>> 20) &&& 1023) <<< 10) ((p >>> 10) &&& 1023) 10,
    Nat.shiftLeft_shiftLeft, ← hA]
  have h20 : (10 : Nat) + 10 = 20 := rfl
  rw [h20, Nat.xor_assoc A _ (p &&& 1023),
    Nat.xor_assoc (((p >>> 20) &&& 1023) <<< 20)
      ((((p >>> 10) &&& 1023)) <<< 10) (p &&& 1023),
    reassemble30 hplt, hp, ← Nat.xor_assoc, Nat.xor_self, Nat.zero_xor]

/-- **C4.** RS1024 checksum correctness: (a) appending the three checksum words
produced by `rs1024CreateChecksum data flag` to `data` yields a sequence
`rs1024VerifyChecksum` accepts, for every word list and every flag value; and
(b) verification holds exactly when the RS1024 polymod of the customization
string bytes — "shamir" for flag 0, "shamir_extendable" for flag 1 — followed
by the words equals 1. -/
theorem rs1024_create_verify_correct :
    (∀ (data : List Nat) (flag : Nat),
      rs1024VerifyChecksum (data ++ rs1024CreateChecksum data flag) flag = true) ∧
    (∀ data : List Nat,
      (rs1024VerifyChecksum data 0 = true ↔
        rs1024Polymod (CUSTOMIZATION_STRING_NON_EXTENDABLE ++ data) = 1) ∧
      (rs1024VerifyChecksum data 1 = true ↔
        rs1024Polymod (CUSTOMIZATION_STRING_EXTENDABLE ++ data) = 1)) := by
  constructor
  · intro data flag
    rw [rs1024VerifyChecksum, rs1024_append_created_checksum data flag]
    rfl
  · intro data
    constructor <;> rw [rs1024VerifyChecksum] <;> exact beq_iff_eq

/-! ## Codec round-trip infrastructure (C5). -/

theorem intToIndices_length (v n b : Nat) : (intToIndices v n b).length = n := by
  rw [intToIndices, List.length_reverse, List.length_map, List.length_range]

theorem intToIndices_succ (v n b : Nat) :
    intToIndices v (n + 1) b =
      ((v >>> (n * b)) &&& ((1 <<< b) - 1)) :: intToIndices v n b := by
  rw [intToIndices, intToIndices, List.range_succ, List.map_append,
    List.reverse_append]
  rfl

theorem foldl_mul_add (base : Nat) (l : List Nat) (z : Nat) :
    l.foldl (fun v i => v * base + i) z =
      z * base ^ l.length + l.foldl (fun v i => v * base + i) 0 := by
  induction l generalizing z with
  | nil => simp
  | cons a l ih =>
    simp only [List.foldl_cons, List.length_cons]
    rw [ih (z * base + a), ih (0 * base + a)]
    ring

theorem mask_eq_mod (x b : Nat) : x &&& ((1 <<< b) - 1) = x % 2 ^ b := by
  have h : (1 : Nat) <<< b = 2 ^ b := by
    rw [Nat.shiftLeft_eq, Nat.one_mul]
  rw [h, Nat.and_pow_two_sub_one_eq_mod]

theorem intFromIndices_intToIndices (v n : Nat) :
    intFromIndices (intToIndices v n 10) = v % 2 ^ (10 * n) := by
  induction n with
  | zero => simp [intToIndices, intFromIndices, Nat.mod_one]
  | succ n ih =>
    rw [intToIndices_succ, intFromIndices, List.foldl_cons]
    have h1 : (0 : Nat) * 2 ^ RADIX_BITS + (v >>> (n * 10) &&& (1 <<< 10) - 1) =
        v >>> (n * 10) &&& ((1 <<< 10) - 1) := by omega
    rw [h1, foldl_mul_add, intToIndices_length]
    have h2 : intFromIndices (intToIndices v n 10) = v % 2 ^ (10 * n) := ih
    rw [intFromIndices] at h2
    rw [h2, mask_eq_mod, Nat.shiftRight_eq_div_pow]
    have hr : (2 : Nat) ^ RADIX_BITS = 2 ^ 10 := rfl
    rw [hr, ← Nat.pow_mul]
    have hmul : 2 ^ (10 * (n + 1)) = 2 ^ (10 * n) * 2 ^ 10 := by
      rw [Nat.mul_succ, Nat.pow_add]
    rw [hmul, Nat.mod_mul, Nat.mul_comm 10 n]
    ring

theorem intToIndices_words_lt (v n b : Nat) :
    ∀ w ∈ intToIndices v n b, w < 2 ^ b := by
  intro w hw
  rw [intToIndices, List.mem_reverse, List.mem_map] at hw
  rcases hw with ⟨i, _, rfl⟩
  rw [mask_eq_mod]
  exact Nat.mod_lt _ (Nat.pos_pow_of_pos _ (by omega))

theorem decodeBigInt_bound (l : List Nat) (h : ∀ b ∈ l, b < 256) (z : Nat) :
    l.foldl (fun a b => a * 256 + b) z < (z + 1) * 256 ^ l.length := by
  induction l generalizing z with
  | nil => simpa using Nat.lt_succ_self z
  | cons b l ih =>
    simp only [List.foldl_cons, List.length_cons]
    have hb : b < 256 := h b (List.mem_cons_self _ _)
    have := ih (fun c hc => h c (List.mem_cons_of_mem _ hc)) (z * 256 + b)
    calc List.foldl (fun a b => a * 256 + b) (z * 256 + b) l
        < (z * 256 + b + 1) * 256 ^ l.length := this
      _ ≤ ((z + 1) * 256) * 256 ^ l.length := by
          have : z * 256 + b + 1 ≤ (z + 1) * 256 := by omega
          exact Nat.mul_le_mul_right _ this
      _ = (z + 1) * (256 * 256 ^ l.length) := by ring
      _ = (z + 1) * 256 ^ (l.length + 1) := by rw [Nat.pow_succ]; ring

theorem decodeBigInt_lt (l : List Nat) (h : ∀ b ∈ l, b < 256) :
    decodeBigInt l < 256 ^ l.length := by
  have := decodeBigInt_bound l h 0
  simpa [decodeBigInt] using this

theorem encodeBigIntAux_fuel :
    ∀ (v f g : Nat), v ≤ f → v ≤ g → encodeBigIntAux f v = encodeBigIntAux g v := by
  intro v
  induction v using Nat.strong_induction_on with
  | _ v ih =>
    intro f g hf hg
    rcases Classical.em (v = 0) with h0 | h0
    · subst h0
      cases f <;> cases g <;> simp [encodeBigIntAux]
    · obtain ⟨f', rfl⟩ : ∃ f', f = f' + 1 := ⟨f - 1, by omega⟩
      obtain ⟨g', rfl⟩ : ∃ g', g = g' + 1 := ⟨g - 1, by omega⟩
      rw [encodeBigIntAux, encodeBigIntAux, if_neg h0, if_neg h0]
      have hlt : v / 256 < v := Nat.div_lt_self (by omega) (by omega)
      rw [ih (v / 256) hlt f' g' (by omega) (by omega)]

theorem encodeBigIntCore_unfold (v : Nat) :
    encodeBigIntCore v =
      if v = 0 then [] else encodeBigIntCore (v / 256) ++ [v % 256] := by
  rcases Classical.em (v = 0) with h0 | h0
  · simp [h0, encodeBigIntCore, encodeBigIntAux]
  · rw [if_neg h0, encodeBigIntCore, encodeBigIntCore]
    obtain ⟨v', rfl⟩ : ∃ v', v = v' + 1 := ⟨v - 1, by omega⟩
    rw [encodeBigIntAux, if_neg h0]
    congr 1
    exact encodeBigIntAux_fuel ((v' + 1) / 256) v' ((v' + 1) / 256)
      (by omega) (Nat.le_refl _)

/-- The digits of the big-endian value of a byte list, padded back to the
original length, give back the list. -/
theorem encodeBigIntCore_decodeBigInt (l : List Nat) (h : ∀ b ∈ l, b < 256) :
    (encodeBigIntCore (decodeBigInt l)).length ≤ l.length ∧
    List.replicate (l.length - (encodeBigIntCore (decodeBigInt l)).length) 0 ++
      encodeBigIntCore (decodeBigInt l) = l := by
  induction l using List.reverseRecOn with
  | nil => simp [decodeBigInt, encodeBigIntCore, encodeBigIntAux]
  | append_singleton l b ih =>
    have hb : b < 256 := h b (by simp)
    have hl : ∀ c ∈ l, c < 256 := fun c hc => h c (by simp [hc])
    rcases ih hl with ⟨ihlen, ihpad⟩
    have hdec : decodeBigInt (l ++ [b]) = decodeBigInt l * 256 + b := by
      rw [decodeBigInt, decodeBigInt, List.foldl_append]
      rfl
    rcases Classical.em (decodeBigInt l = 0 ∧ b = 0) with ⟨hz, hbz⟩ | hnz
    · have hcorez : encodeBigIntCore (decodeBigInt (l ++ [b])) = [] := by
        rw [hdec, hz, hbz]
        rfl
      have hcore0 : encodeBigIntCore (decodeBigInt l) = [] := by
        rw [hz]; rfl
      rw [hcore0] at ihpad
      simp only [List.length_nil, Nat.sub_zero, List.append_nil] at ihpad
      constructor
      · rw [hcorez]; simp
      · rw [hcorez, hbz]
        simp only [List.length_nil, Nat.sub_zero, List.append_nil,
          List.length_append, List.length_singleton]
        rw [List.replicate_succ', ihpad]
    · have hcore : encodeBigIntCore (decodeBigInt (l ++ [b])) =
          encodeBigIntCore (decodeBigInt l) ++ [b] := by
        rw [hdec, encodeBigIntCore_unfold]
        have hne : decodeBigInt l * 256 + b ≠ 0 := by
          rcases Classical.em (decodeBigInt l = 0) with h1 | h1
          · have : b ≠ 0 := fun hb0 => hnz ⟨h1, hb0⟩
            omega
          · omega
        rw [if_neg hne]
        have hdiv : (decodeBigInt l * 256 + b) / 256 = decodeBigInt l := by omega
        have hmod : (decodeBigInt l * 256 + b) % 256 = b := by omega
        rw [hdiv, hmod]
      constructor
      · rw [hcore]
        simp only [List.length_append, List.length_cons, List.length_nil]
        omega
      · rw [hcore]
        simp only [List.length_append, List.length_cons, List.length_nil]
        have harith : l.length + 1 -
            ((encodeBigIntCore (decodeBigInt l)).length + 1) =
            l.length - (encodeBigIntCore (decodeBigInt l)).length := by omega
        rw [harith, ← List.append_assoc, ihpad]

theorem encodeBigInt_decodeBigInt (l : List Nat) (h : ∀ b ∈ l, b < 256) :
    encodeBigInt (decodeBigInt l) l.length = .ok l := by
  rcases encodeBigIntCore_decodeBigInt l h with ⟨hlen, hpad⟩
  rw [encodeBigInt]
  have hplen : (List.replicate (l.length -
      (encodeBigIntCore (decodeBigInt l)).length) 0 ++
      encodeBigIntCore (decodeBigInt l)).length = l.length := by
    rw [hpad]
  simp only [hplen]
  rw [if_neg (by omega)]
  rw [hpad]

/-! ## Codec round trip (C5). -/


theorem intToIndices_two (v : Nat) : intToIndices v 2 10 =
    [(v >>> (1 * 10)) &&& ((1 <<< 10) - 1), (v >>> (0 * 10)) &&& ((1 <<< 10) - 1)] := rfl

theorem intToIndices_five (t : Nat) : intToIndices t 5 4 =
    [(t >>> (4 * 4)) &&& ((1 <<< 4) - 1), (t >>> (3 * 4)) &&& ((1 <<< 4) - 1),
     (t >>> (2 * 4)) &&& ((1 <<< 4) - 1), (t >>> (1 * 4)) &&& ((1 <<< 4) - 1),
     (t >>> (0 * 4)) &&& ((1 <<< 4) - 1)] := rfl

theorem rs1024CreateChecksum_words_lt (d : List Nat) (f : Nat) :
    ∀ w ∈ rs1024CreateChecksum d f, w < 1024 := by
  intro w hw
  rw [rs1024CreateChecksum] at hw
  simp only [List.mem_reverse, List.mem_map] at hw
  rcases hw with ⟨i, _, rfl⟩
  exact Nat.lt_of_le_of_lt Nat.and_le_right (by norm_num)

theorem encodeMnemonic_eq (identifier : List Nat) (flag e gi gt g mi mt : Nat)
    (value : List Nat) :
    encodeMnemonic identifier flag e gi gt g mi mt value =
      ((intToIndices ((decodeBigInt identifier <<< 5) + (flag <<< 4) + e) 2 10 ++
        [(gi <<< 6) + ((gt - 1) <<< 2) + ((g - 1) >>> 2)]) ++
        [(((g - 1) &&& 3) <<< 8) + (mi <<< 4) + (mt - 1)] ++
        intToIndices (decodeBigInt value) (bitsToWords (value.length * 8)) 10) ++
      rs1024CreateChecksum
        ((intToIndices ((decodeBigInt identifier <<< 5) + (flag <<< 4) + e) 2 10 ++
          [(gi <<< 6) + ((gt - 1) <<< 2) + ((g - 1) >>> 2)]) ++
          [(((g - 1) &&& 3) <<< 8) + (mi <<< 4) + (mt - 1)] ++
          intToIndices (decodeBigInt value) (bitsToWords (value.length * 8)) 10)
        flag := rfl

theorem shiftL_eq (a k : Nat) : a <<< k = a * 2 ^ k := Nat.shiftLeft_eq a k

theorem shiftR_eq (a k : Nat) : a >>> k = a / 2 ^ k := Nat.shiftRight_eq_div_pow a k

theorem and_mask_eq (x b : Nat) : x &&& (2 ^ b - 1) = x % 2 ^ b :=
  Nat.and_pow_two_sub_one_eq_mod x b

theorem padIsRemainder (L k : Nat) (h1 : 8 * L ≤ 10 * k)
    (h2 : 10 * k - 8 * L ≤ 8) (h3 : L % 2 = 0) :
    10 * k % 16 = 10 * k - 8 * L := by omega

/-- Codec round trip: for every identifier byte array whose big-endian value
fits in 15 bits, flag in {0,1}, iteration exponent in [0, 15], group/member
indices in [0,15], thresholds and counts in range, and a share value of even
byte length at least 16 with byte-sized entries,
`decodeMnemonic (encodeMnemonic …)` succeeds and returns exactly the encoded
fields. -/
theorem decode_encode_roundtrip
    (identifier : List Nat) (flag e gi gt g mi mt : Nat) (value : List Nat)
    (hid : decodeBigInt identifier < 2 ^ 15)
    (hflag : flag ≤ 1) (he : e ≤ 15)
    (hgi : gi < 16) (hgt : 1 ≤ gt) (hgtg : gt ≤ g) (hg : g ≤ 16)
    (hmi : mi < 16) (hmt : 1 ≤ mt) (hmt16 : mt ≤ 16)
    (hlen : 16 ≤ value.length) (heven : value.length % 2 = 0)
    (hbytes : ∀ b ∈ value, b < 256) :
    decodeMnemonic (encodeMnemonic identifier flag e gi gt g mi mt value) =
      .ok { identifier := decodeBigInt identifier, extendableBackupFlag := flag,
            iterationExponent := e, groupIndex := gi, groupThreshold := gt,
            groupCount := g, memberIndex := mi, memberThreshold := mt,
            share := value } := by
  have hL : 16 ≤ value.length := hlen
  set L := value.length with hLdef
  set k := bitsToWords (L * 8) with hkdef
  have hk : k = (8 * L + 9) / 10 := by
    rw [hkdef, bitsToWords]; congr 1; omega
  have hk13 : 13 ≤ k := by omega
  have h8L10k : 8 * L ≤ 10 * k := by omega
  have h10k8L8 : 10 * k - 8 * L ≤ 8 := by omega
  set idv := decodeBigInt identifier with hidv
  set vInt := decodeBigInt value with hvInt
  have hvlt : vInt < 2 ^ (8 * L) := by
    have h1 : vInt < 256 ^ L := decodeBigInt_lt value hbytes
    have h2 : (256 : Nat) ^ L = 2 ^ (8 * L) := by
      rw [show (256 : Nat) = 2 ^ 8 from rfl, ← Nat.pow_mul]
    omega
  have hvlt10k : vInt < 2 ^ (10 * k) :=
    Nat.lt_of_lt_of_le hvlt (Nat.pow_le_pow_right (by omega) h8L10k)
  set idExpInt := (idv <<< 5) + (flag <<< 4) + e with hie
  have hieval : idExpInt = idv * 32 + flag * 16 + e := by
    rw [hie, shiftL_eq, shiftL_eq]; norm_num
  have hielt : idExpInt < 2 ^ 20 := by
    rw [hieval]; omega
  set indc2 := (gi <<< 6) + ((gt - 1) <<< 2) + ((g - 1) >>> 2) with hindc2
  have hindc2val : indc2 = gi * 64 + (gt - 1) * 4 + (g - 1) / 4 := by
    rw [hindc2, shiftL_eq, shiftL_eq, shiftR_eq]; norm_num
  set calcW := (((g - 1) &&& 3) <<< 8) + (mi <<< 4) + (mt - 1) with hcalc
  have hcalcval : calcW = ((g - 1) % 4) * 256 + mi * 16 + (mt - 1) := by
    rw [hcalc, shiftL_eq, shiftL_eq,
      show (3 : Nat) = 2 ^ 2 - 1 from rfl, and_mask_eq]
    norm_num
  set tp := intToIndices vInt k 10 with htp
  set shareData := (intToIndices idExpInt 2 10 ++ [indc2]) ++ [calcW] ++ tp
    with hsd
  set ck := rs1024CreateChecksum shareData flag with hck
  have henc : encodeMnemonic identifier flag e gi gt g mi mt value =
      shareData ++ ck := encodeMnemonic_eq _ _ _ _ _ _ _ _ _
  -- word bounds
  have hindc2lt : indc2 < 1024 := by rw [hindc2val]; omega
  have hcalclt : calcW < 1024 := by
    rw [hcalcval]
    have : (g - 1) % 4 ≤ 3 := by omega
    omega
  have htplt : ∀ w ∈ tp, w < 1024 := by
    intro w hw
    have := intToIndices_words_lt vInt k 10 w hw
    omega
  have hidwlt : ∀ w ∈ intToIndices idExpInt 2 10, w < 1024 := by
    intro w hw
    have := intToIndices_words_lt idExpInt 2 10 w hw
    omega
  have hall : (shareData ++ ck).all (fun w => w < 1024) = true := by
    rw [List.all_eq_true]
    intro w hw
    simp only [List.mem_append, hsd] at hw
    rcases hw with (((h1 | h1) | h1) | h1) | h1
    · exact decide_eq_true (hidwlt w h1)
    · simp only [List.mem_singleton] at h1; subst h1; exact decide_eq_true hindc2lt
    · simp only [List.mem_singleton] at h1; subst h1; exact decide_eq_true hcalclt
    · exact decide_eq_true (htplt w h1)
    · exact decide_eq_true (rs1024CreateChecksum_words_lt shareData flag w h1)
  -- lengths
  have htplen : tp.length = k := intToIndices_length _ _ _
  have hsdlen : shareData.length = k + 4 := by
    rw [hsd]
    simp [intToIndices_length, htplen]
    omega
  have hdatalen : (shareData ++ ck).length = k + 7 := by
    rw [List.length_append, hsdlen, hck]
    rfl
  -- decode walk
  have hmti : mnemonicToIndices (shareData ++ ck) = .ok (shareData ++ ck) := by
    rw [mnemonicToIndices, if_pos hall]
  rw [henc, decodeMnemonic, hmti]
  dsimp only
  rw [hdatalen]
  rw [if_neg (by rw [MNEMONICS_WORDS_LENGTH]; omega)]
  simp only [METADATA_WORDS_LENGTH, RADIX_BITS, ITERATION_EXP_WORDS_LENGTH,
    ITERATION_EXP_BITS_LENGTH, EXTENDABLE_BACKUP_FLAG_BITS_LENGTH,
    CHECKSUM_WORDS_LENGTH]
  rw [Nat.add_sub_cancel]
  have hpadv : 10 * k % 16 = 10 * k - 8 * L :=
    padIsRemainder L k h8L10k h10k8L8 heven
  have hpadgt : ¬ (10 * k % 16 > 8) := by omega
  rw [if_neg hpadgt]
  have hshape : shareData ++ ck =
      ((idExpInt >>> (1 * 10)) &&& ((1 <<< 10) - 1)) ::
      ((idExpInt >>> (0 * 10)) &&& ((1 <<< 10) - 1)) ::
      indc2 :: calcW :: (tp ++ ck) := by
    rw [hsd, intToIndices_two]
    rfl
  have htake2 : (shareData ++ ck).take 2 = intToIndices idExpInt 2 10 := by
    rw [hshape, intToIndices_two]
    rfl
  have hdrop2take2 : ((shareData ++ ck).drop 2).take 2 = [indc2, calcW] := by
    rw [hshape]
    rfl
  have hdrop4 : ((shareData ++ ck).drop (2 + 2)) = tp ++ ck := by
    rw [hshape]
    rfl
  have hidexp2 : intFromIndices ((shareData ++ ck).take 2) = idExpInt := by
    rw [htake2, intFromIndices_intToIndices]
    exact Nat.mod_eq_of_lt hielt
  rw [hidexp2]
  have hident : idExpInt >>> (4 + 1) = idv := by
    rw [shiftR_eq, hieval]
    omega
  have hflagf : (idExpInt >>> 4) &&& ((1 <<< 1) - 1) = flag := by
    rw [shiftR_eq, show ((1:Nat) <<< 1) - 1 = 2 ^ 1 - 1 from rfl, and_mask_eq,
      hieval, show (2:Nat) ^ 4 = 16 from rfl, show (2:Nat) ^ 1 = 2 from rfl]
    omega
  have hexpf : idExpInt &&& ((1 <<< 4) - 1) = e := by
    rw [show ((1:Nat) <<< 4) - 1 = 2 ^ 4 - 1 from rfl, and_mask_eq, hieval]
    omega
  rw [hident, hflagf, hexpf]
  have hver : rs1024VerifyChecksum (shareData ++ ck) flag = true := by
    rw [hck]
    exact rs1024_create_verify_correct.1 shareData flag
  rw [if_neg (by rw [hver]; simp)]
  rw [hdrop2take2]
  have htmp : intFromIndices [indc2, calcW] = indc2 * 1024 + calcW := by
    norm_num [intFromIndices, RADIX_BITS]
  rw [htmp, intToIndices_five]
  dsimp only [List.getD_cons_zero, List.getD_cons_succ]
  have hn4 : ((indc2 * 1024 + calcW) >>> (4 * 4)) &&& ((1 <<< 4) - 1) = gi := by
    rw [shiftR_eq, show ((1:Nat) <<< 4) - 1 = 2 ^ 4 - 1 from rfl, and_mask_eq,
      hindc2val, hcalcval]
    omega
  have hn3 : ((indc2 * 1024 + calcW) >>> (3 * 4)) &&& ((1 <<< 4) - 1) = gt - 1 := by
    rw [shiftR_eq, show ((1:Nat) <<< 4) - 1 = 2 ^ 4 - 1 from rfl, and_mask_eq,
      hindc2val, hcalcval]
    omega
  have hn2 : ((indc2 * 1024 + calcW) >>> (2 * 4)) &&& ((1 <<< 4) - 1) = g - 1 := by
    rw [shiftR_eq, show ((1:Nat) <<< 4) - 1 = 2 ^ 4 - 1 from rfl, and_mask_eq,
      hindc2val, hcalcval]
    omega
  have hn1 : ((indc2 * 1024 + calcW) >>> (1 * 4)) &&& ((1 <<< 4) - 1) = mi := by
    rw [shiftR_eq, show ((1:Nat) <<< 4) - 1 = 2 ^ 4 - 1 from rfl, and_mask_eq,
      hindc2val, hcalcval]
    omega
  have hn0 : ((indc2 * 1024 + calcW) >>> (0 * 4)) &&& ((1 <<< 4) - 1) = mt - 1 := by
    rw [shiftR_eq, show ((1:Nat) <<< 4) - 1 = 2 ^ 4 - 1 from rfl, and_mask_eq,
      hindc2val, hcalcval]
    omega
  rw [hn4, hn3, hn2, hn1, hn0]
  rw [if_neg (by omega)]
  rw [hdrop4]
  have hkk : k + 7 - 3 - (2 + 2) = k := by omega
  have htakek : (tp ++ ck).take (k + 7 - 3 - (2 + 2)) = tp := by
    rw [hkk, ← htplen]
    rw [List.take_append_of_le_length (Nat.le_refl _), List.take_length]
  rw [htakek]
  have hvint2 : intFromIndices tp = vInt := by
    rw [htp, intFromIndices_intToIndices]
    exact Nat.mod_eq_of_lt hvlt10k
  rw [hvint2, htplen]
  have hvbc : bitsToBytes (10 * k - 10 * k % 16) = L := by
    rw [bitsToBytes, hpadv]
    omega
  rw [hvbc]
  have henb : encodeBigInt vInt L = .ok value :=
    encodeBigInt_decodeBigInt value hbytes
  rw [henb]
  dsimp only
  rw [show gt - 1 + 1 = gt from by omega, show g - 1 + 1 = g from by omega,
    show mt - 1 + 1 = mt from by omega]

/-- **C5 (amended).** Codec round trip: for every identifier byte array whose
big-endian value fits in 15 bits, flag in {0,1}, iteration exponent in
**[0, 15]** (the claim's upper bound 16 overflows the 4-bit field, see the
counterexample), group/member indices in [0,15], thresholds and counts in
range, and a share value of even byte length at least 16 with byte-sized
entries, `decodeMnemonic (encodeMnemonic …)` succeeds and returns exactly the
encoded fields, with the identifier read as the big-endian integer of the
supplied bytes and the identical share bytes. -/
theorem decodeMnemonic_encodeMnemonic
    (identifier : List Nat) (flag e gi gt g mi mt : Nat) (value : List Nat)
    (hid : decodeBigInt identifier < 2 ^ 15)
    (hflag : flag ≤ 1) (he : e ≤ 15)
    (hgi : gi < 16) (hgt : 1 ≤ gt) (hgtg : gt ≤ g) (hg : g ≤ 16)
    (hmi : mi < 16) (hmt : 1 ≤ mt) (hmt16 : mt ≤ 16)
    (hlen : 16 ≤ value.length) (heven : value.length % 2 = 0)
    (hbytes : ∀ b ∈ value, b < 256) :
    decodeMnemonic (encodeMnemonic identifier flag e gi gt g mi mt value) =
      .ok { identifier := decodeBigInt identifier, extendableBackupFlag := flag,
            iterationExponent := e, groupIndex := gi, groupThreshold := gt,
            groupCount := g, memberIndex := mi, memberThreshold := mt,
            share := value } :=
  decode_encode_roundtrip identifier flag e gi gt g mi mt value hid hflag he
    hgi hgt hgtg hg hmi hmt hmt16 hlen heven hbytes

/-- Witness for `decodeMnemonic_encodeMnemonic` at a concrete input. -/
theorem decodeMnemonic_encodeMnemonic_witness :
    decodeMnemonic (encodeMnemonic [18, 52] 1 5 2 3 7 4 6 (List.replicate 16 1)) =
      .ok { identifier := 4660, extendableBackupFlag := 1, iterationExponent := 5,
            groupIndex := 2, groupThreshold := 3, groupCount := 7,
            memberIndex := 4, memberThreshold := 6,
            share := List.replicate 16 1 } :=
  decodeMnemonic_encodeMnemonic [18, 52] 1 5 2 3 7 4 6 (List.replicate 16 1)
    (by decide) (by decide) (by decide) (by decide) (by decide) (by decide)
    (by decide) (by decide) (by decide) (by decide) (by decide) (by decide)
    (by decide)

/-! ## validateMnemonic characterization (C7). -/

theorem encodeBigIntCore_length_le :
    ∀ v n : Nat, (encodeBigIntCore v).length ≤ n ↔ v < 256 ^ n := by
  intro v
  induction v using Nat.strong_induction_on with
  | _ v ih =>
    intro n
    rcases Classical.em (v = 0) with h0 | h0
    · subst h0
      have hc : encodeBigIntCore 0 = [] := rfl
      rw [hc]
      simp only [List.length_nil]
      constructor
      · intro _
        exact Nat.pos_pow_of_pos n (by omega)
      · intro _
        exact Nat.zero_le n
    · rw [encodeBigIntCore_unfold, if_neg h0]
      cases n with
      | zero =>
        rw [List.length_append]
        simp only [List.length_cons, List.length_nil, Nat.pow_zero]
        constructor
        · intro h; omega
        · intro h; omega
      | succ n =>
        rw [List.length_append]
        simp only [List.length_cons, List.length_nil]
        have hlt : v / 256 < v := Nat.div_lt_self (by omega) (by omega)
        have hiff := ih (v / 256) hlt n
        have hp : (256 : Nat) ^ (n + 1) = 256 * 256 ^ n := by
          rw [Nat.pow_succ]; ring
        constructor
        · intro h
          have h1 : v / 256 < 256 ^ n := hiff.mp (by omega)
          omega
        · intro h
          have h1 : v / 256 < 256 ^ n := by omega
          have := hiff.mpr h1
          omega

theorem encodeBigInt_ok_iff (v n : Nat) (hn : 0 < n) :
    (encodeBigInt v n).isOk = true ↔ v < 256 ^ n := by
  rw [encodeBigInt]
  rcases Classical.em ((encodeBigIntCore v).length ≤ n) with hle | hgt
  · have hplen : (List.replicate (n - (encodeBigIntCore v).length) 0 ++
        encodeBigIntCore v).length = n := by
      rw [List.length_append, List.length_replicate]
      omega
    rw [if_neg (by omega)]
    simp only [Except.isOk, Except.toBool]
    constructor
    · intro _
      exact (encodeBigIntCore_length_le v n).mp hle
    · intro _
      trivial
  · have hplen : (List.replicate (n - (encodeBigIntCore v).length) 0 ++
        encodeBigIntCore v).length = (encodeBigIntCore v).length := by
      rw [List.length_append, List.length_replicate]
      omega
    rw [if_pos (by constructor; omega; omega)]
    simp only [Except.isOk, Except.toBool]
    constructor
    · intro h
      exact absurd h (by simp)
    · intro h
      exact absurd ((encodeBigIntCore_length_le v n).mpr h) hgt

theorem decodeMnemonic_isOk_iff (m : List Nat) :
    (decodeMnemonic m).isOk = true ↔
      (m.all (fun w => w < 1024) = true ∧
       MNEMONICS_WORDS_LENGTH ≤ m.length ∧
       (RADIX_BITS * (m.length - METADATA_WORDS_LENGTH)) % 16 ≤ 8 ∧
       rs1024VerifyChecksum m
         ((intFromIndices (m.take ITERATION_EXP_WORDS_LENGTH) >>>
           ITERATION_EXP_BITS_LENGTH) &&&
          ((1 <<< EXTENDABLE_BACKUP_FLAG_BITS_LENGTH) - 1)) = true ∧
       (intToIndices (intFromIndices ((m.drop ITERATION_EXP_WORDS_LENGTH).take 2)) 5 4).getD 1 0 ≤
         (intToIndices (intFromIndices ((m.drop ITERATION_EXP_WORDS_LENGTH).take 2)) 5 4).getD 2 0 ∧
       intFromIndices ((m.drop (ITERATION_EXP_WORDS_LENGTH + 2)).take
           (m.length - CHECKSUM_WORDS_LENGTH - (ITERATION_EXP_WORDS_LENGTH + 2))) <
         256 ^ bitsToBytes (RADIX_BITS *
           ((m.drop (ITERATION_EXP_WORDS_LENGTH + 2)).take
             (m.length - CHECKSUM_WORDS_LENGTH - (ITERATION_EXP_WORDS_LENGTH + 2))).length -
           (RADIX_BITS * (m.length - METADATA_WORDS_LENGTH)) % 16)) := by
  rw [decodeMnemonic]
  cases hall : m.all (fun w => w < 1024) with
  | false =>
    have hmti : mnemonicToIndices m = .error "Invalid mnemonic word." := by
      rw [mnemonicToIndices, if_neg (by simp [hall])]
    rw [hmti]
    simp [Except.isOk, Except.toBool]
  | true =>
    have hmti : mnemonicToIndices m = .ok m := by
      rw [mnemonicToIndices, if_pos hall]
    rw [hmti]
    dsimp only
    by_cases h20 : m.length < MNEMONICS_WORDS_LENGTH
    · rw [if_pos h20]
      simp only [Except.isOk, Except.toBool]
      constructor
      · intro h
        exact absurd h (by simp)
      · rintro ⟨_, h, _⟩
        omega
    · rw [if_neg h20]
      by_cases hpad : (RADIX_BITS * (m.length - METADATA_WORDS_LENGTH)) % 16 > 8
      · rw [if_pos hpad]
        simp only [Except.isOk, Except.toBool]
        constructor
        · intro h
          exact absurd h (by simp)
        · rintro ⟨_, _, h, _⟩
          omega
      · rw [if_neg hpad]
        by_cases hcs : rs1024VerifyChecksum m
            ((intFromIndices (m.take ITERATION_EXP_WORDS_LENGTH) >>>
              ITERATION_EXP_BITS_LENGTH) &&&
             ((1 <<< EXTENDABLE_BACKUP_FLAG_BITS_LENGTH) - 1)) = true
        · rw [if_neg (by simp [hcs])]
          by_cases hgc : (intToIndices (intFromIndices
                ((m.drop ITERATION_EXP_WORDS_LENGTH).take 2)) 5 4).getD 2 0 <
              (intToIndices (intFromIndices
                ((m.drop ITERATION_EXP_WORDS_LENGTH).take 2)) 5 4).getD 1 0
          · rw [if_pos hgc]
            simp only [Except.isOk, Except.toBool]
            constructor
            · intro h
              exact absurd h (by simp)
            · rintro ⟨_, _, _, _, h, _⟩
              omega
          · rw [if_neg hgc]
            set vd := (m.drop (ITERATION_EXP_WORDS_LENGTH + 2)).take
              (m.length - CHECKSUM_WORDS_LENGTH - (ITERATION_EXP_WORDS_LENGTH + 2)) with hvd
            have hvdlen : vd.length = m.length - 7 := by
              rw [hvd, List.length_take, List.length_drop]
              simp only [ITERATION_EXP_WORDS_LENGTH, CHECKSUM_WORDS_LENGTH,
                MNEMONICS_WORDS_LENGTH] at *
              omega
            have hbc : 0 < bitsToBytes (RADIX_BITS * vd.length -
                (RADIX_BITS * (m.length - METADATA_WORDS_LENGTH)) % 16) := by
              rw [hvdlen, bitsToBytes]
              simp only [RADIX_BITS, METADATA_WORDS_LENGTH,
                MNEMONICS_WORDS_LENGTH] at *
              omega
            have hiff := encodeBigInt_ok_iff (intFromIndices vd)
              (bitsToBytes (RADIX_BITS * vd.length -
                (RADIX_BITS * (m.length - METADATA_WORDS_LENGTH)) % 16)) hbc
            rcases henc : encodeBigInt (intFromIndices vd)
                (bitsToBytes (RADIX_BITS * vd.length -
                  (RADIX_BITS * (m.length - METADATA_WORDS_LENGTH)) % 16)) with she | shok
            · rw [henc] at hiff
              constructor
              · intro h
                exact Bool.noConfusion h
              · rintro ⟨_, _, _, _, _, h⟩
                exact Bool.noConfusion (hiff.mpr h)
            · rw [henc] at hiff
              have hv := hiff.mp rfl
              constructor
              · intro _
                exact ⟨rfl, by omega, by omega, hcs, by omega, hv⟩
              · intro _
                rfl
        · rw [if_pos (by simp [hcs])]
          simp only [Except.isOk, Except.toBool]
          constructor
          · intro h
            exact absurd h (by simp)
          · rintro ⟨_, _, _, h, _⟩
            exact absurd h hcs

/-- **C7.** `validateMnemonic` returns true exactly when the decode path
succeeds, and decoding succeeds exactly when: every word is in the 1024-word
dictionary, the word count is at least 20 with a valid length residual (at
most 8 padding bits), the RS1024 checksum verifies against the decoded
extendable flag, the decoded group count is at least the decoded group
threshold, and the padding bits are zero (the share value fits in the derived
byte count).  `validateMnemonic` is a total Boolean function: every error kind
of the decode path is collapsed into `false`. -/
theorem validateMnemonic_iff_decode (m : List Nat) :
    (validateMnemonic m = (decodeMnemonic m).isOk) ∧
    ((decodeMnemonic m).isOk = true ↔
      (m.all (fun w => w < 1024) = true ∧
       MNEMONICS_WORDS_LENGTH ≤ m.length ∧
       (RADIX_BITS * (m.length - METADATA_WORDS_LENGTH)) % 16 ≤ 8 ∧
       rs1024VerifyChecksum m
         ((intFromIndices (m.take ITERATION_EXP_WORDS_LENGTH) >>>
           ITERATION_EXP_BITS_LENGTH) &&&
          ((1 <<< EXTENDABLE_BACKUP_FLAG_BITS_LENGTH) - 1)) = true ∧
       (intToIndices (intFromIndices ((m.drop ITERATION_EXP_WORDS_LENGTH).take 2)) 5 4).getD 1 0 ≤
         (intToIndices (intFromIndices ((m.drop ITERATION_EXP_WORDS_LENGTH).take 2)) 5 4).getD 2 0 ∧
       intFromIndices ((m.drop (ITERATION_EXP_WORDS_LENGTH + 2)).take
           (m.length - CHECKSUM_WORDS_LENGTH - (ITERATION_EXP_WORDS_LENGTH + 2))) <
         256 ^ bitsToBytes (RADIX_BITS *
           ((m.drop (ITERATION_EXP_WORDS_LENGTH + 2)).take
             (m.length - CHECKSUM_WORDS_LENGTH - (ITERATION_EXP_WORDS_LENGTH + 2))).length -
           (RADIX_BITS * (m.length - METADATA_WORDS_LENGTH)) % 16))) := by
  constructor
  · rw [validateMnemonic]
    cases decodeMnemonic m <;> rfl
  · exact decodeMnemonic_isOk_iff m

/-! ## Exactness of the group and member counts (C6). -/

/-! ### Lemmas about the JavaScript collection embeddings. -/

theorem jsSetAdd_mem_self (s : List Nat) (x : Nat) : x ∈ jsSetAdd s x := by
  rw [jsSetAdd]
  split
  · exact List.mem_of_elem_eq_true (by assumption)
  · simp

theorem jsSetAdd_mem_of_mem {s : List Nat} {y : Nat} (x : Nat) (h : y ∈ s) :
    y ∈ jsSetAdd s x := by
  rw [jsSetAdd]
  split
  · exact h
  · simp [h]

theorem jsMapGet_eq_none {α : Type} {m : List (Nat × α)} {k : Nat}
    (h : k ∈ m.map Prod.fst → False) : jsMapGet m k = none := by
  rw [jsMapGet]
  rw [List.find?_eq_none.mpr]
  · rfl
  · intro p hp hk
    exact h (List.mem_map.mpr ⟨p, hp, by simpa using hk⟩)

theorem jsMapSet_of_not_mem {α : Type} {m : List (Nat × α)} {k : Nat}
    (v : α) (h : k ∈ m.map Prod.fst → False) : jsMapSet m k v = m ++ [(k, v)] := by
  rw [jsMapSet, if_neg]
  intro hany
  rcases List.any_eq_true.mp hany with ⟨p, hp, he⟩
  exact h (List.mem_map.mpr ⟨p, hp, by simpa using he⟩)

theorem jsMapSet_keys_of_mem {α : Type} {m : List (Nat × α)} {k : Nat}
    (v : α) (h : k ∈ m.map Prod.fst) :
    (jsMapSet m k v).map Prod.fst = m.map Prod.fst := by
  rw [jsMapSet, if_pos]
  · rw [List.map_map]
    apply List.map_congr_left
    intro p hp
    simp only [Function.comp_apply]
    split
    · simp [*]
    · rfl
  · rcases List.mem_map.mp h with ⟨p, hp, he⟩
    exact List.any_eq_true.mpr ⟨p, hp, by simp [he]⟩

theorem jsMapGet_singleton {α : Type} (k : Nat) (v : α) :
    jsMapGet [(k, v)] k = some v := by
  simp [jsMapGet, List.find?]

theorem jsMapGet_singleton_ne {α : Type} {k k' : Nat} (v : α) (h : k' ≠ k) :
    jsMapGet [(k, v)] k' = none := by
  have hd : decide ((k, v).1 = k') = false := by
    simp
    omega
  simp [jsMapGet, List.find?, hd]

theorem jsMapSet_singleton_self {α : Type} (k : Nat) (v w : α) :
    jsMapSet [(k, v)] k w = [(k, w)] := by
  simp [jsMapSet]

theorem jsMapSet_singleton_ne {α : Type} {k k' : Nat} (v w : α) (h : k' ≠ k) :
    jsMapSet [(k, v)] k' w = [(k, v), (k', w)] := by
  rw [jsMapSet_of_not_mem]
  · rfl
  · intro hm
    simp at hm
    omega

theorem jsMapGet_of_mem {α : Type} {m : List (Nat × α)} {k : Nat} {v : α}
    (hnd : (m.map Prod.fst).Nodup) (h : (k, v) ∈ m) : jsMapGet m k = some v := by
  induction m with
  | nil => cases h
  | cons p m ih =>
    rcases List.mem_cons.mp h with rfl | hm
    · simp [jsMapGet, List.find?]
    · have hk : p.1 ≠ k := by
        intro he
        have : k ∈ m.map Prod.fst := List.mem_map.mpr ⟨(k, v), hm, rfl⟩
        rw [List.map_cons, List.nodup_cons] at hnd
        exact hnd.1 (he ▸ this)
      have hd : decide (p.1 = k) = false := by simp [hk]
      rw [jsMapGet, List.find?]
      rw [hd]
      exact ih (by rw [List.map_cons, List.nodup_cons] at hnd; exact hnd.2) hm

theorem jsMapSet_mem_iff {α : Type} {m : List (Nat × α)} {k : Nat} (v : α)
    (hk : k ∈ m.map Prod.fst) {q : Nat × α} :
    q ∈ jsMapSet m k v ↔ (q = (k, v) ∧ k ∈ m.map Prod.fst) ∨ (q ∈ m ∧ q.1 ≠ k) := by
  rw [jsMapSet, if_pos]
  · constructor
    · intro hq
      rcases List.mem_map.mp hq with ⟨p, hp, he⟩
      by_cases hpk : p.1 = k
      · simp only [if_pos hpk] at he
        exact Or.inl ⟨he.symm, hk⟩
      · simp only [if_neg hpk] at he
        exact Or.inr ⟨he ▸ hp, he ▸ hpk⟩
    · rintro (⟨rfl, _⟩ | ⟨hq, hne⟩)
      · rcases List.mem_map.mp hk with ⟨p, hp, he⟩
        exact List.mem_map.mpr ⟨p, hp, by simp [he]⟩
      · exact List.mem_map.mpr ⟨q, hq, by simp [hne]⟩
  · rcases List.mem_map.mp hk with ⟨p, hp, he⟩
    exact List.any_eq_true.mpr ⟨p, hp, by simp [he]⟩

theorem jsMapSet_length_of_mem {α : Type} {m : List (Nat × α)} {k : Nat} (v : α)
    (hk : k ∈ m.map Prod.fst) : (jsMapSet m k v).length = m.length := by
  rw [jsMapSet, if_pos]
  · exact List.length_map _ _
  · rcases List.mem_map.mp hk with ⟨p, hp, he⟩
    exact List.any_eq_true.mpr ⟨p, hp, by simp [he]⟩

/-! ### The decode-loop invariant for C6. -/

/-- What one entry of the `groups` map satisfies relative to the list of
mnemonics processed so far: exactly one member threshold was seen for this
group, all processed mnemonics of this group carry it, and the member map's
keys are exactly the member indices seen for this group. -/
def groupEntryOk (processed : List DecodedMnemonic)
    (p : Nat × List (Nat × List (Nat × List Nat))) : Prop :=
  p.2.length = 1 ∧
  (∀ d ∈ processed, d.groupIndex = p.1 →
    d.memberThreshold = (p.2.headD (0, [])).1) ∧
  ((p.2.headD (0, [])).2.map Prod.fst).Nodup ∧
  ((p.2.headD (0, [])).2.map Prod.fst).toFinset =
    ((processed.filter (fun x => x.groupIndex = p.1)).map
      (fun x => x.memberIndex)).toFinset

/-- The invariant of the `decodeMnemonics` fold. -/
def decodeStateInv (processed : List DecodedMnemonic) (st : DecodeState) :
    Prop :=
  (st.groups.map Prod.fst).Nodup ∧
  (st.groups.map Prod.fst).toFinset =
    (processed.map (fun x => x.groupIndex)).toFinset ∧
  (∀ p ∈ st.groups, groupEntryOk processed p) ∧
  (∀ d ∈ processed, d.groupThreshold ∈ st.groupThresholds)

theorem decodeStateInv_nil : decodeStateInv [] ⟨[], [], [], [], [], []⟩ := by
  refine ⟨List.nodup_nil, rfl, ?_, ?_⟩ <;> intro _ h <;> cases h

theorem decodeMnemonicsStep_ok {st st' : DecodeState} {m : List Nat}
    {processed : List DecodedMnemonic}
    (h : decodeMnemonicsStep st m = .ok st')
    (hinv : decodeStateInv processed st) :
    ∃ d, decodeMnemonic m = .ok d ∧ decodeStateInv (processed ++ [d]) st' := by
  obtain ⟨hnd, hkeys, hent, hthr⟩ := hinv
  rw [decodeMnemonicsStep] at h
  cases hd : decodeMnemonic m with
  | error e => rw [hd] at h; exact Except.noConfusion h
  | ok d =>
    rw [hd] at h
    dsimp only at h
    refine ⟨d, rfl, ?_⟩
    by_cases hmem : d.groupIndex ∈ st.groups.map Prod.fst
    · -- the group already has an entry [(t0, mm)]
      rcases List.mem_map.mp hmem with ⟨p, hp, hpk⟩
      have hp1 : (d.groupIndex, p.2) ∈ st.groups := by
        have : p = (d.groupIndex, p.2) := by
          cases p; simp_all
        exact this ▸ hp
      obtain ⟨hlen1, hmt, hmnd, hmkeys⟩ := hent p hp
      rcases List.length_eq_one.mp hlen1 with ⟨a, ha⟩
      rw [ha] at hmt hmnd hmkeys
      simp only [List.headD_cons] at hmt hmnd hmkeys
      rw [hpk] at hmt hmkeys
      have hget : jsMapGet st.groups d.groupIndex = some p.2 :=
        jsMapGet_of_mem hnd hp1
      rw [hget] at h
      simp only [Option.getD_some, ha] at h
      by_cases hamt : d.memberThreshold = a.1
      · -- same member threshold: overwrite inside the member map
        have hgm : jsMapGet [a] d.memberThreshold = some a.2 := by
          have : a = (a.1, a.2) := rfl
          rw [hamt, this]
          exact jsMapGet_singleton a.1 a.2
        rw [hgm] at h
        simp only [Option.getD_some] at h
        have hset : jsMapSet [a] d.memberThreshold
            (jsMapSet a.2 d.memberIndex d.share) =
            [(a.1, jsMapSet a.2 d.memberIndex d.share)] := by
          have : a = (a.1, a.2) := rfl
          rw [hamt]
          conv in jsMapSet [a] _ _ => rw [this]
          exact jsMapSet_singleton_self a.1 a.2 _
        rw [hset, if_neg (by simp)] at h
        have hst := (Except.ok.inj h).symm
        subst hst
        set mm' := jsMapSet a.2 d.memberIndex d.share with hmm'
        have hkeq : (jsMapSet st.groups d.groupIndex [(a.1, mm')]).map Prod.fst
            = st.groups.map Prod.fst := jsMapSet_keys_of_mem _ hmem
        refine ⟨by rw [hkeq]; exact hnd, ?_, ?_, ?_⟩
        · rw [hkeq, hkeys, List.map_append, List.toFinset_append]
          have : d.groupIndex ∈ (processed.map (fun x => x.groupIndex)).toFinset := by
            rw [← hkeys, List.mem_toFinset]; exact hmem
          simp only [List.map_cons, List.map_nil]
          rw [Finset.union_eq_left.mpr]
          simpa using this
        · intro q hq
          rcases (jsMapSet_mem_iff _ hmem).mp hq with ⟨rfl, _⟩ | ⟨hqm, hqne⟩
          · -- the rewritten entry
            refine ⟨rfl, ?_, ?_, ?_⟩
            · intro d' hd' hgi
              rcases List.mem_append.mp hd' with hd' | hd'
              · exact hmt d' hd' hgi
              · rcases List.mem_singleton.mp hd' with rfl
                exact hamt
            · show (mm'.map Prod.fst).Nodup
              by_cases hmim : d.memberIndex ∈ a.2.map Prod.fst
              · rw [hmm', jsMapSet_keys_of_mem _ hmim]; exact hmnd
              · rw [hmm', jsMapSet_of_not_mem _ hmim, List.map_append]
                simp only [List.map_cons, List.map_nil]
                rw [List.nodup_append]
                exact ⟨hmnd, List.nodup_singleton _, by
                  intro x hx hx'
                  rcases List.mem_singleton.mp hx' with rfl
                  exact hmim hx⟩
            · show (mm'.map Prod.fst).toFinset = _
              have hfa : (processed ++ [d]).filter
                  (fun x => x.groupIndex = (d.groupIndex, [(a.1, mm')]).1) =
                  processed.filter (fun x => x.groupIndex = d.groupIndex) ++ [d] := by
                rw [List.filter_append]
                simp
              rw [hfa, List.map_append, List.toFinset_append]
              simp only [List.map_cons, List.map_nil]
              by_cases hmim : d.memberIndex ∈ a.2.map Prod.fst
              · rw [hmm', jsMapSet_keys_of_mem _ hmim, hmkeys]
                refine (Finset.union_eq_left.mpr ?_).symm
                intro x hx
                have hx' : x = d.memberIndex := by simpa using hx
                subst hx'
                rw [← hmkeys]
                exact List.mem_toFinset.mpr hmim
              · rw [hmm', jsMapSet_of_not_mem _ hmim, List.map_append,
                  List.toFinset_append, hmkeys]
                simp
          · -- an untouched entry
            obtain ⟨hl1, hm2, hn2, hk2⟩ := hent q hqm
            refine ⟨hl1, ?_, hn2, ?_⟩
            · intro d' hd' hgi
              rcases List.mem_append.mp hd' with hd' | hd'
              · exact hm2 d' hd' hgi
              · rcases List.mem_singleton.mp hd' with rfl
                exact absurd hgi.symm hqne
            · rw [hk2]
              congr 1
              rw [List.filter_append]
              have : [d].filter (fun x => x.groupIndex = q.1) = [] := by
                simp only [List.filter_cons, List.filter_nil]
                rw [if_neg]
                simp only [decide_eq_true_eq]
                intro hc
                exact hqne (hc ▸ rfl)
              rw [this, List.append_nil]
        · intro d' hd'
          rcases List.mem_append.mp hd' with hd' | hd'
          · exact jsSetAdd_mem_of_mem _ (hthr d' hd')
          · rcases List.mem_singleton.mp hd' with rfl
            exact jsSetAdd_mem_self _ _
      · -- different member threshold: the group map would get two entries
        have hgm : jsMapGet [a] d.memberThreshold = none :=
          jsMapGet_singleton_ne _ hamt
        rw [hgm] at h
        simp only [Option.getD_none] at h
        have hset : jsMapSet [a] d.memberThreshold
            (jsMapSet [] d.memberIndex d.share) =
            [a, (d.memberThreshold, jsMapSet [] d.memberIndex d.share)] := by
          have : a = (a.1, a.2) := rfl
          conv in jsMapSet [a] _ _ => rw [this]
          exact jsMapSet_singleton_ne _ _ hamt
        rw [hset, if_pos (by simp)] at h
        exact Except.noConfusion h
    · -- a fresh group index
      have hget : jsMapGet st.groups d.groupIndex = none :=
        jsMapGet_eq_none hmem
      rw [hget] at h
      simp only [Option.getD_none] at h
      have hempty : ∀ (k : Nat) (v : List Nat),
          jsMapSet ([] : List (Nat × List Nat)) k v = [(k, v)] := fun _ _ => rfl
      have hempty2 : ∀ (k : Nat) (v : List (Nat × List Nat)),
          jsMapSet ([] : List (Nat × List (Nat × List Nat))) k v = [(k, v)] :=
        fun _ _ => rfl
      rw [jsMapGet_eq_none (by simp), Option.getD_none, hempty, hempty2,
        if_neg (by simp)] at h
      have hst := (Except.ok.inj h).symm
      subst hst
      have hgset : jsMapSet st.groups d.groupIndex
          [(d.memberThreshold, [(d.memberIndex, d.share)])] =
          st.groups ++ [(d.groupIndex,
            [(d.memberThreshold, [(d.memberIndex, d.share)])])] :=
        jsMapSet_of_not_mem _ hmem
      have hfreshp : ∀ d' ∈ processed, d'.groupIndex ≠ d.groupIndex := by
        intro d' hd' hc
        apply hmem
        rw [← List.mem_toFinset, hkeys, List.mem_toFinset]
        exact List.mem_map.mpr ⟨d', hd', hc⟩
      refine ⟨?_, ?_, ?_, ?_⟩
      · rw [hgset, List.map_append]
        simp only [List.map_cons, List.map_nil]
        rw [List.nodup_append]
        exact ⟨hnd, List.nodup_singleton _, by
          intro x hx hx'
          rcases List.mem_singleton.mp hx' with rfl
          exact hmem hx⟩
      · rw [hgset, List.map_append, List.toFinset_append, hkeys,
          List.map_append, List.toFinset_append]
        simp
      · intro q hq
        rw [hgset] at hq
        rcases List.mem_append.mp hq with hqm | hqnew
        · obtain ⟨hl1, hm2, hn2, hk2⟩ := hent q hqm
          have hqne : q.1 ≠ d.groupIndex := by
            intro hc
            exact hmem (hc ▸ List.mem_map.mpr ⟨q, hqm, rfl⟩)
          refine ⟨hl1, ?_, hn2, ?_⟩
          · intro d' hd' hgi
            rcases List.mem_append.mp hd' with hd' | hd'
            · exact hm2 d' hd' hgi
            · rcases List.mem_singleton.mp hd' with rfl
              exact absurd hgi (by intro hc; exact hqne hc.symm)
          · rw [hk2]
            congr 1
            rw [List.filter_append]
            have : [d].filter (fun x => x.groupIndex = q.1) = [] := by
              simp only [List.filter_cons, List.filter_nil]
              rw [if_neg]
              simp only [decide_eq_true_eq]
              intro hc
              exact hqne hc.symm
            rw [this, List.append_nil]
        · rcases List.mem_singleton.mp hqnew with rfl
          refine ⟨rfl, ?_, List.nodup_singleton _, ?_⟩
          · intro d' hd' hgi
            rcases List.mem_append.mp hd' with hd' | hd'
            · exact absurd hgi (hfreshp d' hd')
            · rcases List.mem_singleton.mp hd' with rfl
              rfl
          · have hfilp : processed.filter
                (fun x => x.groupIndex = d.groupIndex) = [] := by
              rw [List.filter_eq_nil_iff]
              intro x hx
              simp only [decide_eq_true_eq]
              exact hfreshp x hx
            rw [List.filter_append, hfilp, List.nil_append]
            simp
      · intro d' hd'
        rcases List.mem_append.mp hd' with hd' | hd'
        · exact jsSetAdd_mem_of_mem _ (hthr d' hd')
        · rcases List.mem_singleton.mp hd' with rfl
          exact jsSetAdd_mem_self _ _

theorem decodeMnemonics_foldlM_inv :
    ∀ (ms : List (List Nat)) (st : DecodeState)
      (processed : List DecodedMnemonic) {st' : DecodeState},
    ms.foldlM decodeMnemonicsStep st = .ok st' →
    decodeStateInv processed st →
    ∃ ds, ms.mapM decodeMnemonic = .ok ds ∧
      decodeStateInv (processed ++ ds) st'
  | [], st, processed, st', h, hinv => by
    have hst : st = st' := Except.ok.inj h
    exact ⟨[], rfl, by simpa using hst ▸ hinv⟩
  | m :: ms, st, processed, st', h, hinv => by
    rw [List.foldlM_cons] at h
    cases hstep : decodeMnemonicsStep st m with
    | error e => rw [hstep] at h; exact Except.noConfusion h
    | ok st1 =>
      rw [hstep] at h
      obtain ⟨d, hd, hinv1⟩ := decodeMnemonicsStep_ok hstep hinv
      obtain ⟨ds, hds, hinv2⟩ :=
        decodeMnemonics_foldlM_inv ms st1 (processed ++ [d]) h hinv1
      refine ⟨d :: ds, ?_, ?_⟩
      · rw [List.mapM_cons, hd, hds]; rfl
      · simpa using hinv2

/-- Success of `decodeMnemonics` yields the list of individually decoded
mnemonics together with the loop invariant for the final state. -/
theorem decodeMnemonics_ok {mnemonics : List (List Nat)}
    {decoded : DecodedMnemonics}
    (h : decodeMnemonics mnemonics = .ok decoded) :
    ∃ ds st, mnemonics.mapM decodeMnemonic = .ok ds ∧
      decodeStateInv ds st ∧ decoded.groups = st.groups ∧
      st.groupThresholds = [decoded.groupThreshold] := by
  rw [decodeMnemonics] at h
  cases hf : mnemonics.foldlM decodeMnemonicsStep ⟨[], [], [], [], [], []⟩ with
  | error e => rw [hf] at h; exact Except.noConfusion h
  | ok st =>
    rw [hf] at h
    dsimp only at h
    obtain ⟨ds, hds, hinv⟩ :=
      decodeMnemonics_foldlM_inv mnemonics _ [] hf decodeStateInv_nil
    split at h
    · exact Except.noConfusion h
    · split at h
      · exact Except.noConfusion h
      · split at h
        · exact Except.noConfusion h
        · rename_i h1 h2 h3
          have hde := Except.ok.inj h
          refine ⟨ds, st, hds, by simpa using hinv, ?_, ?_⟩
          · rw [← hde]
          · rcases List.length_eq_one.mp (not_ne_iff.mp h2) with ⟨t, ht⟩
            rw [← hde, ht]
            rfl

theorem combineGroupStep_foldlM_ok (hmac : List Nat → List Nat → List Nat) :
    ∀ (l : List (Nat × List (Nat × List (Nat × List Nat))))
      (acc : List (Nat × List Nat)) {r : List (Nat × List Nat)},
    l.foldlM (combineGroupStep hmac) acc = .ok r →
    ∀ p ∈ l, (p.2.headD (0, [])).2.length = (p.2.headD (0, [])).1
  | [], _, _, _, _, hp => by cases hp
  | g :: l, acc, r, h, p, hp => by
    rw [List.foldlM_cons] at h
    cases hstep : combineGroupStep hmac acc g with
    | error e => rw [hstep] at h; exact Except.noConfusion h
    | ok acc1 =>
      rw [hstep] at h
      rcases List.mem_cons.mp hp with rfl | hp
      · rw [combineGroupStep] at hstep
        split at hstep
        · exact Except.noConfusion hstep
        · exact not_ne_iff.mp (by assumption)
      · exact combineGroupStep_foldlM_ok hmac l acc1 h p hp

/-- When `combineMnemonics` succeeds, the number of distinct group indices
among the decoded mnemonics equals the group threshold exactly, and within
each group the number of distinct member indices equals that group's member
threshold exactly. -/
theorem combineMnemonics_ok_counts
    (pbkdf2 : List Nat → List Nat → Nat → Nat → List Nat)
    (hmac : List Nat → List Nat → List Nat)
    (mnemonics : List (List Nat)) (passphrase : List Nat) {r : List Nat}
    (h : combineMnemonics pbkdf2 hmac mnemonics passphrase = .ok r) :
    ∃ ds : List DecodedMnemonic,
      mnemonics.mapM decodeMnemonic = .ok ds ∧
      ∀ d ∈ ds,
        (ds.map (fun x => x.groupIndex)).dedup.length = d.groupThreshold ∧
        ((ds.filter (fun x => x.groupIndex = d.groupIndex)).map
          (fun x => x.memberIndex)).dedup.length = d.memberThreshold := by
  rw [combineMnemonics] at h
  split at h
  · exact Except.noConfusion h
  · cases hdec : decodeMnemonics mnemonics with
    | error e => rw [hdec] at h; exact Except.noConfusion h
    | ok decoded =>
      rw [hdec] at h
      dsimp only at h
      split at h
      · exact Except.noConfusion h
      · split at h
        · exact Except.noConfusion h
        · rename_i hlt hne
          have hglen : decoded.groups.length = decoded.groupThreshold :=
            not_ne_iff.mp hne
          cases hcomb : decoded.groups.foldlM (combineGroupStep hmac) [] with
          | error e => rw [hcomb] at h; exact Except.noConfusion h
          | ok allShares =>
            obtain ⟨ds, st, hds, hinv, hgroups, hthrs⟩ := decodeMnemonics_ok hdec
            obtain ⟨hnd, hkeys, hent, hthr⟩ := hinv
            refine ⟨ds, hds, ?_⟩
            intro d hdmem
            have hdthr : d.groupThreshold = decoded.groupThreshold := by
              have := hthr d hdmem
              rw [hthrs] at this
              simpa using this
            constructor
            · rw [← List.card_toFinset, ← hkeys,
                List.toFinset_card_of_nodup hnd, List.length_map, ← hgroups,
                hglen, hdthr]
            · have hgi : d.groupIndex ∈ st.groups.map Prod.fst := by
                rw [← List.mem_toFinset, hkeys, List.mem_toFinset]
                exact List.mem_map.mpr ⟨d, hdmem, rfl⟩
              rcases List.mem_map.mp hgi with ⟨p, hp, hpk⟩
              obtain ⟨hl1, hm2, hn2, hk2⟩ := hent p hp
              rcases List.length_eq_one.mp hl1 with ⟨a, ha⟩
              rw [ha] at hm2 hn2 hk2
              simp only [List.headD_cons] at hm2 hn2 hk2
              rw [hpk] at hm2 hk2
              have hcount := combineGroupStep_foldlM_ok hmac decoded.groups []
                hcomb p (hgroups ▸ hp)
              rw [ha] at hcount
              simp only [List.headD_cons] at hcount
              rw [← List.card_toFinset, ← hk2,
                List.toFinset_card_of_nodup hn2, List.length_map, hcount]
              exact (hm2 d hdmem rfl).symm

/-- **C6.** When `combineMnemonics` succeeds, the number of distinct group indices
among the decoded mnemonics equals the group threshold exactly, and within
each group the number of distinct member indices equals that group's member
threshold exactly (so it errors whenever either count is off in either
direction). -/
theorem combineMnemonics_exact_counts
    (pbkdf2 : List Nat → List Nat → Nat → Nat → List Nat)
    (hmac : List Nat → List Nat → List Nat)
    (mnemonics : List (List Nat)) (passphrase : List Nat) {r : List Nat}
    (h : combineMnemonics pbkdf2 hmac mnemonics passphrase = .ok r) :
    ∃ ds : List DecodedMnemonic,
      mnemonics.mapM decodeMnemonic = .ok ds ∧
      ∀ d ∈ ds,
        (ds.map (fun x => x.groupIndex)).dedup.length = d.groupThreshold ∧
        ((ds.filter (fun x => x.groupIndex = d.groupIndex)).map
          (fun x => x.memberIndex)).dedup.length = d.memberThreshold :=
  combineMnemonics_ok_counts pbkdf2 hmac mnemonics passphrase h

/-- A 1-of-1 mnemonic produced by `fromArray` with the all-zero primitives,
master secret `replicate 16 7` and identifier `[0, 1]`; `combineMnemonics`
recovers the master secret from it. -/
def wC6Mnemonic : List Nat :=
  [0, 32, 0, 0, 7, 28, 112, 449, 775, 28, 112, 449, 775, 28, 112, 449, 775,
   941, 765, 483]

set_option maxRecDepth 10000 in
theorem combineMnemonics_exact_counts_witness :
    combineMnemonics (fun _ _ _ n => List.replicate n 0)
      (fun _ _ => List.replicate 32 0) [wC6Mnemonic] [] =
      .ok (List.replicate 16 7) ∧
    ∃ ds : List DecodedMnemonic,
      [wC6Mnemonic].mapM decodeMnemonic = .ok ds ∧
      ∀ d ∈ ds,
        (ds.map (fun x => x.groupIndex)).dedup.length = d.groupThreshold ∧
        ((ds.filter (fun x => x.groupIndex = d.groupIndex)).map
          (fun x => x.memberIndex)).dedup.length = d.memberThreshold :=
  ⟨by rfl, combineMnemonics_exact_counts (fun _ _ _ n => List.replicate n 0)
    (fun _ _ => List.replicate 32 0) [wC6Mnemonic] [] (by rfl)⟩

/-! ## Shamir interpolation over GF(256): the code versus Lagrange. -/

theorem tmod_neg_num (a b : Int) : (-a).tmod b = -(a.tmod b) := by
  cases a with
  | ofNat m =>
    cases m with
    | zero => simp
    | succ m =>
      cases b with
      | ofNat n => show (Int.negSucc m).tmod _ = _; cases n <;> rfl
      | negSucc n => show (Int.negSucc m).tmod _ = _; rfl
  | negSucc m =>
    cases b with
    | ofNat n => exact (Int.neg_neg _).symm
    | negSucc n => exact (Int.neg_neg _).symm

theorem tmod_fix (z : Int) :
    (if z.tmod 255 < 0 then 255 + z.tmod 255 else z.tmod 255) = z.emod 255 := by
  rcases Int.le_or_lt 0 z with hz | hz
  · rw [Int.tmod_eq_emod hz (by norm_num)]
    rw [if_neg (by have := Int.emod_nonneg z (show (255:Int) ≠ 0 by norm_num); omega)]
    rfl
  · have hzz : z = -(-z) := by omega
    rw [hzz, tmod_neg_num]
    have h0 : 0 ≤ -z := by omega
    rw [Int.tmod_eq_emod h0 (by norm_num)]
    simp only [neg_neg]
    have hre : z.emod 255 = z % 255 := rfl
    rw [hre]
    split <;> omega

/-! ### Bytes as field elements and the discrete exp/log. -/

/-- The byte `x` as a field element (total; every use is in range). -/
def gfc (x : Nat) : GF := ⟨x % 256, Nat.mod_lt _ (by omega)⟩

theorem gfc_val {x : Nat} (h : x < 256) : (gfc x).val = x := Nat.mod_eq_of_lt h

theorem gfc_add {a b : Nat} (ha : a < 256) (hb : b < 256) :
    gfc a + gfc b = gfc (a ^^^ b) := by
  apply GF.ext
  rw [GF.add_val, gfc_val ha, gfc_val hb,
    gfc_val (Nat.xor_lt_two_pow (n := 8) ha hb)]

theorem gfc_ne_zero {a : Nat} (ha : a < 256) (h : a ≠ 0) : gfc a ≠ 0 := by
  intro hc
  exact h (by simpa [gfc_val ha] using congrArg GF.val hc)

theorem gfc_inj {a b : Nat} (ha : a < 256) (hb : b < 256) (h : gfc a = gfc b) :
    a = b := by
  have := congrArg GF.val h
  rwa [gfc_val ha, gfc_val hb] at this

/-- The discrete exponential `t ↦ 3^t : ZMod 255 → GF`. -/
def gfExp (t : ZMod 255) : GF := ⟨EXPT t.val, expt_lt _ (ZMod.val_lt t)⟩

theorem gfExp_val (t : ZMod 255) : (gfExp t).val = EXPT t.val := rfl

theorem gfExp_ne_zero (t : ZMod 255) : gfExp t ≠ 0 := by
  intro hc
  exact expt_ne_zero _ (ZMod.val_lt t) (by simpa using congrArg GF.val hc)

theorem gfExp_zero : gfExp 0 = 1 := by
  apply GF.ext
  rw [gfExp_val, ZMod.val_zero, expt_zero, GF.one_val]

theorem gfExp_add (s t : ZMod 255) : gfExp (s + t) = gfExp s * gfExp t := by
  apply GF.ext
  rw [GF.mul_val_of_ne (a := gfExp s) (b := gfExp t)
    (expt_ne_zero _ (ZMod.val_lt s)) (expt_ne_zero _ (ZMod.val_lt t))]
  rw [gfExp_val, gfExp_val, gfExp_val, logt_expt _ (ZMod.val_lt s),
    logt_expt _ (ZMod.val_lt t), ZMod.val_add]

theorem gfExp_logt {a : GF} (ha : a ≠ 0) :
    gfExp (LOGT a.val : ZMod 255) = a := by
  apply GF.ext
  rw [gfExp_val, ZMod.val_natCast,
    Nat.mod_eq_of_lt (logt_lt _ a.isLt)]
  exact expt_logt _ a.isLt (fun h => ha (GF.val_eq_zero.mp h))

theorem gfExp_neg (t : ZMod 255) : gfExp (-t) = (gfExp t)⁻¹ := by
  refine eq_inv_of_mul_eq_one_left ?_
  rw [← gfExp_add, neg_add_cancel, gfExp_zero]

theorem gfExp_sum {α : Type} (s : Finset α) (f : α → ZMod 255) :
    gfExp (∑ i ∈ s, f i) = ∏ i ∈ s, gfExp (f i) := by
  classical
  induction s using Finset.induction_on with
  | empty => simpa using gfExp_zero
  | insert hni ih =>
    rw [Finset.sum_insert hni, Finset.prod_insert hni, gfExp_add, ih]

theorem intCast_fix (z : Int) :
    (((z.emod 255).toNat : Nat) : ZMod 255) = (z : ZMod 255) := by
  have hz : z.emod 255 = z % 255 := rfl
  rw [hz]
  have h0 : 0 ≤ z % 255 := Int.emod_nonneg _ (by norm_num)
  have h1 : ((z % 255).toNat : Int) = z % 255 := Int.toNat_of_nonneg h0
  have h2 : (((z % 255).toNat : Nat) : ZMod 255) =
      ((((z % 255).toNat : Nat) : Int) : ZMod 255) := by push_cast; ring
  rw [h2, h1]
  have h3 : z % 255 = z - 255 * (z / 255) := by omega
  rw [h3]
  push_cast
  have h4 : (255 : ZMod 255) = 0 := by decide
  rw [h4]
  ring

theorem foldl_add_eq_sum {α : Type} (l : List α) (g : α → Nat) (n : Nat) :
    l.foldl (fun acc p => acc + g p) n = n + (l.map g).sum := by
  induction l generalizing n with
  | nil => simp
  | cons a l ih =>
    rw [List.foldl_cons, ih, List.map_cons, List.sum_cons]
    omega

theorem gfc_injOn (keys : List Nat) (hklt : ∀ k ∈ keys, k < 256) :
    Set.InjOn gfc keys.toFinset := by
  intro a ha b hb h
  exact gfc_inj (hklt a (List.mem_toFinset.mp ha)) (hklt b (List.mem_toFinset.mp hb)) h

/-- The `logBasisEval` quantity of `interpolate`, mapped through the discrete
exponential, is the evaluation at `x` of the Lagrange basis polynomial at the
node `xp`. -/
theorem gfExp_logBasisEval (keys : List Nat) (x xp : Nat)
    (hnd : keys.Nodup) (hxp : xp ∈ keys)
    (hklt : ∀ k ∈ keys, k < 256) (hxlt : x < 256) (hx : x ∉ keys) :
    gfExp ((((keys.map (fun k => LOGT (k ^^^ x))).sum : ZMod 255)
        - (LOGT (xp ^^^ x) : ZMod 255)
        - ((keys.map (fun k => LOGT (xp ^^^ k))).sum : ZMod 255)))
      = Polynomial.eval (gfc x) (Lagrange.basis keys.toFinset gfc xp) := by
  classical
  have hxplt : xp < 256 := hklt xp hxp
  -- list sums as Finset sums over the nodes
  have hs1 : ((keys.map (fun k => LOGT (k ^^^ x))).sum : ZMod 255) =
      ∑ k ∈ keys.toFinset, (LOGT (k ^^^ x) : ZMod 255) := by
    rw [Nat.cast_list_sum, List.map_map, List.sum_toFinset _ hnd]
    rfl
  have hs2 : ((keys.map (fun k => LOGT (xp ^^^ k))).sum : ZMod 255) =
      ∑ k ∈ keys.toFinset, (LOGT (xp ^^^ k) : ZMod 255) := by
    rw [Nat.cast_list_sum, List.map_map, List.sum_toFinset _ hnd]
    rfl
  -- drop the vanishing diagonal term from the second sum
  have hs2' : (∑ k ∈ keys.toFinset, (LOGT (xp ^^^ k) : ZMod 255)) =
      ∑ k ∈ keys.toFinset.erase xp, (LOGT (xp ^^^ k) : ZMod 255) := by
    refine (Finset.sum_erase _ ?_).symm
    rw [Nat.xor_self, logt_zero]
    rfl
  rw [hs1, hs2, hs2']
  -- split off the xp factor of the numerator sum
  have hsplit : (∑ k ∈ keys.toFinset, (LOGT (k ^^^ x) : ZMod 255)) =
      (LOGT (xp ^^^ x) : ZMod 255) +
        ∑ k ∈ keys.toFinset.erase xp, (LOGT (k ^^^ x) : ZMod 255) :=
    (Finset.add_sum_erase _ _ (List.mem_toFinset.mpr hxp)).symm
  rw [hsplit]
  have hrw : (LOGT (xp ^^^ x) : ZMod 255) +
        (∑ k ∈ keys.toFinset.erase xp, (LOGT (k ^^^ x) : ZMod 255)) -
        (LOGT (xp ^^^ x) : ZMod 255) -
        ∑ k ∈ keys.toFinset.erase xp, (LOGT (xp ^^^ k) : ZMod 255) =
      (∑ k ∈ keys.toFinset.erase xp, ((LOGT (k ^^^ x) : ZMod 255)
        + (- (LOGT (xp ^^^ k) : ZMod 255)))) := by
    rw [Finset.sum_add_distrib, Finset.sum_neg_distrib]
    ring
  rw [hrw, gfExp_sum]
  -- evaluate the Lagrange basis as a product over the same index set
  rw [Lagrange.basis, Polynomial.eval_prod]
  refine Finset.prod_congr rfl ?_
  intro k hk
  have hkmem : k ∈ keys := List.mem_toFinset.mp (Finset.mem_of_mem_erase hk)
  have hkne : k ≠ xp := Finset.ne_of_mem_erase hk
  have hklt' : k < 256 := hklt k hkmem
  have hkx : k ^^^ x ≠ 0 := by
    intro hc
    exact hx (Nat.xor_eq_zero.mp hc ▸ hkmem)
  have hxpk : xp ^^^ k ≠ 0 := by
    intro hc
    exact hkne (Nat.xor_eq_zero.mp hc).symm
  have hkxlt : k ^^^ x < 256 := Nat.xor_lt_two_pow (n := 8) hklt' hxlt
  have hxpklt : xp ^^^ k < 256 := Nat.xor_lt_two_pow (n := 8) hxplt hklt'
  rw [gfExp_add, gfExp_neg]
  have he1 : gfExp ((LOGT (k ^^^ x) : ZMod 255)) = gfc (k ^^^ x) := by
    have := gfExp_logt (a := gfc (k ^^^ x)) (gfc_ne_zero hkxlt hkx)
    rwa [gfc_val hkxlt] at this
  have he2 : gfExp ((LOGT (xp ^^^ k) : ZMod 255)) = gfc (xp ^^^ k) := by
    have := gfExp_logt (a := gfc (xp ^^^ k)) (gfc_ne_zero hxpklt hxpk)
    rwa [gfc_val hxpklt] at this
  rw [he1, he2]
  -- the basis divisor evaluates to (v xp - v k)⁻¹ * (x - v k)
  rw [Lagrange.basisDivisor, Polynomial.eval_mul, Polynomial.eval_C,
    Polynomial.eval_sub, Polynomial.eval_X, Polynomial.eval_C]
  have hd1 : gfc xp - gfc k = gfc (xp ^^^ k) := by
    rw [sub_eq_add_neg, GF.neg_eq, gfc_add hxplt hklt']
  have hd2 : gfc x - gfc k = gfc (k ^^^ x) := by
    rw [sub_eq_add_neg, GF.neg_eq, gfc_add hxlt hklt', Nat.xor_comm]
  rw [hd1, hd2]
  ring

/-! ### Pointwise form of the zipWith fold in `interpolate`. -/

theorem foldl_zipWith_length (shares : List (Nat × List Nat))
    (g : (Nat × List Nat) → Nat → Nat → Nat) (init : List Nat)
    (hlen : ∀ p ∈ shares, p.2.length = init.length) :
    (shares.foldl (fun results p =>
      List.zipWith (fun acc item => g p acc item) results p.2) init).length =
      init.length := by
  induction shares generalizing init with
  | nil => rfl
  | cons p shares ih =>
    rw [List.foldl_cons]
    rw [ih]
    · rw [List.length_zipWith, hlen p (by simp), Nat.min_self]
    · intro q hq
      rw [List.length_zipWith, hlen p (by simp), Nat.min_self]
      exact hlen q (by simp [hq])

theorem foldl_zipWith_getD (shares : List (Nat × List Nat))
    (g : (Nat × List Nat) → Nat → Nat → Nat) (init : List Nat)
    (hlen : ∀ p ∈ shares, p.2.length = init.length) (j : Nat)
    (hj : j < init.length) :
    (shares.foldl (fun results p =>
      List.zipWith (fun acc item => g p acc item) results p.2) init).getD j 0 =
      shares.foldl (fun a p => g p a (p.2.getD j 0)) (init.getD j 0) := by
  induction shares generalizing init with
  | nil => rfl
  | cons p shares ih =>
    rw [List.foldl_cons, List.foldl_cons]
    have hplen : p.2.length = init.length := hlen p (by simp)
    have hzlen : (List.zipWith (fun acc item => g p acc item) init p.2).length =
        init.length := by
      rw [List.length_zipWith, hplen, Nat.min_self]
    rw [ih _ (by intro q hq; rw [hzlen]; exact hlen q (by simp [hq])) (hzlen ▸ hj)]
    congr 1
    rw [List.getD_eq_getElem _ _ (hzlen ▸ hj), List.getElem_zipWith,
      List.getD_eq_getElem _ _ hj, List.getD_eq_getElem _ _ (hplen ▸ hj)]

theorem dedup_const {l : List Nat} {c : Nat} (hne : l ≠ [])
    (hc : ∀ a ∈ l, a = c) : l.dedup = [c] := by
  induction l with
  | nil => exact absurd rfl hne
  | cons a l ih =>
    have ha : a = c := hc a (by simp)
    cases l with
    | nil => simp [List.dedup_cons_of_not_mem, ha]
    | cons b l =>
      have hl : (b :: l).dedup = [c] := ih (by simp) (fun x hx => hc x (by simp [hx]))
      rw [List.dedup_cons_of_mem]
      · exact ha ▸ hl
      · rw [← List.mem_dedup, hl, ha]
        simp

theorem foldl_xor_gf {α : Type} (l : List α) (f : α → GF) (init : GF) :
    l.foldl (fun a x => a ^^^ (f x).val) init.val = (init + (l.map f).sum).val := by
  induction l generalizing init with
  | nil => simp
  | cons a l ih =>
    rw [List.foldl_cons, List.map_cons, List.sum_cons]
    have h1 : init.val ^^^ (f a).val = (init + f a).val := rfl
    rw [h1, ih (init + f a), add_assoc]

/-! ### `interpolate` computes Lagrange interpolation over GF(256). -/

/-- The field value of byte `j` of the share at x-coordinate `i`. -/
def shareVal (shares : List (Nat × List Nat)) (j : Nat) (i : Nat) : GF :=
  gfc (((jsMapGet shares i).getD []).getD j 0)

/-- The interpolation polynomial of byte `j` of a share set (a proof-side
artifact; the program itself never constructs it). -/
noncomputable def sharePoly (shares : List (Nat × List Nat)) (j : Nat) : Polynomial GF :=
  Lagrange.interpolate (shares.map Prod.fst).toFinset gfc (shareVal shares j)

theorem shareVal_of_mem {shares : List (Nat × List Nat)} {p : Nat × List Nat}
    (hnd : (shares.map Prod.fst).Nodup) (hp : p ∈ shares) (j : Nat) :
    shareVal shares j p.1 = gfc (p.2.getD j 0) := by
  have hpp : (p.1, p.2) ∈ shares := by rw [Prod.mk.eta]; exact hp
  rw [shareVal, jsMapGet_of_mem hnd hpp]
  rfl

theorem sharePoly_eval_at_node {shares : List (Nat × List Nat)}
    {p : Nat × List Nat} (hnd : (shares.map Prod.fst).Nodup)
    (hklt : ∀ q ∈ shares, q.1 < 256) (hp : p ∈ shares) (j : Nat) :
    (sharePoly shares j).eval (gfc p.1) = gfc (p.2.getD j 0) := by
  rw [sharePoly, ← shareVal_of_mem hnd hp j]
  exact Lagrange.eval_interpolate_at_node _
    (gfc_injOn _ (by intro k hk; rcases List.mem_map.mp hk with ⟨q, hq, rfl⟩; exact hklt q hq))
    (List.mem_toFinset.mpr (List.mem_map.mpr ⟨p, hp, rfl⟩))

theorem foldl_congr_mem {α β : Type} (l : List α) (f g : β → α → β) (init : β)
    (h : ∀ b : β, ∀ a ∈ l, f b a = g b a) : l.foldl f init = l.foldl g init := by
  induction l generalizing init with
  | nil => rfl
  | cons a l ih =>
    rw [List.foldl_cons, List.foldl_cons, h init a (by simp)]
    exact ih _ (fun b a' ha' => h b a' (by simp [ha']))

/-- `interpolate` evaluates, byte by byte, the Lagrange interpolation
polynomial of its share set at the point `x` (for `x` outside the share
x-coordinates). -/
theorem interpolate_eq (shares : List (Nat × List Nat)) (x L : Nat)
    (hnd : (shares.map Prod.fst).Nodup)
    (hklt : ∀ p ∈ shares, p.1 < 256)
    (hxlt : x < 256) (hx : x ∉ shares.map Prod.fst)
    (hlen : ∀ p ∈ shares, p.2.length = L)
    (hbytes : ∀ p ∈ shares, ∀ b ∈ p.2, b < 256)
    (hne : shares ≠ []) :
    interpolate shares x = .ok ((List.range L).map (fun j =>
      ((sharePoly shares j).eval (gfc x)).val)) := by
  classical
  have hdedup : (shares.map (fun p => p.2.length)).dedup = [L] :=
    dedup_const (by simpa using hne)
      (by intro a ha; rcases List.mem_map.mp ha with ⟨p, hp, rfl⟩; exact hlen p hp)
  rw [interpolate]
  dsimp only
  rw [hdedup]
  rw [if_neg (by simp), if_neg (by intro hco; exact hx (by simpa using hco.1))]
  simp only [List.headD_cons]
  congr 1
  have hlen' : ∀ p ∈ shares, p.2.length = (List.replicate L 0).length := by
    intro p hp
    rw [List.length_replicate]
    exact hlen p hp
  apply List.ext_getElem
  · rw [foldl_zipWith_length shares _ _ hlen', List.length_replicate,
      List.length_map, List.length_range]
  · intro j h1 h2
    have hjL : j < L := by
      rwa [List.length_map, List.length_range] at h2
    have hjL' : j < (List.replicate L (0 : Nat)).length := by
      rwa [List.length_replicate]
    rw [← List.getD_eq_getElem _ 0 h1, foldl_zipWith_getD shares _ _ hlen' j hjL',
      List.getElem_map, List.getElem_range]
    rw [List.getD_eq_getElem _ _ hjL', List.getElem_replicate]
    refine Eq.trans (foldl_congr_mem shares _
      (fun a p => a ^^^ ((shareVal shares j p.1 *
        Polynomial.eval (gfc x)
          (Lagrange.basis (shares.map Prod.fst).toFinset gfc p.1)).val)) 0 ?_) ?_
    · intro a p hp
      congr 1
      have hp1 : p.1 ∈ shares.map Prod.fst := List.mem_map.mpr ⟨p, hp, rfl⟩
      have hp1lt : p.1 < 256 := hklt p hp
      have hkeyslt : ∀ k ∈ shares.map Prod.fst, k < 256 := by
        intro k hk
        rcases List.mem_map.mp hk with ⟨q, hq, rfl⟩
        exact hklt q hq
      have hA : shares.foldl (fun acc q => acc + LOGT (q.1 ^^^ x)) 0 =
          ((shares.map Prod.fst).map (fun k => LOGT (k ^^^ x))).sum := by
        rw [foldl_add_eq_sum, Nat.zero_add, List.map_map]
        rfl
      have hB : shares.foldl (fun a q => a + LOGT (p.1 ^^^ q.1)) 0 =
          ((shares.map Prod.fst).map (fun k => LOGT (p.1 ^^^ k))).sum := by
        rw [foldl_add_eq_sum, Nat.zero_add, List.map_map]
        rfl
      rw [hA, hB, tmod_fix]
      by_cases hi : p.2.getD j 0 = 0
      · rw [if_neg (fun hc => hc hi)]
        have hgfc0 : gfc 0 = 0 := GF.ext (by rw [gfc_val (by omega), GF.zero_val])
        have hsv : shareVal shares j p.1 = gfc (p.2.getD j 0) :=
          shareVal_of_mem hnd hp j
        rw [hsv, hi, hgfc0, zero_mul, GF.zero_val]
      · rw [if_pos hi]
        have hjp : j < p.2.length := by rw [hlen p hp]; exact hjL
        have hitem : p.2.getD j 0 < 256 := by
          rw [List.getD_eq_getElem _ _ hjp]
          exact hbytes p hp _ (List.getElem_mem hjp)
        rw [shareVal_of_mem hnd hp j,
          ← gfExp_logBasisEval (shares.map Prod.fst) x p.1 hnd hp1 hkeyslt hxlt hx]
        rw [GF.mul_val_of_ne (by rw [gfc_val hitem]; exact hi)
          (expt_ne_zero _ (ZMod.val_lt _))]
        rw [gfc_val hitem, gfExp_val, logt_expt _ (ZMod.val_lt _)]
        congr 2
        set z : Int := (((shares.map Prod.fst).map (fun k => LOGT (k ^^^ x))).sum : Int)
          - (LOGT (p.1 ^^^ x) : Int)
          - (((shares.map Prod.fst).map (fun k => LOGT (p.1 ^^^ k))).sum : Int) with hzdef
        have hlbe_lt : (z.emod 255).toNat < 255 := by
          have h1 := Int.emod_lt_of_pos z (show (0:Int) < 255 by norm_num)
          have h0 := Int.emod_nonneg z (show (255:Int) ≠ 0 by norm_num)
          have hh : z.emod 255 = z % 255 := rfl
          omega
        have hcast : (((z.emod 255).toNat : Nat) : ZMod 255) =
            ((((shares.map Prod.fst).map (fun k => LOGT (k ^^^ x))).sum : ZMod 255)
              - (LOGT (p.1 ^^^ x) : ZMod 255)
              - (((shares.map Prod.fst).map (fun k => LOGT (p.1 ^^^ k))).sum : ZMod 255)) := by
          rw [intCast_fix, hzdef, Int.cast_sub, Int.cast_sub, Int.cast_natCast,
            Int.cast_natCast, Int.cast_natCast]
        rw [← hcast, ZMod.val_natCast, Nat.mod_eq_of_lt hlbe_lt]
    · refine Eq.trans (foldl_xor_gf shares (fun p => shareVal shares j p.1 *
        Polynomial.eval (gfc x)
          (Lagrange.basis (shares.map Prod.fst).toFinset gfc p.1)) 0) ?_
      congr 1
      rw [zero_add]
      rw [sharePoly, Lagrange.interpolate_apply, Polynomial.eval_finset_sum]
      have hev : ∀ i ∈ (shares.map Prod.fst).toFinset,
          Polynomial.eval (gfc x) (Polynomial.C (shareVal shares j i) *
            Lagrange.basis (shares.map Prod.fst).toFinset gfc i) =
          shareVal shares j i * Polynomial.eval (gfc x)
            (Lagrange.basis (shares.map Prod.fst).toFinset gfc i) := by
        intro i hi
        rw [Polynomial.eval_mul, Polynomial.eval_C]
      rw [Finset.sum_congr rfl hev]
      have hms : shares.map (fun p => shareVal shares j p.1 *
          Polynomial.eval (gfc x)
            (Lagrange.basis (shares.map Prod.fst).toFinset gfc p.1)) =
          (shares.map Prod.fst).map (fun i => shareVal shares j i *
            Polynomial.eval (gfc x)
              (Lagrange.basis (shares.map Prod.fst).toFinset gfc i)) := by
        rw [List.map_map]
        rfl
      rw [hms, ← List.sum_toFinset _ hnd]

theorem mapM_ok_of_forall {α β : Type} (l : List α) (f : α → Except String β)
    (g : α → β) (h : ∀ a ∈ l, f a = .ok (g a)) : l.mapM f = .ok (l.map g) := by
  induction l with
  | nil => rfl
  | cons a l ih =>
    rw [List.mapM_cons, h a (by simp), ih (fun a' ha' => h a' (by simp [ha']))]
    rfl

theorem map_range_getD (l : List Nat) :
    (List.range l.length).map (fun j => l.getD j 0) = l := by
  apply List.ext_getElem
  · simp
  · intro j h1 h2
    rw [List.getElem_map, List.getElem_range, List.getD_eq_getElem _ _ h2]

/-- Re-interpolation: `interpolate` on any set of points that lie on the
interpolation polynomials of a base share set, with as many points as the base
set, evaluates those same polynomials. -/
theorem interpolate_points (base pts : List (Nat × List Nat)) (x L : Nat)
    (hndb : (base.map Prod.fst).Nodup)
    (hkltb : ∀ p ∈ base, p.1 < 256)
    (hnd : (pts.map Prod.fst).Nodup)
    (hklt : ∀ p ∈ pts, p.1 < 256)
    (hxlt : x < 256) (hx : x ∉ pts.map Prod.fst)
    (hlen : ∀ p ∈ pts, p.2.length = L)
    (hcard : pts.length = base.length)
    (hon : ∀ p ∈ pts, ∀ j, j < L →
      p.2.getD j 0 = ((sharePoly base j).eval (gfc p.1)).val)
    (hne : pts ≠ []) :
    interpolate pts x = .ok ((List.range L).map (fun j =>
      ((sharePoly base j).eval (gfc x)).val)) := by
  classical
  have hbytes : ∀ p ∈ pts, ∀ b ∈ p.2, b < 256 := by
    intro p hp b hb
    rcases List.getElem_of_mem hb with ⟨i, hi, rfl⟩
    have : p.2[i] = p.2.getD i 0 := (List.getD_eq_getElem _ _ hi).symm
    rw [this, hon p hp i (by rw [← hlen p hp]; exact hi)]
    exact (Polynomial.eval (gfc p.1) (sharePoly base i)).isLt
  rw [interpolate_eq pts x L hnd hklt hxlt hx hlen hbytes hne]
  congr 1
  apply List.map_congr_left
  intro j hj
  have hjL : j < L := List.mem_range.mp hj
  congr 2
  -- the interpolation polynomial of the points is the base polynomial
  have hinj : Set.InjOn gfc ((pts.map Prod.fst).toFinset) :=
    gfc_injOn _ (by
      intro k hk
      rcases List.mem_map.mp hk with ⟨q, hq, rfl⟩
      exact hklt q hq)
  have hcards : ((pts.map Prod.fst).toFinset).card = ((base.map Prod.fst).toFinset).card := by
    rw [List.toFinset_card_of_nodup hnd, List.toFinset_card_of_nodup hndb,
      List.length_map, List.length_map, hcard]
  refine (Lagrange.eq_interpolate_of_eval_eq _ hinj ?_ ?_).symm
  · rw [hcards]
    exact Lagrange.degree_interpolate_lt _
      (gfc_injOn _ (by
        intro k hk
        rcases List.mem_map.mp hk with ⟨q, hq, rfl⟩
        exact hkltb q hq))
  · intro i hi
    rcases List.mem_map.mp (List.mem_toFinset.mp hi) with ⟨p, hp, rfl⟩
    rw [shareVal_of_mem hnd hp j]
    refine GF.ext ?_
    rw [gfc_val (by
      rw [hon p hp j hjL]
      exact (Polynomial.eval (gfc p.1) (sharePoly base j)).isLt)]
    exact (hon p hp j hjL).symm

/-! ### RNG stream byte facts. -/

theorem randomBytes_length (rng : Nat → Nat) (pos n : Nat) :
    (randomBytes rng pos n).1.length = n := by
  simp [randomBytes]

theorem randomBytes_lt (rng : Nat → Nat) (pos n : Nat)
    (hrng : ∀ i, rng i < 256) : ∀ b ∈ (randomBytes rng pos n).1, b < 256 := by
  intro b hb
  rcases List.mem_map.mp hb with ⟨i, _, rfl⟩
  exact hrng _

theorem randomBytesMany_length (rng : Nat → Nat) :
    ∀ (count pos n : Nat), (randomBytesMany rng pos count n).1.length = count
  | 0, _, _ => rfl
  | count + 1, pos, n => by
    rw [randomBytesMany]
    simpa using randomBytesMany_length rng count _ n

theorem randomBytesMany_mem (rng : Nat → Nat) :
    ∀ (count pos n : Nat), ∀ l ∈ (randomBytesMany rng pos count n).1,
      l.length = n ∧ ((∀ i, rng i < 256) → ∀ b ∈ l, b < 256)
  | 0, _, _, _, hl => by cases hl
  | count + 1, pos, n, l, hl => by
    rw [randomBytesMany] at hl
    rcases List.mem_cons.mp hl with rfl | hl
    · exact ⟨randomBytes_length rng pos n, fun hr => randomBytes_lt rng pos n hr⟩
    · exact randomBytesMany_mem rng count _ n l hl

/-! ### `splitSecret` followed by `recoverSecret` on any threshold-sized
subset of the shares, in any order, returns the secret. -/

theorem splitSecret_recoverSecret
    (hmac : List Nat → List Nat → List Nat) (rng : Nat → Nat) (pos T N : Nat)
    (S : List Nat) (sel : List Nat)
    (hT : 1 ≤ T) (hTN : T ≤ N) (hN : N ≤ MAX_SHARE_COUNT)
    (hSlen : 4 ≤ S.length) (hSb : ∀ b ∈ S, b < 256)
    (hrng : ∀ i, rng i < 256)
    (hhlen : ∀ a b, (hmac a b).length = 32)
    (hhb : ∀ a b, ∀ c ∈ hmac a b, c < 256)
    (hselnd : sel.Nodup) (hsellen : sel.length = T)
    (hsellt : ∀ i ∈ sel, i < N)
    {shares : List (List Nat)} {pos' : Nat}
    (hsplit : splitSecret hmac rng pos T N S = .ok (shares, pos')) :
    recoverSecret hmac T (sel.map (fun i => (i, shares.getD i []))) = .ok S := by
  have hN16 : N ≤ 16 := by simpa [MAX_SHARE_COUNT] using hN
  rw [splitSecret] at hsplit
  rw [if_neg (by omega), if_neg (by omega),
    if_neg (by simp only [MAX_SHARE_COUNT]; omega)] at hsplit
  by_cases hT1 : T = 1
  · rw [if_pos hT1] at hsplit
    have hsh : shares = List.replicate N S := by
      have := Except.ok.inj hsplit
      exact (congrArg Prod.fst this).symm
    rcases List.length_eq_one.mp (hsellen.trans hT1) with ⟨i, hi⟩
    have hiN : i < N := hsellt i (hi ▸ by simp)
    have hgd : shares.getD i [] = S := by
      rw [hsh, List.getD_eq_getElem _ _ (by simpa using hiN),
        List.getElem_replicate]
    rw [hi, recoverSecret, if_pos hT1]
    simp only [List.map_cons, List.map_nil, List.head?_cons]
    rw [hgd]
  · have hT2 : 2 ≤ T := by omega
    rw [if_neg hT1] at hsplit
    dsimp only at hsplit
    set rpp := randomBytes rng pos (S.length - DIGEST_LENGTH) with hrpp
    set dg := createDigest hmac rpp.1 S with hdg
    set fl := randomBytesMany rng rpp.2 (T - 2) S.length with hfl
    set base := (List.range (T - 2)).zip fl.1 ++
      [(DIGEST_INDEX, dg ++ rpp.1), (SECRET_INDEX, S)] with hbase
    have hfllen : fl.1.length = T - 2 := by
      rw [hfl]; exact randomBytesMany_length rng (T - 2) _ _
    have hflmem : ∀ l ∈ fl.1, l.length = S.length ∧ ∀ b ∈ l, b < 256 := by
      intro l hl
      have h := randomBytesMany_mem rng (T - 2) rpp.2 S.length l (by rw [hfl] at hl; exact hl)
      exact ⟨h.1, h.2 hrng⟩
    have hrpplen : rpp.1.length = S.length - DIGEST_LENGTH := by
      rw [hrpp]; exact randomBytes_length rng pos _
    have hrppb : ∀ b ∈ rpp.1, b < 256 := by
      rw [hrpp]; exact randomBytes_lt rng pos _ hrng
    have hdglen : dg.length = DIGEST_LENGTH := by
      rw [hdg, createDigest, List.length_take, hhlen]
      rfl
    have hdgb : ∀ b ∈ dg, b < 256 := by
      rw [hdg, createDigest]
      intro b hb
      exact hhb _ _ b (List.mem_of_mem_take hb)
    have hkeysbase : base.map Prod.fst =
        List.range (T - 2) ++ [DIGEST_INDEX, SECRET_INDEX] := by
      rw [hbase, List.map_append,
        List.map_fst_zip _ _ (by rw [hfllen, List.length_range])]
      rfl
    have hD : DIGEST_INDEX = 254 := rfl
    have hS255 : SECRET_INDEX = 255 := rfl
    have hndb : (base.map Prod.fst).Nodup := by
      rw [hkeysbase, List.nodup_append]
      refine ⟨List.nodup_range _, by rw [hD, hS255]; decide, ?_⟩
      intro a ha hb
      have h1 : a < T - 2 := List.mem_range.mp ha
      have : a = DIGEST_INDEX ∨ a = SECRET_INDEX := by
        rcases List.mem_cons.mp hb with h | h
        · exact Or.inl h
        · exact Or.inr (List.mem_singleton.mp h)
      rw [hD, hS255] at this
      omega
    have hbase_cases : ∀ p ∈ base, p ∈ (List.range (T - 2)).zip fl.1 ∨
        p = (DIGEST_INDEX, dg ++ rpp.1) ∨ p = (SECRET_INDEX, S) := by
      intro p hp
      rw [hbase] at hp
      rcases List.mem_append.mp hp with h | h
      · exact Or.inl h
      · rcases List.mem_cons.mp h with h | h
        · exact Or.inr (Or.inl h)
        · exact Or.inr (Or.inr (List.mem_singleton.mp h))
    have hkltb : ∀ p ∈ base, p.1 < 256 := by
      intro p hp
      rcases hbase_cases p hp with h | h | h
      · have := (List.of_mem_zip h).1
        have := List.mem_range.mp this
        omega
      · rw [h, hD]; omega
      · rw [h, hS255]; omega
    have hlenb : ∀ p ∈ base, p.2.length = S.length := by
      intro p hp
      rcases hbase_cases p hp with h | h | h
      · exact (hflmem _ (List.of_mem_zip h).2).1
      · rw [h]
        show (dg ++ rpp.1).length = S.length
        rw [List.length_append, hdglen, hrpplen]
        have : DIGEST_LENGTH = 4 := rfl
        omega
      · rw [h]
    have hbytesb : ∀ p ∈ base, ∀ b ∈ p.2, b < 256 := by
      intro p hp b hb
      rcases hbase_cases p hp with h | h | h
      · exact (hflmem _ (List.of_mem_zip h).2).2 b hb
      · rw [h] at hb
        rcases List.mem_append.mp hb with hb | hb
        · exact hdgb b hb
        · exact hrppb b hb
      · rw [h] at hb
        exact hSb b hb
    have hbaselen : base.length = T := by
      rw [hbase, List.length_append, List.length_zip, hfllen, List.length_range]
      simp
      omega
    have hbasene : base ≠ [] := by
      rw [hbase]
      simp
    have h_all : ∀ i ∈ List.range' (T - 2) (N - (T - 2)),
        interpolate base i = .ok ((List.range S.length).map (fun j =>
          ((sharePoly base j).eval (gfc i)).val)) := by
      intro i hi
      rcases List.mem_range'_1.mp hi with ⟨hi1, hi2⟩
      have hiN : i < N := by omega
      have hinotin : i ∉ base.map Prod.fst := by
        rw [hkeysbase]
        intro hc
        rcases List.mem_append.mp hc with hc | hc
        · have := List.mem_range.mp hc
          omega
        · have : i = DIGEST_INDEX ∨ i = SECRET_INDEX := by
            rcases List.mem_cons.mp hc with h | h
            · exact Or.inl h
            · exact Or.inr (List.mem_singleton.mp h)
          rw [hD, hS255] at this
          omega
      exact interpolate_eq base i S.length hndb hkltb (by omega) hinotin hlenb
        hbytesb hbasene
    have hmapM : (List.range' (T - 2) (N - (T - 2))).mapM
        (fun i => interpolate base i) =
        .ok ((List.range' (T - 2) (N - (T - 2))).map (fun i =>
          (List.range S.length).map (fun j =>
            ((sharePoly base j).eval (gfc i)).val))) :=
      mapM_ok_of_forall _ _ _ h_all
    rw [hmapM] at hsplit
    have hsh : shares = fl.1 ++ (List.range' (T - 2) (N - (T - 2))).map (fun i =>
        (List.range S.length).map (fun j =>
          ((sharePoly base j).eval (gfc i)).val)) :=
      (congrArg Prod.fst (Except.ok.inj hsplit)).symm
    have hnode : ∀ p ∈ base, (List.range S.length).map (fun j =>
        ((sharePoly base j).eval (gfc p.1)).val) = p.2 := by
      intro p hp
      apply List.ext_getElem
      · rw [List.length_map, List.length_range, hlenb p hp]
      · intro j h1 h2
        rw [List.getElem_map, List.getElem_range]
        have hjp : j < p.2.length := h2
        have hj : j < S.length := by rw [← hlenb p hp]; exact hjp
        rw [sharePoly_eval_at_node hndb hkltb hp _]
        rw [List.getD_eq_getElem _ _ hjp] at *
        exact gfc_val (hbytesb p hp _ (List.getElem_mem hjp))
    have hshare_eval : ∀ i, i < N → shares.getD i [] =
        (List.range S.length).map (fun j =>
          ((sharePoly base j).eval (gfc i)).val) := by
      intro i hiN
      rw [hsh]
      by_cases hi2 : i < T - 2
      · rw [List.getD_append fl.1 _ [] i (by rw [hfllen]; exact hi2)]
        have himem : (i, fl.1.getD i []) ∈ base := by
          rw [hbase]
          refine List.mem_append_left _ ?_
          have hzl : ((List.range (T - 2)).zip fl.1).length = T - 2 := by
            rw [List.length_zip, hfllen, List.length_range]
            simp
          have hzi : i < ((List.range (T - 2)).zip fl.1).length := by
            rw [hzl]
            exact hi2
          have hig : ((List.range (T - 2)).zip fl.1)[i] =
              (i, fl.1.getD i []) := by
            rw [List.getElem_zip, List.getElem_range,
              List.getD_eq_getElem _ _ (by rw [hfllen]; exact hi2)]
          exact hig ▸ List.getElem_mem hzi
        have := hnode _ himem
        rw [List.getD_eq_getElem _ _ (by rw [hfllen]; exact hi2)]
        rw [List.getD_eq_getElem _ _ (by rw [hfllen]; exact hi2)] at this
        exact this.symm
      · rw [List.getD_append_right fl.1 _ [] i (by rw [hfllen]; omega)]
        have hidx : i - fl.1.length < ((List.range' (T - 2) (N - (T - 2))).map
            (fun i => (List.range S.length).map (fun j =>
              ((sharePoly base j).eval (gfc i)).val))).length := by
          rw [List.length_map, List.length_range', hfllen]
          omega
        rw [List.getD_eq_getElem _ _ hidx, List.getElem_map, List.getElem_range']
        have : T - 2 + 1 * (i - fl.1.length) = i := by rw [hfllen]; omega
        rw [this]
    -- the points chosen by `sel`
    have hptskeys : ∀ selx : List Nat, (selx.map (fun i =>
        (i, shares.getD i []))).map Prod.fst = selx := by
      intro selx
      rw [List.map_map]
      have : (Prod.fst ∘ fun i : Nat => (i, shares.getD i [])) = fun i : Nat => i := rfl
      rw [this, List.map_id']
    have hptsfacts : ∀ x : Nat, x < 256 → x ∉ sel →
        interpolate (sel.map (fun i => (i, shares.getD i []))) x =
        .ok ((List.range S.length).map (fun j =>
          ((sharePoly base j).eval (gfc x)).val)) := by
      intro x hxlt hxsel
      refine interpolate_points base _ x S.length hndb hkltb ?_ ?_ hxlt ?_ ?_ ?_ ?_ ?_
      · rw [hptskeys]
        exact hselnd
      · intro p hp
        rcases List.mem_map.mp hp with ⟨i, hisel, rfl⟩
        have := hsellt i hisel
        omega
      · rw [hptskeys]
        exact hxsel
      · intro p hp
        rcases List.mem_map.mp hp with ⟨i, hisel, rfl⟩
        show (shares.getD i []).length = S.length
        rw [hshare_eval i (hsellt i hisel), List.length_map, List.length_range]
      · rw [List.length_map, hsellen, hbaselen]
      · intro p hp j hj
        rcases List.mem_map.mp hp with ⟨i, hisel, rfl⟩
        show (shares.getD i []).getD j 0 = _
        rw [hshare_eval i (hsellt i hisel),
          List.getD_eq_getElem _ _
            (by rw [List.length_map, List.length_range]; exact hj),
          List.getElem_map, List.getElem_range]
      · intro hc
        rw [List.map_eq_nil_iff] at hc
        rw [hc] at hsellen
        simp at hsellen
        omega
    have hsecmem : (SECRET_INDEX, S) ∈ base := by
      rw [hbase]
      simp
    have hdigmem : (DIGEST_INDEX, dg ++ rpp.1) ∈ base := by
      rw [hbase]
      simp
    have hsec : (List.range S.length).map (fun j =>
        ((sharePoly base j).eval (gfc SECRET_INDEX)).val) = S := hnode _ hsecmem
    have hdig : (List.range S.length).map (fun j =>
        ((sharePoly base j).eval (gfc DIGEST_INDEX)).val) = dg ++ rpp.1 :=
      hnode _ hdigmem
    rw [recoverSecret, if_neg hT1,
      hptsfacts SECRET_INDEX (by rw [hS255]; omega)
        (by intro hc; have := hsellt _ hc; rw [hS255] at this; omega),
      hptsfacts DIGEST_INDEX (by rw [hD]; omega)
        (by intro hc; have := hsellt _ hc; rw [hD] at this; omega),
      hsec, hdig]
    dsimp only
    rw [← hdglen, List.take_left, List.drop_left, ← hdg]
    rw [if_pos (by rw [listsAreEqual]; exact beq_self_eq_true _)]

/-! ### The Feistel cipher decrypts what it encrypted. -/

theorem zipWith_xor_cancel (a f : List Nat) (h : f.length = a.length) :
    List.zipWith (fun x y => x ^^^ y)
      (List.zipWith (fun x y => x ^^^ y) a f) f = a := by
  apply List.ext_getElem
  · simp [h]
  · intro i h1 h2
    rw [List.getElem_zipWith, List.getElem_zipWith]
    exact Nat.xor_cancel_right _ _

theorem roundFunction_length (pbkdf2 : List Nat → List Nat → Nat → Nat → List Nat)
    (r : Nat) (pass : List Nat) (e : Nat) (salt secret : List Nat)
    (hplen : ∀ p s it n, (pbkdf2 p s it n).length = n) :
    (roundFunction pbkdf2 r pass e salt secret).length = secret.length := by
  rw [roundFunction, hplen]

theorem cryptStep_ok (pbkdf2 : List Nat → List Nat → Nat → Nat → List Nat)
    (pass : List Nat) (e : Nat) (salt : List Nat) (a b : List Nat)
    (r : Nat) (hlen : a.length = b.length)
    (hplen : ∀ p s it n, (pbkdf2 p s it n).length = n) :
    cryptStep pbkdf2 pass e salt (a, b) r =
      .ok (b, List.zipWith (fun x y => x ^^^ y) a
        (roundFunction pbkdf2 r pass e salt b)) := by
  rw [cryptStep, xorLists,
    if_neg (by rw [roundFunction_length _ _ _ _ _ _ hplen]; show ¬ a.length ≠ b.length; omega)]

theorem foldlM_except_cons {α β : Type} (f : β → α → Except String β) (a : α)
    (l : List α) (b b' : β) (h : f b a = .ok b') :
    List.foldlM f b (a :: l) = List.foldlM f b' l := by
  rw [List.foldlM_cons, h]
  rfl

theorem crypt_roundtrip (pbkdf2 : List Nat → List Nat → Nat → Nat → List Nat)
    (ms pass : List Nat) (e : Nat) (idf : List Nat) (flag : Nat)
    (hplen : ∀ p s it n, (pbkdf2 p s it n).length = n)
    (hms_even : ms.length % 2 = 0)
    (he : ¬ e > MAX_ITERATION_EXP)
    {ems : List Nat}
    (henc : crypt pbkdf2 ms pass e idf flag true = .ok ems) :
    crypt pbkdf2 ems pass e idf flag false = .ok ms := by
  rw [crypt, if_neg he] at henc
  set m := ms.length / 2 with hm
  set il := ms.take m with hil
  set ir := ms.drop m with hir
  set salt := getSalt idf flag with hsalt
  have hlil : il.length = m := by
    rw [hil, List.length_take]
    omega
  have hlir : ir.length = m := by
    rw [hir, List.length_drop]
    omega
  have hrange : List.range ROUND_COUNT = [0, 1, 2, 3] := rfl
  rw [hrange] at henc
  simp only [eq_self_iff_true, if_true] at henc
  set x1 := List.zipWith (fun x y => x ^^^ y) il
    (roundFunction pbkdf2 0 pass e salt ir) with hx1
  set x2 := List.zipWith (fun x y => x ^^^ y) ir
    (roundFunction pbkdf2 1 pass e salt x1) with hx2
  set x3 := List.zipWith (fun x y => x ^^^ y) x1
    (roundFunction pbkdf2 2 pass e salt x2) with hx3
  set x4 := List.zipWith (fun x y => x ^^^ y) x2
    (roundFunction pbkdf2 3 pass e salt x3) with hx4
  have hlx1 : x1.length = m := by
    rw [hx1, List.length_zipWith, roundFunction_length _ _ _ _ _ _ hplen,
      hlil, hlir]
    omega
  have hlx2 : x2.length = m := by
    rw [hx2, List.length_zipWith, roundFunction_length _ _ _ _ _ _ hplen,
      hlir, hlx1]
    omega
  have hlx3 : x3.length = m := by
    rw [hx3, List.length_zipWith, roundFunction_length _ _ _ _ _ _ hplen,
      hlx1, hlx2]
    omega
  have hlx4 : x4.length = m := by
    rw [hx4, List.length_zipWith, roundFunction_length _ _ _ _ _ _ hplen,
      hlx2, hlx3]
    omega
  rw [foldlM_except_cons _ _ _ _ _
      (cryptStep_ok _ _ _ _ il ir 0 (by rw [hlil, hlir]) hplen),
    foldlM_except_cons _ _ _ _ _
      (cryptStep_ok _ _ _ _ ir x1 1 (by rw [hlir, hlx1]) hplen),
    foldlM_except_cons _ _ _ _ _
      (cryptStep_ok _ _ _ _ x1 x2 2 (by rw [hlx1, hlx2]) hplen),
    foldlM_except_cons _ _ _ _ _
      (cryptStep_ok _ _ _ _ x2 x3 3 (by rw [hlx2, hlx3]) hplen)] at henc
  have hems : ems = x4 ++ x3 := by
    have : Except.map (fun st : List Nat × List Nat => st.2 ++ st.1)
        (List.foldlM (cryptStep pbkdf2 pass e salt) (x3, x4) []) =
        .ok (x4 ++ x3) := rfl
    rw [this] at henc
    exact (Except.ok.inj henc).symm
  subst hems
  -- the decryption run
  rw [crypt, if_neg he]
  dsimp only
  rw [hrange, if_neg Bool.false_ne_true]
  have hlen2 : (x4 ++ x3).length = m + m := by
    rw [List.length_append, hlx4, hlx3]
  have hdiv : (x4 ++ x3).length / 2 = m := by
    rw [hlen2]
    omega
  rw [hdiv]
  have htake : (x4 ++ x3).take m = x4 := by
    rw [← hlx4]
    exact List.take_left _ _
  have hdrop : (x4 ++ x3).drop m = x3 := by
    rw [← hlx4]
    exact List.drop_left _ _
  rw [htake, hdrop]
  have hrev : ([0, 1, 2, 3] : List Nat).reverse = [3, 2, 1, 0] := rfl
  rw [hrev]
  have hd3 : cryptStep pbkdf2 pass e salt (x4, x3) 3 = .ok (x3, x2) := by
    rw [cryptStep_ok _ _ _ _ x4 x3 3 (by rw [hlx4, hlx3]) hplen]
    congr 2
    rw [hx4]
    exact zipWith_xor_cancel _ _
      (by rw [roundFunction_length _ _ _ _ _ _ hplen, hlx3, hlx2])
  have hd2 : cryptStep pbkdf2 pass e salt (x3, x2) 2 = .ok (x2, x1) := by
    rw [cryptStep_ok _ _ _ _ x3 x2 2 (by rw [hlx3, hlx2]) hplen]
    congr 2
    rw [hx3]
    exact zipWith_xor_cancel _ _
      (by rw [roundFunction_length _ _ _ _ _ _ hplen, hlx2, hlx1])
  have hd1 : cryptStep pbkdf2 pass e salt (x2, x1) 1 = .ok (x1, ir) := by
    rw [cryptStep_ok _ _ _ _ x2 x1 1 (by rw [hlx2, hlx1]) hplen]
    congr 2
    rw [hx2]
    exact zipWith_xor_cancel _ _
      (by rw [roundFunction_length _ _ _ _ _ _ hplen, hlx1, hlir])
  have hd0 : cryptStep pbkdf2 pass e salt (x1, ir) 0 = .ok (ir, il) := by
    rw [cryptStep_ok _ _ _ _ x1 ir 0 (by rw [hlx1, hlir]) hplen]
    congr 2
    rw [hx1]
    exact zipWith_xor_cancel _ _
      (by rw [roundFunction_length _ _ _ _ _ _ hplen, hlir, hlil])
  rw [foldlM_except_cons _ _ _ _ _ hd3, foldlM_except_cons _ _ _ _ _ hd2,
    foldlM_except_cons _ _ _ _ _ hd1, foldlM_except_cons _ _ _ _ _ hd0]
  have : Except.map (fun st : List Nat × List Nat => st.2 ++ st.1)
      (List.foldlM (cryptStep pbkdf2 pass e salt) (ir, il) []) =
      .ok (il ++ ir) := rfl
  rw [this, hil, hir, List.take_append_drop]

theorem crypt_fold_inv (pbkdf2 : List Nat → List Nat → Nat → Nat → List Nat)
    (pass : List Nat) (e : Nat) (salt : List Nat)
    (hplen : ∀ p s it n, (pbkdf2 p s it n).length = n)
    (hpb : ∀ p s it n, ∀ b ∈ pbkdf2 p s it n, b < 256) :
    ∀ (rs : List Nat) (st : List Nat × List Nat) {st' : List Nat × List Nat},
    st.1.length = st.2.length →
    (∀ b ∈ st.1, b < 256) → (∀ b ∈ st.2, b < 256) →
    List.foldlM (cryptStep pbkdf2 pass e salt) st rs = .ok st' →
    st'.1.length = st.1.length ∧ st'.2.length = st.1.length ∧
      (∀ b ∈ st'.1, b < 256) ∧ (∀ b ∈ st'.2, b < 256)
  | [], st, st', hlen, h1, h2, hf => by
    have : st = st' := Except.ok.inj hf
    subst this
    exact ⟨rfl, hlen.symm, h1, h2⟩
  | r :: rs, st, st', hlen, h1, h2, hf => by
    rw [foldlM_except_cons _ _ _ _ _
      (cryptStep_ok _ _ _ _ st.1 st.2 r hlen hplen)] at hf
    have hzlen : (List.zipWith (fun x y => x ^^^ y) st.1
        (roundFunction pbkdf2 r pass e salt st.2)).length = st.1.length := by
      rw [List.length_zipWith, roundFunction_length _ _ _ _ _ _ hplen, hlen]
      omega
    have hzb : ∀ b ∈ List.zipWith (fun x y => x ^^^ y) st.1
        (roundFunction pbkdf2 r pass e salt st.2), b < 256 := by
      intro b hb
      rcases List.getElem_of_mem hb with ⟨i, hi, rfl⟩
      rw [List.getElem_zipWith]
      refine Nat.xor_lt_two_pow (n := 8) (h1 _ (List.getElem_mem _)) ?_
      rw [roundFunction] at *
      exact hpb _ _ _ _ _ (List.getElem_mem _)
    have ih := crypt_fold_inv pbkdf2 pass e salt hplen hpb rs
      (st.2, List.zipWith (fun x y => x ^^^ y) st.1
        (roundFunction pbkdf2 r pass e salt st.2))
      (by rw [hzlen]; exact hlen.symm) h2 hzb hf
    refine ⟨?_, ?_, ih.2.2.1, ih.2.2.2⟩
    · rw [ih.1]; exact hlen.symm
    · rw [ih.2.1]; exact hlen.symm

theorem crypt_ok_props (pbkdf2 : List Nat → List Nat → Nat → Nat → List Nat)
    (ms pass : List Nat) (e : Nat) (idf : List Nat) (flag : Nat) (enc : Bool)
    (hplen : ∀ p s it n, (pbkdf2 p s it n).length = n)
    (hpb : ∀ p s it n, ∀ b ∈ pbkdf2 p s it n, b < 256)
    (hmsb : ∀ b ∈ ms, b < 256) (heven : ms.length % 2 = 0)
    {out : List Nat}
    (h : crypt pbkdf2 ms pass e idf flag enc = .ok out) :
    out.length = ms.length ∧ ∀ b ∈ out, b < 256 := by
  rw [crypt] at h
  split at h
  · exact Except.noConfusion h
  · dsimp only at h
    set rs := if enc then List.range ROUND_COUNT
      else (List.range ROUND_COUNT).reverse with hrs
    cases hf : List.foldlM (cryptStep pbkdf2 pass e (getSalt idf flag))
        (ms.take (ms.length / 2), ms.drop (ms.length / 2)) rs with
    | error e' =>
      rw [hf] at h
      exact Except.noConfusion h
    | ok st' =>
      rw [hf] at h
      have hout : out = st'.2 ++ st'.1 := (Except.ok.inj h).symm
      have hlt : (ms.take (ms.length / 2)).length = (ms.drop (ms.length / 2)).length := by
        rw [List.length_take, List.length_drop]
        omega
      have hinv := crypt_fold_inv pbkdf2 pass e (getSalt idf flag) hplen hpb rs
        (ms.take (ms.length / 2), ms.drop (ms.length / 2)) hlt
        (fun b hb => hmsb b (List.mem_of_mem_take hb))
        (fun b hb => hmsb b (List.mem_of_mem_drop hb)) hf
      constructor
      · rw [hout, List.length_append, hinv.1, hinv.2.1]
        show (List.take (ms.length / 2) ms).length +
          (List.take (ms.length / 2) ms).length = ms.length
        rw [List.length_take]
        omega
      · intro b hb
        rw [hout] at hb
        rcases List.mem_append.mp hb with hb | hb
        · exact hinv.2.2.2 b hb
        · exact hinv.2.2.1 b hb

theorem mapM_ok_props {α β : Type} :
    ∀ (l : List α) (f : α → Except String β) (out : List β),
    l.mapM f = .ok out →
    out.length = l.length ∧ ∀ y ∈ out, ∃ a ∈ l, f a = .ok y
  | [], _, out, h => by
    have : ([] : List β) = out := Except.ok.inj h
    subst this
    exact ⟨rfl, by intro y hy; cases hy⟩
  | a :: l, f, out, h => by
    rw [List.mapM_cons] at h
    cases hfa : f a with
    | error e => rw [hfa] at h; exact Except.noConfusion h
    | ok b =>
      rw [hfa] at h
      cases hml : l.mapM f with
      | error e =>
        rw [hml] at h
        exact Except.noConfusion h
      | ok bs =>
        rw [hml] at h
        have hout : b :: bs = out := Except.ok.inj h
        subst hout
        have ih := mapM_ok_props l f bs hml
        refine ⟨by rw [List.length_cons, ih.1, List.length_cons], ?_⟩
        intro y hy
        rcases List.mem_cons.mp hy with rfl | hy
        · exact ⟨a, by simp, hfa⟩
        · rcases ih.2 y hy with ⟨a', ha', hfa'⟩
          exact ⟨a', by simp [ha'], hfa'⟩

theorem foldl_xor_bound (l : List (Nat × List Nat)) (g : (Nat × List Nat) → Nat) :
    ∀ init : Nat, init < 256 → (∀ p ∈ l, g p < 256) →
    l.foldl (fun a p => a ^^^ g p) init < 256 := by
  induction l with
  | nil => intro init h _; exact h
  | cons p l ih =>
    intro init h hg
    rw [List.foldl_cons]
    exact ih _ (Nat.xor_lt_two_pow (n := 8) h (hg p (by simp)))
      (fun q hq => hg q (by simp [hq]))

theorem interpolate_ok_props (shares : List (Nat × List Nat)) (x L : Nat)
    (hlen : ∀ p ∈ shares, p.2.length = L) (hne : shares ≠ [])
    {out : List Nat} (h : interpolate shares x = .ok out) :
    out.length = L ∧ ∀ b ∈ out, b < 256 := by
  have hdedup : (shares.map (fun p => p.2.length)).dedup = [L] :=
    dedup_const (by simpa using hne)
      (by intro a ha; rcases List.mem_map.mp ha with ⟨p, hp, rfl⟩; exact hlen p hp)
  rw [interpolate] at h
  dsimp only at h
  rw [hdedup] at h
  split at h
  · exact Except.noConfusion h
  · split at h
    · exact Except.noConfusion h
    · have hout := Except.ok.inj h
      simp only [List.headD_cons] at hout
      have hlen' : ∀ p ∈ shares, p.2.length = (List.replicate L (0 : Nat)).length := by
        intro p hp
        rw [List.length_replicate]
        exact hlen p hp
      constructor
      · rw [← hout, foldl_zipWith_length shares _ _ hlen', List.length_replicate]
      · intro b hb
        rw [← hout] at hb
        rcases List.getElem_of_mem hb with ⟨i, hi, rfl⟩
        have hiL : i < L := by
          rw [foldl_zipWith_length shares _ _ hlen', List.length_replicate] at hi
          exact hi
        rw [← List.getD_eq_getElem _ 0 hi,
          foldl_zipWith_getD shares _ _ hlen' i (by rw [List.length_replicate]; exact hiL)]
        refine foldl_xor_bound shares _ _ ?_ ?_
        · rw [List.getD_eq_getElem _ _ (by rw [List.length_replicate]; exact hiL),
            List.getElem_replicate]
          omega
        · intro p hp
          split
          · exact expt_lt _ (Nat.mod_lt _ (by omega))
          · omega

theorem splitSecret_shares_props
    (hmac : List Nat → List Nat → List Nat) (rng : Nat → Nat) (pos T N : Nat)
    (S : List Nat)
    (hSlen : 4 ≤ S.length) (hSb : ∀ b ∈ S, b < 256)
    (hrng : ∀ i, rng i < 256)
    (hhlen : ∀ a b, (hmac a b).length = 32)
    (hhb : ∀ a b, ∀ c ∈ hmac a b, c < 256)
    {shares : List (List Nat)} {pos' : Nat}
    (hsplit : splitSecret hmac rng pos T N S = .ok (shares, pos')) :
    shares.length = N ∧ ∀ l ∈ shares, l.length = S.length ∧ ∀ b ∈ l, b < 256 := by
  rw [splitSecret] at hsplit
  split at hsplit
  · exact Except.noConfusion hsplit
  · split at hsplit
    · exact Except.noConfusion hsplit
    · split at hsplit
      · exact Except.noConfusion hsplit
      · rename_i hTz hTN' hN'
        have hTN : T ≤ N := by omega
        split at hsplit
        · rename_i hT1
          have hsh : shares = List.replicate N S :=
            (congrArg Prod.fst (Except.ok.inj hsplit)).symm
          refine ⟨by rw [hsh, List.length_replicate], ?_⟩
          intro l hl
          rw [hsh] at hl
          rw [List.eq_of_mem_replicate hl]
          exact ⟨rfl, hSb⟩
        · rename_i hT1
          dsimp only at hsplit
          set rpp := randomBytes rng pos (S.length - DIGEST_LENGTH) with hrpp
          set dg := createDigest hmac rpp.1 S with hdg
          set fl := randomBytesMany rng rpp.2 (T - 2) S.length with hfl
          set base := (List.range (T - 2)).zip fl.1 ++
            [(DIGEST_INDEX, dg ++ rpp.1), (SECRET_INDEX, S)] with hbase
          have hfllen : fl.1.length = T - 2 := by
            rw [hfl]; exact randomBytesMany_length rng (T - 2) _ _
          have hflmem : ∀ l ∈ fl.1, l.length = S.length ∧ ∀ b ∈ l, b < 256 := by
            intro l hl
            have h := randomBytesMany_mem rng (T - 2) rpp.2 S.length l
              (by rw [hfl] at hl; exact hl)
            exact ⟨h.1, h.2 hrng⟩
          have hlenb : ∀ p ∈ base, p.2.length = S.length := by
            intro p hp
            rw [hbase] at hp
            rcases List.mem_append.mp hp with h | h
            · exact (hflmem _ (List.of_mem_zip h).2).1
            · rcases List.mem_cons.mp h with h | h
              · rw [h]
                show (dg ++ rpp.1).length = S.length
                rw [List.length_append, hdg, createDigest, List.length_take,
                  hhlen, hrpp]
                rw [randomBytes_length]
                show min DIGEST_LENGTH 32 + (S.length - DIGEST_LENGTH) = S.length
                have : DIGEST_LENGTH = 4 := rfl
                omega
              · rw [List.mem_singleton.mp h]
          have hbasene : base ≠ [] := by
            rw [hbase]
            simp
          cases hmm : (List.range' (T - 2) (N - (T - 2))).mapM
              (fun i => interpolate base i) with
          | error e =>
            rw [hmm] at hsplit
            exact Except.noConfusion hsplit
          | ok derived =>
            rw [hmm] at hsplit
            have hsh : shares = fl.1 ++ derived :=
              (congrArg Prod.fst (Except.ok.inj hsplit)).symm
            have hmp := mapM_ok_props _ _ _ hmm
            refine ⟨?_, ?_⟩
            · rw [hsh, List.length_append, hfllen, hmp.1, List.length_range']
              omega
            · intro l hl
              rw [hsh] at hl
              rcases List.mem_append.mp hl with hl | hl
              · exact hflmem l hl
              · rcases hmp.2 l hl with ⟨i, _, hint⟩
                have := interpolate_ok_props base i S.length hlenb hbasene hint
                exact this

/-! ### The leaf mnemonics of built share trees. -/

theorem foldl_append_eq_flatten {α β : Type} (f : α → List β) :
    ∀ (l : List α) (init : List β),
    l.foldl (fun acc a => acc ++ f a) init = init ++ (l.map f).flatten
  | [], init => by simp
  | a :: l, init => by
    rw [List.foldl_cons, foldl_append_eq_flatten f l (init ++ f a)]
    simp

theorem foldl_attach_append {α β : Type} (l : List α) (f : α → List β)
    (init : List β) :
    l.attach.foldl (fun acc d => acc ++ f d.1) init =
      l.foldl (fun acc a => acc ++ f a) init := by
  conv_rhs => rw [← List.attach_map_subtype_val l]
  rw [List.foldl_map]

theorem mnemonics_node_cons (i : Nat) (m : List Nat) (c : Slip39Node)
    (cs : List Slip39Node) :
    (Slip39Node.node i m (c :: cs)).mnemonics =
      ((c :: cs).map Slip39Node.mnemonics).flatten := by
  rw [Slip39Node.mnemonics]
  rw [foldl_attach_append, foldl_append_eq_flatten]
  rfl

theorem mnemonics_leaf (i : Nat) (m : List Nat) :
    (Slip39Node.node i m []).mnemonics = [m] := by
  rw [Slip39Node.mnemonics]

/-! ### Exact shapes of the built tree for member groups. -/

theorem splitSecret_one (hmac : List Nat → List Nat → List Nat)
    (rng : Nat → Nat) (pos : Nat) (secret : List Nat) :
    splitSecret hmac rng pos 1 1 secret = .ok ([secret], pos) := by
  rw [splitSecret]
  rfl

/-- `buildChildren` over `n` leaf descriptors `(m, 0)` produces `n` leaves
encoding member shares `idx, idx+1, …` with member threshold `m`. -/
theorem buildChildren_leaves (hmac : List Nat → List Nat → List Nat)
    (rng : Nat → Nat) (cfg : Slip39Config) (m k : Nat) :
    ∀ (n idx pos : Nat) (mShares : List (List Nat)),
    buildChildren hmac rng cfg pos k (List.replicate n (m, 0)) mShares idx =
      .ok ((List.range' idx n).map (fun j => .node j
        (encodeMnemonic cfg.identifier cfg.extendableBackupFlag
          cfg.iterationExponent k cfg.groupThreshold cfg.groupCount j m
          (mShares.getD j [])) []), pos)
  | 0, idx, pos, mShares => by
    rw [List.replicate_zero, buildChildren]
    rfl
  | n + 1, idx, pos, mShares => by
    rw [List.replicate_succ, buildChildren]
    have hleaf : buildRecursive hmac rng cfg pos idx
        (List.replicate (m, 0).2 ((m, 0).1, 0)) (mShares.getD idx []) (m, 0).1 k =
        .ok (.node idx (encodeMnemonic cfg.identifier cfg.extendableBackupFlag
          cfg.iterationExponent k cfg.groupThreshold cfg.groupCount idx m
          (mShares.getD idx [])) [], pos) := by
      show buildRecursive hmac rng cfg pos idx [] _ m k = _
      rw [buildRecursive]
    rw [hleaf]
    dsimp only
    rw [buildChildren_leaves hmac rng cfg m k n (idx + 1) pos mShares]
    rfl

/-- Building one member group `(m, n)` with `n ≥ 1` members: the node holds
`n` leaves, one per member share. -/
theorem buildRecursive_group (hmac : List Nat → List Nat → List Nat)
    (rng : Nat → Nat) (cfg : Slip39Config) (pos k m n : Nat)
    (secret : List Nat) (parentCur : Nat) (hn : 1 ≤ n)
    {mShares : List (List Nat)} {pos1 : Nat}
    (hsplit : splitSecret hmac rng pos m n secret = .ok (mShares, pos1)) :
    buildRecursive hmac rng cfg pos k (List.replicate n (m, 0)) secret m
      parentCur =
      .ok (.node k [] ((List.range' 0 n).map (fun j => .node j
        (encodeMnemonic cfg.identifier cfg.extendableBackupFlag
          cfg.iterationExponent k cfg.groupThreshold cfg.groupCount j m
          (mShares.getD j [])) [])), pos1) := by
  obtain ⟨n', rfl⟩ : ∃ n', n = n' + 1 := ⟨n - 1, by omega⟩
  rw [List.replicate_succ, buildRecursive]
  have hlen : ((1, 0) :: List.replicate n' ((1 : Nat), (0 : Nat))).length = n' + 1 := by
    simp
  simp only [List.length_cons, List.length_replicate]
  rw [hsplit]
  dsimp only
  rw [← List.replicate_succ, buildChildren_leaves hmac rng cfg m k (n' + 1) 0 pos1 mShares]

/-- Building the children of the root for an all-(1,1) policy: one group node
per group, each holding a single leaf that carries the group share itself. -/
theorem buildChildren_all11 (hmac : List Nat → List Nat → List Nat)
    (rng : Nat → Nat) (cfg : Slip39Config) :
    ∀ (G idx pos : Nat) (gShares : List (List Nat)),
    buildChildren hmac rng cfg pos 0 (List.replicate G (1, 1)) gShares idx =
      .ok ((List.range' idx G).map (fun i => .node i []
        [.node 0 (encodeMnemonic cfg.identifier cfg.extendableBackupFlag
          cfg.iterationExponent i cfg.groupThreshold cfg.groupCount 0 1
          (gShares.getD i [])) []]), pos)
  | 0, idx, pos, gShares => by
    rw [List.replicate_zero, buildChildren]
    rfl
  | G + 1, idx, pos, gShares => by
    rw [List.replicate_succ, buildChildren]
    have hbranch : buildRecursive hmac rng cfg pos idx
        (List.replicate ((1 : Nat), (1 : Nat)).2 (((1 : Nat), (1 : Nat)).1, 0))
        (gShares.getD idx []) ((1 : Nat), (1 : Nat)).1 0 =
        .ok (.node idx [] [.node 0 (encodeMnemonic cfg.identifier
          cfg.extendableBackupFlag cfg.iterationExponent idx cfg.groupThreshold
          cfg.groupCount 0 1 (gShares.getD idx [])) []], pos) := by
      have := buildRecursive_group hmac rng cfg pos idx 1 1
        (gShares.getD idx []) 0 (by omega)
        (splitSecret_one hmac rng pos (gShares.getD idx []))
      rw [this]
      rfl
    rw [hbranch]
    dsimp only
    rw [buildChildren_all11 hmac rng cfg G (idx + 1) pos gShares]
    rfl

/-! ### Running `decodeMnemonics` over mnemonics with fresh group indices. -/

/-- One `decodeMnemonics` step on a mnemonic whose group index is new to the
state appends a fresh singleton group. -/
theorem decodeMnemonicsStep_run {st : DecodeState} {m : List Nat}
    {d : DecodedMnemonic} (hd : decodeMnemonic m = .ok d)
    (hfresh : d.groupIndex ∉ st.groups.map Prod.fst) :
    decodeMnemonicsStep st m = .ok
      { identifiers := jsSetAdd st.identifiers d.identifier,
        extendableBackupFlags := jsSetAdd st.extendableBackupFlags d.extendableBackupFlag,
        iterationExponents := jsSetAdd st.iterationExponents d.iterationExponent,
        groupThresholds := jsSetAdd st.groupThresholds d.groupThreshold,
        groupCounts := jsSetAdd st.groupCounts d.groupCount,
        groups := st.groups ++
          [(d.groupIndex, [(d.memberThreshold, [(d.memberIndex, d.share)])])] } := by
  rw [decodeMnemonicsStep, hd]
  dsimp only
  rw [jsMapGet_eq_none hfresh, Option.getD_none,
    jsMapGet_eq_none (by simp), Option.getD_none]
  have hempty : ∀ (k : Nat) (v : List Nat),
      jsMapSet ([] : List (Nat × List Nat)) k v = [(k, v)] := fun _ _ => rfl
  have hempty2 : ∀ (k : Nat) (v : List (Nat × List Nat)),
      jsMapSet ([] : List (Nat × List (Nat × List Nat))) k v = [(k, v)] :=
    fun _ _ => rfl
  rw [hempty, hempty2, if_neg (by simp), jsMapSet_of_not_mem _ hfresh]

theorem decodeMnemonics_fold_run :
    ∀ (ms : List (List Nat)) (ds : List DecodedMnemonic) (st : DecodeState),
    List.Forall₂ (fun m d => decodeMnemonic m = .ok d) ms ds →
    (st.groups.map Prod.fst ++ ds.map (fun d => d.groupIndex)).Nodup →
    ms.foldlM decodeMnemonicsStep st = .ok
      { identifiers := ds.foldl (fun s d => jsSetAdd s d.identifier) st.identifiers,
        extendableBackupFlags := ds.foldl
          (fun s d => jsSetAdd s d.extendableBackupFlag) st.extendableBackupFlags,
        iterationExponents := ds.foldl
          (fun s d => jsSetAdd s d.iterationExponent) st.iterationExponents,
        groupThresholds := ds.foldl
          (fun s d => jsSetAdd s d.groupThreshold) st.groupThresholds,
        groupCounts := ds.foldl (fun s d => jsSetAdd s d.groupCount) st.groupCounts,
        groups := st.groups ++ ds.map (fun d =>
          (d.groupIndex, [(d.memberThreshold, [(d.memberIndex, d.share)])])) }
  | [], [], st, _, _ => by
    simp only [List.foldl_nil, List.map_nil, List.append_nil]
    cases st
    rfl
  | m :: ms, d :: ds, st, hmd, hnd => by
    have hd := List.forall₂_cons.mp hmd
    have hfresh : d.groupIndex ∉ st.groups.map Prod.fst := by
      intro hc
      rw [List.nodup_append] at hnd
      exact hnd.2.2 hc (by simp)
    rw [foldlM_except_cons _ _ _ _ _ (decodeMnemonicsStep_run hd.1 hfresh)]
    rw [decodeMnemonics_fold_run ms ds _ hd.2 (by
      simp only [List.map_append]
      rw [List.append_assoc]
      simpa using hnd)]
    simp only [List.foldl_cons, List.map_cons, List.append_assoc]
    rfl

theorem foldl_jsSetAdd_const {α : Type} (f : α → Nat) (c : Nat) :
    ∀ (l : List α), (∀ x ∈ l, f x = c) →
    l.foldl (fun s x => jsSetAdd s (f x)) [c] = [c]
  | [], _ => rfl
  | x :: l, h => by
    rw [List.foldl_cons]
    have h1 : jsSetAdd [c] (f x) = [c] := by
      rw [h x (by simp), jsSetAdd, if_pos (by simp)]
    rw [h1]
    exact foldl_jsSetAdd_const f c l (fun y hy => h y (by simp [hy]))

theorem foldl_jsSetAdd_const_nil {α : Type} (f : α → Nat) (c : Nat) :
    ∀ (l : List α), l ≠ [] → (∀ x ∈ l, f x = c) →
    l.foldl (fun s x => jsSetAdd s (f x)) [] = [c]
  | [], hne, _ => absurd rfl hne
  | x :: l, _, h => by
    rw [List.foldl_cons]
    have h1 : jsSetAdd [] (f x) = [c] := by
      rw [h x (by simp)]
      rfl
    rw [h1]
    exact foldl_jsSetAdd_const f c l (fun y hy => h y (by simp [hy]))

/-- Running `decodeMnemonics` over mnemonics that decode to records with
identical scalar fields and pairwise distinct group indices. -/
theorem decodeMnemonics_run (ms : List (List Nat)) (ds : List DecodedMnemonic)
    (idv flag e gt gc : Nat)
    (hmd : List.Forall₂ (fun m d => decodeMnemonic m = .ok d) ms ds)
    (hnd : (ds.map (fun d => d.groupIndex)).Nodup)
    (hne : ds ≠ [])
    (hconst : ∀ d ∈ ds, d.identifier = idv ∧ d.extendableBackupFlag = flag ∧
      d.iterationExponent = e ∧ d.groupThreshold = gt ∧ d.groupCount = gc) :
    decodeMnemonics ms = .ok
      { identifier := idv, extendableBackupFlag := flag, iterationExponent := e,
        groupThreshold := gt, groupCount := gc,
        groups := ds.map (fun d =>
          (d.groupIndex, [(d.memberThreshold, [(d.memberIndex, d.share)])])) } := by
  rw [decodeMnemonics,
    decodeMnemonics_fold_run ms ds ⟨[], [], [], [], [], []⟩ hmd (by simpa using hnd)]
  dsimp only
  rw [foldl_jsSetAdd_const_nil _ idv ds hne (fun d hd => (hconst d hd).1),
    foldl_jsSetAdd_const_nil _ flag ds hne (fun d hd => (hconst d hd).2.1),
    foldl_jsSetAdd_const_nil _ e ds hne (fun d hd => (hconst d hd).2.2.1),
    foldl_jsSetAdd_const_nil _ gt ds hne (fun d hd => (hconst d hd).2.2.2.1),
    foldl_jsSetAdd_const_nil _ gc ds hne (fun d hd => (hconst d hd).2.2.2.2)]
  rw [if_neg (by simp), if_neg (by simp), if_neg (by simp)]
  rfl

/-- The per-group recovery fold on single-member 1-of-1 groups collects the
stored shares in order. -/
theorem combineGroupStep_fold_run (hmac : List Nat → List Nat → List Nat) :
    ∀ (l : List (Nat × List (Nat × List (Nat × List Nat))))
      (acc : List (Nat × List Nat)),
    (∀ p ∈ l, ∃ s, p.2 = [(1, [(0, s)])]) →
    (acc.map Prod.fst ++ l.map Prod.fst).Nodup →
    l.foldlM (combineGroupStep hmac) acc =
      .ok (acc ++ l.map (fun p =>
        (p.1, ((p.2.headD (0, [])).2.headD (0, [])).2)))
  | [], acc, _, _ => by
    rw [List.map_nil, List.append_nil]
    rfl
  | g :: l, acc, hsh, hnd => by
    rcases hsh g (by simp) with ⟨s, hs⟩
    have hstep : combineGroupStep hmac acc g = .ok (acc ++ [(g.1, s)]) := by
      rw [combineGroupStep]
      rw [hs]
      simp only [List.headD_cons]
      rw [if_neg (by simp)]
      rw [recoverSecret, if_pos rfl]
      simp only [List.head?_cons]
      have hfreshg : g.1 ∉ acc.map Prod.fst := by
        rw [List.nodup_append] at hnd
        intro hc
        exact hnd.2.2 hc (by simp)
      rw [jsMapSet_of_not_mem _ hfreshg]
    rw [foldlM_except_cons _ _ _ _ _ hstep]
    rw [combineGroupStep_fold_run hmac l (acc ++ [(g.1, s)])
      (fun p hp => hsh p (by simp [hp])) (by
        simp only [List.map_append]
        rw [List.append_assoc]
        simpa using hnd)]
    simp [hs]

theorem forall₂_map {α β γ : Type} (R : β → γ → Prop) (f : α → β) (g : α → γ) :
    ∀ l : List α, (∀ a ∈ l, R (f a) (g a)) →
    List.Forall₂ R (l.map f) (l.map g)
  | [], _ => List.Forall₂.nil
  | a :: l, h => List.Forall₂.cons (h a (by simp))
      (forall₂_map R f g l (fun a' ha' => h a' (by simp [ha'])))

theorem flatten_map_singleton {α β : Type} (f : α → β) :
    ∀ l : List α, (l.map (fun a => [f a])).flatten = l.map f
  | [] => rfl
  | a :: l => by
    rw [List.map_cons, List.flatten_cons, flatten_map_singleton f l]
    rfl

theorem decodeBigInt_two (i0 i1 : Nat) : decodeBigInt [i0, i1] = i0 * 256 + i1 := by
  rw [decodeBigInt]
  simp [List.foldl]

theorem intToIndices_id2 (i0 i1 : Nat) (h0 : i0 < 128) (h1 : i1 < 256) :
    intToIndices (decodeBigInt [i0, i1]) ITERATION_EXP_WORDS_LENGTH 8 =
      [i0, i1] := by
  rw [decodeBigInt_two]
  have hexp : intToIndices (i0 * 256 + i1) ITERATION_EXP_WORDS_LENGTH 8 =
      [((i0 * 256 + i1) >>> (1 * 8)) &&& ((1 <<< 8) - 1),
       ((i0 * 256 + i1) >>> (0 * 8)) &&& ((1 <<< 8) - 1)] := rfl
  rw [hexp, shiftR_eq, shiftR_eq,
    show ((1 <<< 8) - 1 : Nat) = 2 ^ 8 - 1 from rfl, and_mask_eq, and_mask_eq]
  congr 1
  · omega
  · congr 1
    omega

theorem mnemonics_group11 (i : Nat) (m : List Nat) :
    (Slip39Node.node i [] [Slip39Node.node 0 m []]).mnemonics = [m] := by
  rw [mnemonics_node_cons, List.map_cons, List.map_nil, mnemonics_leaf]
  rfl

theorem mnemonics_root_all11 (f : Nat → List Nat) (s n : Nat) (hn : 1 ≤ n) :
    (Slip39Node.node 0 [] ((List.range' s n).map (fun i =>
      Slip39Node.node i [] [Slip39Node.node 0 (f i) []]))).mnemonics =
      (List.range' s n).map f := by
  obtain ⟨m, rfl⟩ : ∃ m, n = m + 1 := ⟨n - 1, by omega⟩
  rw [List.range'_succ, List.map_cons, mnemonics_node_cons, List.map_cons,
    List.flatten_cons, mnemonics_group11, List.map_map]
  have hcong : (List.range' (s + 1) m).map
      (Slip39Node.mnemonics ∘ fun i => Slip39Node.node i []
        [Slip39Node.node 0 (f i) []]) =
      (List.range' (s + 1) m).map (fun i => [f i]) :=
    List.map_congr_left (fun i _ => mnemonics_group11 i (f i))
  rw [hcong, flatten_map_singleton, List.map_cons]
  rfl

/-- The root of an all-(1,1) share tree. -/
theorem buildRecursive_root_all11 (hmac : List Nat → List Nat → List Nat)
    (rng : Nat → Nat) (cfg : Slip39Config) (pos G T : Nat) (ems : List Nat)
    (hG : 1 ≤ G) {gShares : List (List Nat)} {pos1 : Nat}
    (hsplit : splitSecret hmac rng pos T G ems = .ok (gShares, pos1)) :
    buildRecursive hmac rng cfg pos 0 (List.replicate G (1, 1)) ems T 0 =
      .ok (.node 0 [] ((List.range' 0 G).map (fun i => .node i []
        [.node 0 (encodeMnemonic cfg.identifier cfg.extendableBackupFlag
          cfg.iterationExponent i cfg.groupThreshold cfg.groupCount 0 1
          (gShares.getD i [])) []])), pos1) := by
  obtain ⟨G', rfl⟩ : ∃ G', G = G' + 1 := ⟨G - 1, by omega⟩
  rw [List.replicate_succ, buildRecursive]
  simp only [List.length_cons, List.length_replicate]
  rw [hsplit]
  dsimp only
  rw [← List.replicate_succ, buildChildren_all11 hmac rng cfg (G' + 1) 0 pos1 gShares]

/-- **C1.** End-to-end round trip for all-(1,1) policies: generating from any
master secret of even byte length at least 16 (with byte-sized entries), any
passphrase, both flag values, any `groupCount ≤ 16` and
`groupThreshold ≤ groupCount`, and then combining the first `groupThreshold`
generated mnemonics with the same passphrase, returns exactly the original
master secret.  The external primitives are universally quantified under their
interface contracts (pbkdf2 returns the requested number of bytes, hmac
returns 32 bytes, both byte-valued; the RNG yields bytes); the identifier is
two bytes with a 15-bit value and the iteration exponent is at most 15. -/
theorem fromArray_combine_roundtrip
    (pbkdf2 : List Nat → List Nat → Nat → Nat → List Nat)
    (hmac : List Nat → List Nat → List Nat) (rng : Nat → Nat)
    (masterSecret passphrase : List Nat) (i0 i1 flag e G T : Nat)
    (hplen : ∀ p s it n, (pbkdf2 p s it n).length = n)
    (hpb : ∀ p s it n, ∀ b ∈ pbkdf2 p s it n, b < 256)
    (hhlen : ∀ a b, (hmac a b).length = 32)
    (hhb : ∀ a b, ∀ c ∈ hmac a b, c < 256)
    (hrng : ∀ i, rng i < 256)
    (hmsb : ∀ b ∈ masterSecret, b < 256)
    (hflag : flag ≤ 1) (he : e ≤ 15)
    (hi0 : i0 < 128) (hi1 : i1 < 256)
    (hG : G ≤ 16) (hT1 : 1 ≤ T) (hTG : T ≤ G)
    {cfg : Slip39Config} {root : Slip39Node}
    (hgen : fromArray pbkdf2 hmac rng masterSecret passphrase [i0, i1] flag e T
      (List.replicate G (1, 1)) = .ok (cfg, root)) :
    combineMnemonics pbkdf2 hmac (root.mnemonics.take T) passphrase =
      .ok masterSecret := by
  rw [fromArray] at hgen
  split at hgen
  · exact Except.noConfusion hgen
  split at hgen
  · exact Except.noConfusion hgen
  split at hgen
  · exact Except.noConfusion hgen
  split at hgen
  · exact Except.noConfusion hgen
  split at hgen
  · exact Except.noConfusion hgen
  split at hgen
  · exact Except.noConfusion hgen
  split at hgen
  · exact Except.noConfusion hgen
  split at hgen
  · exact Except.noConfusion hgen
  rename_i hlen8 hlenEven hpp hTG' h11 hidne hGne hTne
  have hmsLen : 16 ≤ masterSecret.length := by
    have : MIN_ENTROPY_BITS = 128 := rfl
    omega
  have hmsEven : masterSecret.length % 2 = 0 := by omega
  dsimp only at hgen
  cases hcrypt : crypt pbkdf2 masterSecret passphrase e [i0, i1] flag true with
  | error err =>
    rw [hcrypt] at hgen
    exact Except.noConfusion hgen
  | ok ems =>
    rw [hcrypt] at hgen
    dsimp only at hgen
    simp only [List.length_replicate] at hgen
    have hems := crypt_ok_props pbkdf2 masterSecret passphrase e [i0, i1] flag
      true hplen hpb hmsb hmsEven hcrypt
    have hGpos : 1 ≤ G := by
      by_contra hc
      have : G = 0 := by omega
      subst this
      simp at hGne
    cases hsplitg : splitSecret hmac rng 0 T G ems with
    | error err =>
      obtain ⟨G', rfl⟩ : ∃ G', G = G' + 1 := ⟨G - 1, by omega⟩
      rw [List.replicate_succ, buildRecursive] at hgen
      simp only [List.length_cons, List.length_replicate] at hgen
      rw [hsplitg] at hgen
      exact Except.noConfusion hgen
    | ok pr =>
      obtain ⟨gShares, pos1⟩ := pr
      rw [buildRecursive_root_all11 hmac rng _ 0 G T ems hGpos hsplitg] at hgen
      have hpair := Except.ok.inj hgen
      have hroot : root = .node 0 [] ((List.range' 0 G).map (fun i => .node i []
          [.node 0 (encodeMnemonic [i0, i1] flag e i T G 0 1
            (gShares.getD i [])) []])) := (congrArg Prod.snd hpair).symm
      have hemsLen : ems.length = masterSecret.length := hems.1
      have hsp := splitSecret_shares_props hmac rng 0 T G ems
        (by omega) hems.2 hrng hhlen hhb hsplitg
      -- the first `T` mnemonics
      have hmner : root.mnemonics.take T = (List.range T).map (fun i =>
          encodeMnemonic [i0, i1] flag e i T G 0 1 (gShares.getD i [])) := by
        rw [hroot, mnemonics_root_all11 _ 0 G hGpos, ← List.range_eq_range',
          ← List.map_take, List.take_range]
        have hmin : min T G = T := by omega
        rw [hmin]
      rw [hmner]
      -- every chosen mnemonic decodes to its record
      have hidlt : decodeBigInt [i0, i1] < 2 ^ 15 := by
        rw [decodeBigInt_two]
        omega
      have hshprops : ∀ i < G, (gShares.getD i []).length = masterSecret.length ∧
          ∀ b ∈ gShares.getD i [], b < 256 := by
        intro i hi
        have hig : gShares.getD i [] ∈ gShares := by
          rw [List.getD_eq_getElem _ _ (by rw [hsp.1]; exact hi)]
          exact List.getElem_mem _
        have := hsp.2 _ hig
        rw [hemsLen] at this
        exact this
      have hdec : ∀ i < G, decodeMnemonic
          (encodeMnemonic [i0, i1] flag e i T G 0 1 (gShares.getD i [])) =
          .ok { identifier := decodeBigInt [i0, i1], extendableBackupFlag := flag,
                iterationExponent := e, groupIndex := i, groupThreshold := T,
                groupCount := G, memberIndex := 0, memberThreshold := 1,
                share := gShares.getD i [] } := by
        intro i hi
        exact decode_encode_roundtrip [i0, i1] flag e i T G 0 1 (gShares.getD i [])
          hidlt hflag he (by omega) hT1 hTG hG (by omega) (by omega) (by omega)
          (by rw [(hshprops i hi).1]; omega)
          (by rw [(hshprops i hi).1]; omega)
          (hshprops i hi).2
      set ds := (List.range T).map (fun i =>
        ({ identifier := decodeBigInt [i0, i1], extendableBackupFlag := flag,
           iterationExponent := e, groupIndex := i, groupThreshold := T,
           groupCount := G, memberIndex := 0, memberThreshold := 1,
           share := gShares.getD i [] } : DecodedMnemonic)) with hds
      have hforall : List.Forall₂ (fun m d => decodeMnemonic m = .ok d)
          ((List.range T).map (fun i => encodeMnemonic [i0, i1] flag e i T G 0 1
            (gShares.getD i []))) ds := by
        rw [hds]
        refine forall₂_map _ _ _ _ ?_
        intro i hi
        exact hdec i (by have := List.mem_range.mp hi; omega)
      have hndds : (ds.map (fun d => d.groupIndex)).Nodup := by
        rw [hds, List.map_map]
        have hcomp : ((fun d : DecodedMnemonic => d.groupIndex) ∘ fun i : Nat =>
            ({ identifier := decodeBigInt [i0, i1], extendableBackupFlag := flag,
               iterationExponent := e, groupIndex := i, groupThreshold := T,
               groupCount := G, memberIndex := 0, memberThreshold := 1,
               share := gShares.getD i [] } : DecodedMnemonic)) =
            fun i : Nat => i := rfl
        rw [hcomp, List.map_id']
        exact List.nodup_range _
      have hnedds : ds ≠ [] := by
        rw [hds]
        intro hc
        rw [List.map_eq_nil_iff] at hc
        have := congrArg List.length hc
        rw [List.length_range] at this
        simp at this
        omega
      have hconst : ∀ d ∈ ds, d.identifier = decodeBigInt [i0, i1] ∧
          d.extendableBackupFlag = flag ∧ d.iterationExponent = e ∧
          d.groupThreshold = T ∧ d.groupCount = G := by
        rw [hds]
        intro d hd
        rcases List.mem_map.mp hd with ⟨i, _, rfl⟩
        exact ⟨rfl, rfl, rfl, rfl, rfl⟩
      have hdecrun := decodeMnemonics_run _ ds (decodeBigInt [i0, i1]) flag e T G
        hforall hndds hnedds hconst
      have hgroups : ds.map (fun d =>
          (d.groupIndex, [(d.memberThreshold, [(d.memberIndex, d.share)])])) =
          (List.range T).map (fun i =>
            (i, [(1, [(0, gShares.getD i [])])])) := by
        rw [hds, List.map_map]
        rfl
      rw [combineMnemonics,
        if_neg (by rw [List.length_map, List.length_range]; omega), hdecrun]
      dsimp only
      rw [hgroups]
      rw [if_neg (by rw [List.length_map, List.length_range]; omega),
        if_neg (by rw [List.length_map, List.length_range]; omega)]
      have hfold := combineGroupStep_fold_run hmac
        ((List.range T).map (fun i => (i, [(1, [(0, gShares.getD i [])])]))) []
        (by
          intro p hp
          rcases List.mem_map.mp hp with ⟨i, _, rfl⟩
          exact ⟨gShares.getD i [], rfl⟩)
        (by
          rw [List.map_nil, List.nil_append, List.map_map]
          have hcomp : (Prod.fst ∘ fun i : Nat =>
              (i, [((1 : Nat), [((0 : Nat), gShares.getD i [])])])) =
              fun i : Nat => i := rfl
          rw [hcomp, List.map_id']
          exact List.nodup_range _)
      rw [hfold]
      dsimp only
      have hmapmap : ((List.range T).map (fun i =>
          (i, [((1 : Nat), [((0 : Nat), gShares.getD i [])])]))).map (fun p =>
            (p.1, ((p.2.headD (0, [])).2.headD (0, [])).2)) =
          (List.range T).map (fun i => (i, gShares.getD i [])) := by
        rw [List.map_map]
        rfl
      rw [List.nil_append, hmapmap]
      have hrec := splitSecret_recoverSecret hmac rng 0 T G ems (List.range T)
        hT1 hTG (by show G ≤ MAX_SHARE_COUNT; show G ≤ 16; omega)
        (by omega) hems.2 hrng hhlen hhb (List.nodup_range _)
        (List.length_range _) (fun i hi => by
          have := List.mem_range.mp hi
          omega) hsplitg
      rw [hrec]
      dsimp only
      rw [intToIndices_id2 i0 i1 hi0 hi1]
      exact crypt_roundtrip pbkdf2 masterSecret passphrase e [i0, i1] flag hplen
        hmsEven (by show ¬ e > MAX_ITERATION_EXP; show ¬ e > 16; omega) hcrypt

/-! ## Subset thresholds and uniform header fields (C3, C8) and end-to-end witnesses. -/

theorem mapM_ok_of_forall_map {α β γ : Type} (l : List α) (f : α → β)
    (g : β → Except String γ) (r : α → γ)
    (h : ∀ a ∈ l, g (f a) = .ok (r a)) :
    (l.map f).mapM g = .ok (l.map r) := by
  induction l with
  | nil => rfl
  | cons a l ih =>
    rw [List.map_cons, List.mapM_cons, h a (by simp),
      ih (fun a' ha' => h a' (by simp [ha'])), List.map_cons]
    rfl

/-- **C3.** Single-group Shamir policy `(M, N)` with `1 ≤ M ≤ N ≤ 16`:
every size-`M` subset of the `N` shares produced by `splitSecret`, presented
in any order, recovers the secret through `recoverSecret` (the digest check
passes), and end-to-end recovery through `combineMnemonics` from the
mnemonics corresponding to any size-`(M−1)` subset fails with an error. -/
theorem splitSecret_subset_roundtrip
    (pbkdf2 : List Nat → List Nat → Nat → Nat → List Nat)
    (hmac : List Nat → List Nat → List Nat) (rng : Nat → Nat)
    (pos M N : Nat) (S : List Nat) (sel sel2 : List Nat)
    (passphrase : List Nat) (i0 i1 flag e : Nat)
    (hM : 1 ≤ M) (hMN : M ≤ N) (hN : N ≤ 16)
    (hSlen : 16 ≤ S.length) (hSeven : S.length % 2 = 0)
    (hSb : ∀ b ∈ S, b < 256)
    (hrng : ∀ i, rng i < 256)
    (hhlen : ∀ a b, (hmac a b).length = 32)
    (hhb : ∀ a b, ∀ c ∈ hmac a b, c < 256)
    (hflag : flag ≤ 1) (he : e ≤ 15) (hi0 : i0 < 128) (hi1 : i1 < 256)
    (hselnd : sel.Nodup) (hsellen : sel.length = M) (hsellt : ∀ i ∈ sel, i < N)
    (hsel2nd : sel2.Nodup) (hsel2len : sel2.length = M - 1)
    (hsel2lt : ∀ i ∈ sel2, i < N)
    {shares : List (List Nat)} {pos' : Nat}
    (hsplit : splitSecret hmac rng pos M N S = .ok (shares, pos')) :
    recoverSecret hmac M (sel.map (fun i => (i, shares.getD i []))) = .ok S ∧
    ∃ err, combineMnemonics pbkdf2 hmac (sel2.map (fun i =>
      encodeMnemonic [i0, i1] flag e 0 1 1 i M (shares.getD i [])))
      passphrase = .error err := by
  constructor
  · exact splitSecret_recoverSecret hmac rng pos M N S sel hM hMN
      (by show N ≤ MAX_SHARE_COUNT; show N ≤ 16; omega) (by omega) hSb hrng
      hhlen hhb hselnd hsellen hsellt hsplit
  · by_cases hM1 : M = 1
    · have hnil : sel2 = [] := List.length_eq_zero.mp (by omega)
      rw [hnil]
      exact ⟨"The list of mnemonics is empty.", rfl⟩
    · have hM2 : 2 ≤ M := by omega
      cases hres : combineMnemonics pbkdf2 hmac (sel2.map (fun i =>
          encodeMnemonic [i0, i1] flag e 0 1 1 i M (shares.getD i [])))
          passphrase with
      | error err => exact ⟨err, rfl⟩
      | ok r =>
        exfalso
        obtain ⟨ds, hds, hcnt⟩ := combineMnemonics_ok_counts _ _ _ _ hres
        have hsp := splitSecret_shares_props hmac rng pos M N S
          (by omega) hSb hrng hhlen hhb hsplit
        have hshprops : ∀ i < N, (shares.getD i []).length = S.length ∧
            ∀ b ∈ shares.getD i [], b < 256 := by
          intro i hi
          refine hsp.2 _ ?_
          rw [List.getD_eq_getElem _ _ (by rw [hsp.1]; exact hi)]
          exact List.getElem_mem _
        have hidlt : decodeBigInt [i0, i1] < 2 ^ 15 := by
          rw [decodeBigInt_two]
          omega
        have hmapM : (sel2.map (fun i =>
            encodeMnemonic [i0, i1] flag e 0 1 1 i M (shares.getD i []))).mapM
              decodeMnemonic =
            .ok (sel2.map (fun i => DecodedMnemonic.mk (decodeBigInt [i0, i1])
              flag e 0 1 1 i M (shares.getD i []))) := by
          refine mapM_ok_of_forall_map _ _ _ _ ?_
          intro i hi
          have hiN : i < N := hsel2lt i hi
          exact decode_encode_roundtrip [i0, i1] flag e 0 1 1 i M
            (shares.getD i []) hidlt hflag he (by omega) (by omega) (by omega)
            (by omega) (by omega) hM (by omega)
            (by rw [(hshprops i hiN).1]; omega)
            (by rw [(hshprops i hiN).1]; omega)
            (hshprops i hiN).2
        rw [hds] at hmapM
        have hdseq := Except.ok.inj hmapM
        have hne2 : sel2 ≠ [] := by
          intro hc
          rw [hc] at hsel2len
          simp at hsel2len
          omega
        obtain ⟨j0, hj0⟩ := List.exists_mem_of_ne_nil sel2 hne2
        have hd0 : DecodedMnemonic.mk (decodeBigInt [i0, i1]) flag e 0 1 1 j0 M
            (shares.getD j0 []) ∈ ds := by
          rw [hdseq]
          exact List.mem_map.mpr ⟨j0, hj0, rfl⟩
        have hcount := (hcnt _ hd0).2
        rw [hdseq] at hcount
        have hfilter : (sel2.map (fun i => DecodedMnemonic.mk
            (decodeBigInt [i0, i1]) flag e 0 1 1 i M (shares.getD i []))).filter
            (fun x => x.groupIndex = (DecodedMnemonic.mk (decodeBigInt [i0, i1])
              flag e 0 1 1 j0 M (shares.getD j0 [])).groupIndex) =
            sel2.map (fun i => DecodedMnemonic.mk (decodeBigInt [i0, i1])
              flag e 0 1 1 i M (shares.getD i [])) := by
          rw [List.filter_eq_self]
          intro a ha
          rcases List.mem_map.mp ha with ⟨i, _, rfl⟩
          exact decide_eq_true rfl
        rw [hfilter, List.map_map] at hcount
        have hcomp : ((fun x : DecodedMnemonic => x.memberIndex) ∘ fun i : Nat =>
            DecodedMnemonic.mk (decodeBigInt [i0, i1]) flag e 0 1 1 i M
              (shares.getD i [])) = fun i : Nat => i := rfl
        rw [hcomp, List.map_id', List.dedup_eq_self.mpr hsel2nd, hsel2len]
          at hcount
        have hMM : M - 1 = M := hcount
        omega

theorem splitSecret_ok_bounds (hmac : List Nat → List Nat → List Nat)
    (rng : Nat → Nat) (pos T N : Nat) (S : List Nat)
    {res : List (List Nat) × Nat}
    (h : splitSecret hmac rng pos T N S = .ok res) :
    1 ≤ T ∧ T ≤ N ∧ N ≤ 16 := by
  rw [splitSecret] at h
  split at h
  · exact Except.noConfusion h
  · split at h
    · exact Except.noConfusion h
    · split at h
      · exact Except.noConfusion h
      · rename_i h0 h1 h2
        have hmax : MAX_SHARE_COUNT = 16 := rfl
        omega

theorem mnemonics_node_leaves (f : Nat → List Nat) (i s n : Nat) (hn : 1 ≤ n) :
    (Slip39Node.node i [] ((List.range' s n).map (fun j =>
      Slip39Node.node j (f j) []))).mnemonics = (List.range' s n).map f := by
  obtain ⟨m, rfl⟩ : ∃ m, n = m + 1 := ⟨n - 1, by omega⟩
  rw [List.range'_succ, List.map_cons, mnemonics_node_cons, List.map_cons,
    List.flatten_cons, mnemonics_leaf, List.map_map]
  have hcong : (List.range' (s + 1) m).map
      (Slip39Node.mnemonics ∘ fun j => Slip39Node.node j (f j) []) =
      (List.range' (s + 1) m).map (fun j => [f j]) :=
    List.map_congr_left (fun j _ => mnemonics_leaf j (f j))
  rw [hcong, flatten_map_singleton, List.map_cons]
  rfl

theorem buildChildren_groups (hmac : List Nat → List Nat → List Nat)
    (rng : Nat → Nat) (cfg : Slip39Config) (gShares : List (List Nat)) :
    ∀ (gs : List (Nat × Nat)) (idx pos curIndex : Nat)
      (out : List Slip39Node) (posOut : Nat),
    (∀ g ∈ gs, 1 ≤ g.2) →
    buildChildren hmac rng cfg pos curIndex gs gShares idx = .ok (out, posOut) →
    out.length = gs.length ∧
    ∀ k, k < gs.length →
      ∃ mShares : List (List Nat), ∃ p1 p2 : Nat,
        splitSecret hmac rng p1 (gs.getD k (0, 0)).1 (gs.getD k (0, 0)).2
          (gShares.getD (idx + k) []) = .ok (mShares, p2) ∧
        out.getD k (.node 0 [] []) = .node (idx + k) []
          ((List.range' 0 (gs.getD k (0, 0)).2).map (fun j => .node j
            (encodeMnemonic cfg.identifier cfg.extendableBackupFlag
              cfg.iterationExponent (idx + k) cfg.groupThreshold cfg.groupCount
              j (gs.getD k (0, 0)).1 (mShares.getD j [])) []))
  | [], idx, pos, curIndex, out, posOut, _, h => by
    rw [buildChildren] at h
    have hout : ([] : List Slip39Node) = out :=
      congrArg Prod.fst (Except.ok.inj h)
    cases hout
    refine ⟨rfl, ?_⟩
    intro k hk
    exact absurd hk (by simp)
  | (M, N) :: gs, idx, pos, curIndex, out, posOut, hval, h => by
    have hN : 1 ≤ N := hval (M, N) (by simp)
    obtain ⟨N', rfl⟩ : ∃ n', N = n' + 1 := ⟨N - 1, by omega⟩
    rw [buildChildren] at h
    dsimp only at h
    cases hsp : splitSecret hmac rng pos M (N' + 1) (gShares.getD idx []) with
    | error e =>
      rw [show buildRecursive hmac rng cfg pos idx
          (List.replicate (N' + 1) (M, 0)) (gShares.getD idx []) M curIndex =
          .error e by
        rw [List.replicate_succ, buildRecursive]
        simp only [List.length_cons, List.length_replicate]
        rw [hsp]] at h
      exact Except.noConfusion h
    | ok msp =>
      obtain ⟨mShares, pos1⟩ := msp
      rw [buildRecursive_group hmac rng cfg pos idx M (N' + 1)
        (gShares.getD idx []) curIndex (by omega) hsp] at h
      dsimp only at h
      cases hrec : buildChildren hmac rng cfg pos1 curIndex gs gShares
          (idx + 1) with
      | error e =>
        rw [hrec] at h
        exact Except.noConfusion h
      | ok brp =>
        obtain ⟨branches, pos2⟩ := brp
        rw [hrec] at h
        dsimp only at h
        have hpair := Except.ok.inj h
        have hout : Slip39Node.node idx []
            ((List.range' 0 (N' + 1)).map (fun j => .node j
              (encodeMnemonic cfg.identifier cfg.extendableBackupFlag
                cfg.iterationExponent idx cfg.groupThreshold cfg.groupCount
                j M (mShares.getD j [])) [])) :: branches = out :=
          congrArg Prod.fst hpair
        have hih := buildChildren_groups hmac rng cfg gShares gs (idx + 1)
          pos1 curIndex branches pos2
          (fun g hg => hval g (by simp [hg])) hrec
        refine ⟨by rw [← hout, List.length_cons, hih.1, List.length_cons], ?_⟩
        intro k hk
        cases k with
        | zero =>
          refine ⟨mShares, pos, pos1, ?_, ?_⟩
          · rw [Nat.add_zero]
            exact hsp
          · rw [← hout]
            rw [Nat.add_zero]
            rfl
        | succ k' =>
          have hk' : k' < gs.length := by
            rw [List.length_cons] at hk
            omega
          obtain ⟨mS, p1, p2, hspk, houtk⟩ := hih.2 k' hk'
          refine ⟨mS, p1, p2, ?_, ?_⟩
          · rw [show idx + (k' + 1) = idx + 1 + k' by omega]
            exact hspk
          · rw [← hout]
            rw [show idx + (k' + 1) = idx + 1 + k' by omega]
            exact houtk

/-- **C8 (amended).** Uniform header fields across one generation, for
iteration exponents in [0, 15]: for every successful `fromArray` run over
valid member policies, the share tree is a root with one child node per
group; every leaf mnemonic decodes successfully, and all of them carry the
same identifier, extendable backup flag, iteration exponent, group threshold
and group count, while all mnemonics of one group carry that group's member
threshold.  The restriction to exponents at most 15 is necessary: generation
also accepts exponent 16, where the claim fails (see the counterexample
below). -/
theorem fromArray_mnemonics_uniform
    (pbkdf2 : List Nat → List Nat → Nat → Nat → List Nat)
    (hmac : List Nat → List Nat → List Nat) (rng : Nat → Nat)
    (masterSecret passphrase identifier : List Nat)
    (flag e GT : Nat) (groups : List (Nat × Nat))
    (hplen : ∀ p s it n, (pbkdf2 p s it n).length = n)
    (hpb : ∀ p s it n, ∀ b ∈ pbkdf2 p s it n, b < 256)
    (hhlen : ∀ a b, (hmac a b).length = 32)
    (hhb : ∀ a b, ∀ c ∈ hmac a b, c < 256)
    (hrng : ∀ i, rng i < 256)
    (hmsb : ∀ b ∈ masterSecret, b < 256)
    (hid : decodeBigInt identifier < 2 ^ 15)
    (hflag : flag ≤ 1) (he : e ≤ 15)
    (hgroups : ∀ g ∈ groups, 1 ≤ g.1 ∧ g.1 ≤ g.2 ∧ g.2 ≤ 16)
    {cfg : Slip39Config} {root : Slip39Node}
    (hgen : fromArray pbkdf2 hmac rng masterSecret passphrase identifier flag
      e GT groups = .ok (cfg, root)) :
    ∃ children : List Slip39Node,
      root = .node 0 [] children ∧ children.length = groups.length ∧
      ∀ k, k < groups.length →
        ∀ m ∈ (children.getD k (.node 0 [] [])).mnemonics,
          ∃ d, decodeMnemonic m = .ok d ∧
            d.identifier = decodeBigInt identifier ∧
            d.extendableBackupFlag = flag ∧
            d.iterationExponent = e ∧
            d.groupThreshold = GT ∧
            d.groupCount = groups.length ∧
            d.memberThreshold = (groups.getD k (0, 0)).1 := by
  rw [fromArray] at hgen
  split at hgen
  · exact Except.noConfusion hgen
  split at hgen
  · exact Except.noConfusion hgen
  split at hgen
  · exact Except.noConfusion hgen
  split at hgen
  · exact Except.noConfusion hgen
  split at hgen
  · exact Except.noConfusion hgen
  split at hgen
  · exact Except.noConfusion hgen
  split at hgen
  · exact Except.noConfusion hgen
  split at hgen
  · exact Except.noConfusion hgen
  rename_i hlen8 hlenEven hpp hGTle h11 hidne hGne hGTne
  have hmsLen : 16 ≤ masterSecret.length := by
    have hmeb : MIN_ENTROPY_BITS = 128 := rfl
    omega
  have hmsEven : masterSecret.length % 2 = 0 := by omega
  dsimp only at hgen
  cases hcrypt : crypt pbkdf2 masterSecret passphrase e identifier flag true with
  | error err =>
    rw [hcrypt] at hgen
    exact Except.noConfusion hgen
  | ok ems =>
    rw [hcrypt] at hgen
    dsimp only at hgen
    have hems := crypt_ok_props pbkdf2 masterSecret passphrase e identifier flag
      true hplen hpb hmsb hmsEven hcrypt
    obtain ⟨g0, gr, rfl⟩ : ∃ g0 gr, groups = g0 :: gr := by
      cases groups with
      | nil => exact absurd rfl hGne
      | cons a l => exact ⟨a, l, rfl⟩
    rw [buildRecursive] at hgen
    cases hsplitg : splitSecret hmac rng 0 GT (g0 :: gr).length ems with
    | error err =>
      rw [hsplitg] at hgen
      exact Except.noConfusion hgen
    | ok pr =>
      obtain ⟨gShares, pos1⟩ := pr
      rw [hsplitg] at hgen
      dsimp only at hgen
      cases hbc : buildChildren hmac rng
          { iterationExponent := e, extendableBackupFlag := flag,
            identifier := identifier, groupCount := (g0 :: gr).length,
            groupThreshold := GT } pos1 0 (g0 :: gr) gShares 0 with
      | error err =>
        rw [hbc] at hgen
        exact Except.noConfusion hgen
      | ok chp =>
        obtain ⟨children, pos2⟩ := chp
        rw [hbc] at hgen
        dsimp only at hgen
        have hpair := Except.ok.inj hgen
        have hroot : root = .node 0 [] children :=
          (congrArg Prod.snd hpair).symm
        have hbounds := splitSecret_ok_bounds hmac rng 0 GT
          (g0 :: gr).length ems hsplitg
        have hsp := splitSecret_shares_props hmac rng 0 GT
          (g0 :: gr).length ems (by omega) hems.2 hrng hhlen hhb hsplitg
        have hbg := buildChildren_groups hmac rng
          { iterationExponent := e, extendableBackupFlag := flag,
            identifier := identifier, groupCount := (g0 :: gr).length,
            groupThreshold := GT } gShares (g0 :: gr) 0 pos1 0
          children pos2
          (fun g hg => le_trans (hgroups g hg).1 (hgroups g hg).2.1) hbc
        refine ⟨children, hroot, hbg.1, ?_⟩
        intro k hk
        obtain ⟨mShares, p1, p2, hspk, houtk⟩ := hbg.2 k hk
        dsimp only at houtk
        rw [Nat.zero_add] at hspk houtk
        have hgk := hgroups ((g0 :: gr).getD k (0, 0))
          (by rw [List.getD_eq_getElem _ _ hk]; exact List.getElem_mem hk)
        have hNpos : 1 ≤ ((g0 :: gr).getD k (0, 0)).2 :=
          le_trans hgk.1 hgk.2.1
        have hgsk : (gShares.getD k []).length = ems.length ∧
            ∀ b ∈ gShares.getD k [], b < 256 := by
          refine hsp.2 _ ?_
          rw [List.getD_eq_getElem _ _ (by rw [hsp.1]; exact hk)]
          exact List.getElem_mem _
        have hmsp := splitSecret_shares_props hmac rng p1
          ((g0 :: gr).getD k (0, 0)).1 ((g0 :: gr).getD k (0, 0)).2
          (gShares.getD k [])
          (by rw [hgsk.1, hems.1]; omega) hgsk.2 hrng hhlen hhb hspk
        intro m hm
        rw [houtk, mnemonics_node_leaves _ k 0 _ hNpos] at hm
        obtain ⟨j, hj, rfl⟩ := List.mem_map.mp hm
        have hjN : j < ((g0 :: gr).getD k (0, 0)).2 := by
          have := List.mem_range'_1.mp hj
          omega
        have hleaf : (mShares.getD j []).length = masterSecret.length ∧
            ∀ b ∈ mShares.getD j [], b < 256 := by
          have hjlt : j < mShares.length := by rw [hmsp.1]; exact hjN
          have hmem : mShares.getD j [] ∈ mShares := by
            rw [List.getD_eq_getElem _ _ hjlt]
            exact List.getElem_mem _
          have := hmsp.2 _ hmem
          rw [hgsk.1, hems.1] at this
          exact this
        refine ⟨_, decode_encode_roundtrip identifier flag e k GT
          (g0 :: gr).length j ((g0 :: gr).getD k (0, 0)).1
          (mShares.getD j []) hid hflag he (by omega) hbounds.1 hbounds.2.1
          hbounds.2.2 (by omega) hgk.1 (by omega)
          (by rw [hleaf.1]; omega) (by rw [hleaf.1]; omega) hleaf.2,
          rfl, rfl, rfl, rfl, rfl, rfl⟩

set_option maxRecDepth 40000 in
theorem fromArray_combine_roundtrip_witness :
    combineMnemonics (fun _ _ _ n => List.replicate n 0)
      (fun _ _ => List.replicate 32 0)
      ((Slip39Node.node 0 [] [Slip39Node.node 0 []
        [Slip39Node.node 0 [0, 32, 0, 0, 7, 28, 112, 449, 775, 28, 112, 449,
          775, 28, 112, 449, 775, 941, 765, 483] []]]).mnemonics.take 1) [] =
      .ok (List.replicate 16 7) :=
  @fromArray_combine_roundtrip (fun _ _ _ n => List.replicate n 0)
    (fun _ _ => List.replicate 32 0) (fun _ => 0) (List.replicate 16 7) []
    0 1 0 0 1 1
    (fun _ _ _ n => by simp)
    (fun _ _ _ n b hb => by rw [List.eq_of_mem_replicate hb]; decide)
    (fun _ _ => rfl)
    (fun _ _ c hc => by rw [List.eq_of_mem_replicate hc]; decide)
    (fun i => Nat.succ_pos 255)
    (fun b hb => by rw [List.eq_of_mem_replicate hb]; decide)
    (by decide) (by decide) (by decide) (by decide) (by decide) (by decide)
    (by decide)
    { iterationExponent := 0, extendableBackupFlag := 0, identifier := [0, 1],
      groupCount := 1, groupThreshold := 1 }
    (Slip39Node.node 0 [] [Slip39Node.node 0 []
      [Slip39Node.node 0 [0, 32, 0, 0, 7, 28, 112, 449, 775, 28, 112, 449,
        775, 28, 112, 449, 775, 941, 765, 483] []]])
    (by
      rw [fromArray]
      rw [if_neg (by decide), if_neg (by decide), if_neg (by decide),
        if_neg (by decide), if_neg (by decide), if_neg (by decide),
        if_neg (by decide), if_neg (by decide)]
      dsimp only
      rw [show crypt (fun _ _ _ n => List.replicate n 0) (List.replicate 16 7)
        [] 0 [0, 1] 0 true = .ok (List.replicate 16 7) from rfl]
      simp only [List.length_replicate]
      rw [buildRecursive_root_all11 (fun _ _ => List.replicate 32 0)
        (fun _ => 0)
        { iterationExponent := 0, extendableBackupFlag := 0,
          identifier := [0, 1], groupCount := 1, groupThreshold := 1 }
        0 1 1 (List.replicate 16 7) (by decide)
        (splitSecret_one (fun _ _ => List.replicate 32 0) (fun _ => 0) 0
          (List.replicate 16 7))]
      rfl)

set_option maxRecDepth 40000 in
theorem splitSecret_subset_roundtrip_witness :
    recoverSecret (fun _ _ => List.replicate 32 0) 1
      ([0].map (fun i => (i, [List.replicate 16 7].getD i []))) =
      .ok (List.replicate 16 7) ∧
    ∃ err, combineMnemonics (fun _ _ _ n => List.replicate n 0)
      (fun _ _ => List.replicate 32 0)
      (([] : List Nat).map (fun i =>
        encodeMnemonic [0, 1] 0 0 0 1 1 i 1 ([List.replicate 16 7].getD i [])))
      [] = .error err :=
  @splitSecret_subset_roundtrip (fun _ _ _ n => List.replicate n 0)
    (fun _ _ => List.replicate 32 0) (fun _ => 0) 0 1 1
    (List.replicate 16 7) [0] [] [] 0 1 0 0
    (by decide) (by decide) (by decide)
    (by decide) (by decide)
    (fun b hb => by rw [List.eq_of_mem_replicate hb]; decide)
    (fun i => Nat.succ_pos 255)
    (fun _ _ => rfl)
    (fun _ _ c hc => by rw [List.eq_of_mem_replicate hc]; decide)
    (by decide) (by decide) (by decide) (by decide)
    (by decide) rfl
    (fun i hi => by rw [List.mem_singleton.mp hi]; decide)
    List.nodup_nil rfl
    (fun i hi => absurd hi (List.not_mem_nil i))
    [List.replicate 16 7] 0
    rfl

set_option maxRecDepth 40000 in
/-- **C8 (counterexample to the original claim).** At iteration exponent 16,
which generation accepts (`crypt` rejects only exponents above
`MAX_ITERATION_EXP = 16`), the claim fails: this successful 1-of-1 generation
on the zero master secret produces a share tree whose only mnemonic does not
decode at all, because the 4-bit exponent field overflows into the
extendable-flag bit and the checksum is then verified against the wrong
customization string. -/
theorem fromArray_exponent16_mnemonic_fails_to_decode :
    fromArray (fun _ _ _ n => List.replicate n 0)
      (fun _ _ => List.replicate 32 0) (fun _ => 0) (List.replicate 16 0) []
      [0, 0] 0 16 1 (List.replicate 1 (1, 1)) =
      .ok ({ iterationExponent := 16, extendableBackupFlag := 0,
             identifier := [0, 0], groupCount := 1, groupThreshold := 1 },
           .node 0 [] [.node 0 [] [.node 0 [0, 16, 0, 0, 0, 0, 0, 0, 0, 0, 0,
             0, 0, 0, 0, 0, 0, 18, 772, 792] []]]) ∧
    decodeMnemonic [0, 16, 0, 0, 0, 0, 0, 0, 0, 0, 0, 0, 0, 0, 0, 0, 0, 18,
      772, 792] = .error "Invalid mnemonic checksum" := by
  constructor
  · rw [fromArray]
    rw [if_neg (by decide), if_neg (by decide), if_neg (by decide),
      if_neg (by decide), if_neg (by decide), if_neg (by decide),
      if_neg (by decide), if_neg (by decide)]
    dsimp only
    rw [show crypt (fun _ _ _ n => List.replicate n 0) (List.replicate 16 0)
      [] 16 [0, 0] 0 true = .ok (List.replicate 16 0) from rfl]
    simp only [List.length_replicate]
    rw [buildRecursive_root_all11 (fun _ _ => List.replicate 32 0)
      (fun _ => 0)
      { iterationExponent := 16, extendableBackupFlag := 0,
        identifier := [0, 0], groupCount := 1, groupThreshold := 1 }
      0 1 1 (List.replicate 16 0) (by decide)
      (splitSecret_one (fun _ _ => List.replicate 32 0) (fun _ => 0) 0
        (List.replicate 16 0))]
    rfl
  · rfl

set_option maxRecDepth 40000 in
theorem fromArray_mnemonics_uniform_witness :
    ∃ children : List Slip39Node,
      (Slip39Node.node 0 [] [Slip39Node.node 0 [] [Slip39Node.node 0
        [0, 64, 0, 0, 9, 36, 144, 578, 265, 36, 144, 578, 265, 36, 144, 578,
         265, 587, 1006, 758] []]]) = .node 0 [] children ∧
      children.length = (List.replicate 1 ((1 : Nat), (1 : Nat))).length ∧
      ∀ k, k < (List.replicate 1 ((1 : Nat), (1 : Nat))).length →
        ∀ m ∈ (children.getD k (.node 0 [] [])).mnemonics,
          ∃ d, decodeMnemonic m = .ok d ∧
            d.identifier = decodeBigInt [0, 2] ∧
            d.extendableBackupFlag = 0 ∧
            d.iterationExponent = 0 ∧
            d.groupThreshold = 1 ∧
            d.groupCount = (List.replicate 1 ((1 : Nat), (1 : Nat))).length ∧
            d.memberThreshold = ((List.replicate 1 ((1 : Nat), (1 : Nat))).getD k (0, 0)).1 :=
  @fromArray_mnemonics_uniform (fun _ _ _ n => List.replicate n 0)
    (fun _ _ => List.replicate 32 0) (fun _ => 0) (List.replicate 16 9) []
    [0, 2] 0 0 1 (List.replicate 1 (1, 1))
    (fun _ _ _ n => by simp)
    (fun _ _ _ n b hb => by rw [List.eq_of_mem_replicate hb]; decide)
    (fun _ _ => rfl)
    (fun _ _ c hc => by rw [List.eq_of_mem_replicate hc]; decide)
    (fun i => Nat.succ_pos 255)
    (fun b hb => by rw [List.eq_of_mem_replicate hb]; decide)
    (by decide) (by decide) (by decide)
    (fun g hg => by
      rw [List.eq_of_mem_replicate hg]
      exact ⟨by decide, by decide, by decide⟩)
    { iterationExponent := 0, extendableBackupFlag := 0, identifier := [0, 2],
      groupCount := 1, groupThreshold := 1 }
    (Slip39Node.node 0 [] [Slip39Node.node 0 [] [Slip39Node.node 0
      [0, 64, 0, 0, 9, 36, 144, 578, 265, 36, 144, 578, 265, 36, 144, 578,
       265, 587, 1006, 758] []]])
    (by
      rw [fromArray]
      rw [if_neg (by decide), if_neg (by decide), if_neg (by decide),
        if_neg (by decide), if_neg (by decide), if_neg (by decide),
        if_neg (by decide), if_neg (by decide)]
      dsimp only
      rw [show crypt (fun _ _ _ n => List.replicate n 0) (List.replicate 16 9)
        [] 0 [0, 2] 0 true = .ok (List.replicate 16 9) from rfl]
      simp only [List.length_replicate]
      rw [buildRecursive_root_all11 (fun _ _ => List.replicate 32 0)
        (fun _ => 0)
        { iterationExponent := 0, extendableBackupFlag := 0,
          identifier := [0, 2], groupCount := 1, groupThreshold := 1 }
        0 1 1 (List.replicate 16 9) (by decide)
        (splitSecret_one (fun _ _ => List.replicate 32 0) (fun _ => 0) 0
          (List.replicate 16 9))]
      rfl)
